import Mathlib

/-!
# Default model and frequency grid of the maximum-entropy core

A shallow embedding of `default_model.cpp` and `maxent_grid.cpp`.

* `double` values are elements of a linearly ordered field `K` (exact
  arithmetic); every definition is computable and can be run at `K = ℚ`.
* A `std::vector<double>` is a `List K`; `operator[]` with an index outside
  the vector is reported as `Err.outOfBounds`.
* A division whose divisor is not a literal is `safeDiv`: a zero divisor
  (which gives `inf` or `NaN` in the program) is reported as
  `Err.divisionByZero`.
* `throw std::logic_error` is `Err.domain`, `std::invalid_argument` is
  `Err.config`.
* The resolution `ntab` of the table, which the constructor of
  `GeneralDefaultModel` fixes to `5001`, and the bounds `omega_min`,
  `omega_max` read from the parameters are arguments of `construct`.
* An `int` holding a size or a loop counter is a `Nat`; an `int` that can
  become negative (an index `index - 1`) is an `Int`.
* The functions `tan`, `exp`, `log` and the constant `M_PI` are arguments of
  the grid schemes that use them; the properties of these schemes are
  stated with the real functions. Conversions to `float` are exact.
* A line of the table file is its list of characters; the extraction
  `linestream >> om >> D` is an argument of the loading loop.
-/

set_option linter.unusedSectionVars false

namespace Maxent

/-- Ways in which a run of the program leaves exact real arithmetic. -/
inductive Err where
  | domain
  | config
  | outOfBounds
  | divisionByZero
  deriving DecidableEq, Repr

deriving instance DecidableEq for Except

section Basics

variable {K : Type} [LinearOrderedField K]

/-- Division `a / b` of two doubles, with the zero divisor made explicit. -/
def safeDiv (a b : K) : Except Err K :=
  if b = 0 then .error .divisionByZero else .ok (a / b)

/-- Read `v[i]` for an `int` index `i`. -/
def readAt (v : List K) (i : Int) : Except Err K :=
  if i < 0 then .error .outOfBounds
  else match v[i.toNat]? with
    | some a => .ok a
    | none => .error .outOfBounds

/-- Write `v[i] = a` for an `int` index `i`. -/
def writeAt (v : List K) (i : Int) (a : K) : Except Err (List K) :=
  if i < 0 then .error .outOfBounds
  else if i.toNat < v.length then .ok (v.set i.toNat a)
  else .error .outOfBounds

/-- The loop of `std::upper_bound` (the halving search of the standard
library): `first` is the start of the remaining range and `len` its length;
the first argument bounds the number of iterations. -/
def upper_bound_loop (v : List K) (val : K) : Nat → Nat → Nat → Nat
  | 0, first, _ => first
  | fuel + 1, first, len =>
    if 0 < len then
      let half := len / 2
      let middle := first + half
      match v[middle]? with
      | some m =>
        if val < m then upper_bound_loop v val fuel first half
        else upper_bound_loop v val fuel (middle + 1) (len - half - 1)
      | none => first
    else first

/-- The index `std::upper_bound(v.begin(), v.end(), val) - v.begin()`. -/
def upper_bound (v : List K) (val : K) : Nat :=
  upper_bound_loop v val v.length 0 v.length

/-- The entry `v[i]` of a table (read only at indices inside the table;
`0` outside). -/
def entry (v : List K) (i : Nat) : K := v.getD i 0

/-- A table is ascending when its entries do not decrease with the index. -/
def Ascending (v : List K) : Prop :=
  ∀ i j, i ≤ j → j < v.length → entry v i ≤ entry v j

end Basics

/-! ## TabFunction -/

/-- The tabulated model: `Omega` holds the abscissae, `Def` the values. -/
structure TabFunction (K : Type) where
  Omega : List K
  Def : List K

namespace TabFunction

variable {K : Type} [LinearOrderedField K]

/-- The call operator `TabFunction::operator()`: the table value at
`omega`, interpolated linearly, and `0` outside the table range. -/
def evaluate (f : TabFunction K) (omega : K) : Except Err K := do
  let front ← readAt f.Omega 0
  let back ← readAt f.Omega ((f.Omega.length : Int) - 1)
  if omega < front ∨ omega > back then
    pure 0
  else
    let index : Int := (upper_bound f.Omega omega : Nat)
    let om1 ← readAt f.Omega (index - 1)
    let om2 ← readAt f.Omega index
    let D1 ← readAt f.Def (index - 1)
    let D2 ← readAt f.Def index
    let q ← safeDiv (-(D2 - D1)) (om2 - om1)
    pure (q * (om2 - omega) + D2)

/-- The `while (getline(defstream, line))` loop of the constructor
`TabFunction::TabFunction`, over the lines that are still to be read. A
line is its sequence of characters; `extract line (om, D)` stands for the
effect of `linestream >> om >> D` on the two variables (which keep their
values from the line before when the extraction fails). -/
def loadLoop (extract : List Char → K × K → K × K) :
    List (List Char) → K × K → TabFunction K → TabFunction K
  | [], _, f => f
  | line :: rest, vars, f =>
    if 0 < line.length ∧ line.head? = some '#' then
      loadLoop extract rest vars f
    else
      let vars1 := extract line vars
      loadLoop extract rest vars1
        { Omega := f.Omega ++ [vars1.1], Def := f.Def ++ [vars1.2] }

/-- The table read by the constructor `TabFunction::TabFunction` from the
lines of the file; `init` holds the values of the uninitialised variables
`om` and `D`. -/
def load (extract : List Char → K × K → K × K) (init : K × K)
    (lines : List (List Char)) : TabFunction K :=
  loadLoop extract lines init { Omega := [], Def := [] }

/-- The constructor `TabFunction::TabFunction` on an opened file: the table
is read, then `Omega[0]` and `Omega.back()` are compared with the bounds
(the outcome is only printed). -/
def construct (extract : List Char → K × K → K × K) (init : K × K)
    (lines : List (List Char)) : Except Err (TabFunction K) := do
  let f := load extract init lines
  let _ ← readAt f.Omega 0
  let _ ← readAt f.Omega ((f.Omega.length : Int) - 1)
  pure f

/-- The reading of the specification: the first character of the line that
is not a space is `#`. -/
def firstNonSpaceIsHash (line : List Char) : Bool :=
  (line.dropWhile Char.isWhitespace).head? = some '#'

/-- The test of the loading loop: the line starts with `#`. -/
def startsWithHash (line : List Char) : Bool :=
  line.head? = some '#'

end TabFunction

/-! ## GeneralDefaultModel -/

/-- The members of `GeneralDefaultModel` (with those of its base class
`DefaultModel`): the bounds of the support, the density, the resolution of
the table and the table itself. -/
structure GeneralDefaultModel (K : Type) where
  omega_min : K
  omega_max : K
  Mod : K → K
  ntab : Nat
  xtab : List K

namespace GeneralDefaultModel

variable {K : Type} [LinearOrderedField K]

/-- The body of the `for` loop of `norm()`, run `steps` times from index `o`
with running value `sum`. -/
def normLoop (Mod : K → K) (omega_min delta_omega : K) :
    Nat → Nat → K → List K → Except Err (K × List K)
  | 0, _, sum, xtab => .ok (sum, xtab)
  | steps + 1, o, sum, xtab => do
    let omega1 := omega_min + (((o : Int) - 1 : Int) : K) * delta_omega
    let omega2 := omega_min + ((o : Int) : K) * delta_omega
    let sum1 := sum + (Mod omega1 + Mod omega2) / 2 * delta_omega
    let xtab1 ← writeAt xtab o sum1
    normLoop Mod omega_min delta_omega steps (o + 1) sum1 xtab1

/-- The method `GeneralDefaultModel::norm`: returns the total and the filled
table. -/
def norm (e : GeneralDefaultModel K) : Except Err (K × List K) := do
  let xtab0 ← writeAt e.xtab 0 0
  let delta_omega ← safeDiv (e.omega_max - e.omega_min) ((((e.ntab : Int) - 1 : Int)) : K)
  normLoop e.Mod e.omega_min delta_omega (e.ntab - 1) 1 0 xtab0

/-- The loop `xtab[o] *= 1./sum` of the constructor, over the entries that
are still to be scaled. -/
def scaleLoop (sum : K) : List K → Except Err (List K)
  | [] => .ok []
  | a :: rest => do
    let r ← safeDiv 1 sum
    let rest1 ← scaleLoop sum rest
    pure (a * r :: rest1)

/-- The constructor `GeneralDefaultModel::GeneralDefaultModel`, with the
resolution `ntab` (which the initialiser list fixes to `5001`) and the
bounds read from the parameters as arguments. -/
def construct (ntab : Nat) (omega_min omega_max : K) (Mod : K → K) :
    Except Err (GeneralDefaultModel K) := do
  let e0 : GeneralDefaultModel K :=
    { omega_min := omega_min, omega_max := omega_max, Mod := Mod, ntab := ntab,
      xtab := List.replicate ntab 0 }
  let (sum, xtab1) ← norm e0
  let xtab2 ← scaleLoop sum xtab1
  pure { e0 with xtab := xtab2 }

/-- The method `GeneralDefaultModel::omega`: given `x` between 0 and 1, the
frequency belonging to `x`. -/
def omega (e : GeneralDefaultModel K) (x : K) : Except Err K :=
  if x > 1 ∨ x < 0 then .error .domain
  else do
    let ub := upper_bound e.xtab x
    let omega_index : Int :=
      if ub = e.xtab.length then (e.xtab.length : Int) - 0 - 1 else (ub : Int)
    let d : K := (((e.ntab : Int) - 1 : Int) : K)
    let q1 ← safeDiv (((omega_index - 1 : Int) : K) * (e.omega_max - e.omega_min)) d
    let om1 := e.omega_min + q1
    let q2 ← safeDiv ((omega_index : K) * (e.omega_max - e.omega_min)) d
    let om2 := e.omega_min + q2
    let x1 ← readAt e.xtab (omega_index - 1)
    let x2 ← readAt e.xtab omega_index
    let q ← safeDiv (-(om2 - om1)) (x2 - x1)
    pure (q * (x2 - x) + om2)

/-- The index `omega_index` computed by `GeneralDefaultModel::omega`: the
result of the search, replaced by the last index when the search reaches
the end of the table. -/
def omega_index (e : GeneralDefaultModel K) (x : K) : Int :=
  if upper_bound e.xtab x = e.xtab.length then (e.xtab.length : Int) - 0 - 1
  else (upper_bound e.xtab x : Int)

/-- The method `GeneralDefaultModel::D`: the value of the model function at
frequency `omega`. -/
def D (e : GeneralDefaultModel K) (omega : K) : K := e.Mod omega

/-- The conversion `(int)v` of a double: truncation towards zero. -/
def toInt [FloorRing K] (v : K) : Int := if 0 ≤ v then ⌊v⌋ else ⌈v⌉

/-- The method `GeneralDefaultModel::x`. -/
def x [FloorRing K] (e : GeneralDefaultModel K) (t : K) : Except Err K :=
  if t > 1 ∨ t < 0 then .error .domain
  else
    let od : Int := toInt (t * (((e.ntab : Int) - 1 : Int) : K))
    if od = (e.ntab : Int) - 1 then .ok 1
    else do
      let x1 ← readAt e.xtab od
      let x2 ← readAt e.xtab (od + 1)
      pure (-(x2 - x1) * (((od + 1 : Int) : K) - t * ((e.ntab : Int) : K)) + x2)

/-! ### Reference quantities of the table -/

/-- The grid step `Δω = (omega_max - omega_min)/(ntab - 1)`. -/
def gridStep (omega_min omega_max : K) (ntab : Nat) : K :=
  (omega_max - omega_min) / ((ntab : K) - 1)

/-- The grid frequency `ω(k) = omega_min + k*Δω`. -/
def gridPoint (omega_min omega_max : K) (ntab : Nat) (k : Nat) : K :=
  omega_min + (k : K) * gridStep omega_min omega_max ntab

/-- The cumulative trapezoidal rule on the grid: `0` at index `0`, and each
further index adds `(f(ω(o-1)) + f(ω(o)))/2 * Δω`. -/
def trapezoid (Mod : K → K) (omega_min omega_max : K) (ntab : Nat) : Nat → K
  | 0 => 0
  | o + 1 => trapezoid Mod omega_min omega_max ntab o
      + (Mod (gridPoint omega_min omega_max ntab o)
          + Mod (gridPoint omega_min omega_max ntab (o + 1))) / 2
        * gridStep omega_min omega_max ntab

/-- The table of an engine is a cumulative distribution: it has `ntab ≥ 2`
entries, starts at `0`, ends at `1` and does not decrease. -/
def IsCDF (e : GeneralDefaultModel K) : Prop :=
  e.xtab.length = e.ntab ∧ 2 ≤ e.ntab ∧ entry e.xtab 0 = 0 ∧
    entry e.xtab (e.ntab - 1) = 1 ∧ Ascending e.xtab

/-! ### Densities used in the examples -/

/-- The density that is `1` up to `0` and `0` beyond. -/
def stepDown (w : ℚ) : ℚ := if w ≤ 0 then 1 else 0

/-- The density that is `0` up to `2` and `1` beyond. -/
def stepUp (w : ℚ) : ℚ := if w ≤ 2 then 0 else 1

end GeneralDefaultModel

/-! ## map_to_zeroone_interval -/

section Grid

variable {K : Type} [LinearOrderedField K]

/-- A loop `for (i = start; i < start + count; ++i) a[i] = f(i)` that fills
consecutive entries: the values written, in order. -/
def fillLoop (f : Nat → Except Err K) : Nat → Nat → Except Err (List K)
  | 0, _ => .ok []
  | count + 1, start => do
    let a ← f start
    let rest ← fillLoop f count (start + 1)
    pure (a :: rest)

/-- The method `map_to_zeroone_interval::initialize_linear_map`: the array `t_array_`
(of size `nfreq_ + 1`) after the call. -/
def initialize_linear_map (nfreq : Nat) : Except Err (List K) :=
  fillLoop (fun i => safeDiv ((i : Int) : K) ((nfreq : Int) : K)) (nfreq + 1) 0

/-- The final loop of both Lorentzian schemes:
`t_array_[i] = (temp[i] - temp[0]) / (temp[temp.size() - 1] - temp[0])`
for `i = 0 .. count - 1`. -/
def rescaleLoop (temp : List K) (count : Nat) : Except Err (List K) :=
  fillLoop (fun i => do
      let ti ← readAt temp i
      let t0 ← readAt temp 0
      let tl ← readAt temp ((temp.length : Int) - 1)
      safeDiv (ti - t0) (tl - t0)) count 0

/-- The method `map_to_zeroone_interval::initialize_lorentzian_grid`, with the tangent
and the constant `M_PI` as arguments: the array `t_array_` after the call. -/
def initialize_lorentzian_grid (tan : K → K) (pi : K) (nfreq : Nat) (cut : K) :
    Except Err (List K) := do
  let temp ← fillLoop (fun i => do
      let q ← safeDiv ((i : Int) : K) ((nfreq : Int) : K)
      pure (tan (pi * (q * (1 - 2 * cut) + cut - 1 / 2)))) (nfreq + 1) 0
  rescaleLoop temp (nfreq + 1)

/-- The method `map_to_zeroone_interval::initialize_half_lorentzian_grid`,
with the tangent and the constant `M_PI` as arguments: the array `t_array_`
after the call. -/
def initialize_half_lorentzian_grid (tan : K → K) (pi : K) (nfreq : Nat) (cut : K) :
    Except Err (List K) := do
  let temp ← fillLoop (fun i => do
      let q ← safeDiv ((((i : Int) + (nfreq : Int) : Int)) : K)
        (((2 * (nfreq : Int) - 1 : Int)) : K)
      pure (tan (pi * (q * (1 - 2 * cut) + cut - 1 / 2)))) (nfreq + 1) 0
  rescaleLoop temp (nfreq + 1)

/-- The first loop of `initialize_quadratic_map`, run `steps` times from
index `i` with running value `t`: the array `temp`. -/
def quadraticLoop (nfreq : Nat) (spread : K) : Nat → Nat → K → List K → Except Err (List K)
  | 0, _, _, temp => .ok temp
  | steps + 1, i, t, temp => do
    let a ← safeDiv ((i : Int) : K) ((((nfreq : Int) - 1 : Int)) : K)
    let factor := 4 * (spread - 1) * (a * a - a) + spread
    let r ← safeDiv ((((nfreq : Int) - 1 : Int)) : K) (3 * ((((nfreq : Int) - 2 : Int)) : K))
    let factor1 ← safeDiv factor
      (r * (((((nfreq : Int) - 1 : Int)) : K) * (2 + spread) - 4 + spread))
    let delta_t := factor1
    let t1 := t + delta_t
    let temp1 ← writeAt temp i t1
    quadraticLoop nfreq spread steps (i + 1) t1 temp1

/-- The method `map_to_zeroone_interval::initialize_quadratic_map`: the
array `t_array_` after the call. -/
def initialize_quadratic_map (nfreq : Nat) (spread : K) : Except Err (List K) :=
  if spread < 1 then .error .config
  else do
    let temp ← quadraticLoop nfreq spread nfreq 0 0 (List.replicate nfreq 0)
    let rest ← fillLoop (fun i => do
        let a ← readAt temp ((i : Int) - 1)
        let l ← readAt temp ((temp.length : Int) - 1)
        safeDiv a l) nfreq 1
    pure (0 :: rest)

/-- The `for` loop of `initialize_logarithmic_map`, run `steps` times from
index `i` (the conversions to `float` are exact here). -/
def logarithmicLoop (exp : K → K) (nfreq : Nat) (t_min scale : K) :
    Nat → Nat → List K → Except Err (List K)
  | 0, _, t => .ok t
  | steps + 1, i, t => do
    let t1 ← writeAt t ((((nfreq / 2 : Nat) : Int)) + (i : Int) + 1)
      (1 / 2 + t_min * exp (((i : Int) : K) * scale))
    let t2 ← writeAt t1 ((((nfreq / 2 : Nat) : Int)) - (i : Int) - 1)
      (1 / 2 - t_min * exp (((i : Int) : K) * scale))
    logarithmicLoop exp nfreq t_min scale steps (i + 1) t2

/-- The method `map_to_zeroone_interval::initialize_logarithmic_map`, with
the exponential and the logarithm as arguments: the array `t_array_` after
the call. In the last statement `(float) (nfreq_) / 2` is the quotient of
two floating-point numbers. -/
def initialize_logarithmic_map (exp log : K → K) (nfreq : Nat) (t_min : K) :
    Except Err (List K) := do
  let t_max : K := 1 / 2
  let r ← safeDiv t_max t_min
  let scale ← safeDiv (log r) ((((((nfreq / 2 : Nat) : Int)) - 1 : Int)) : K)
  let t0 ← writeAt (List.replicate (nfreq + 1) 0) (((nfreq / 2 : Nat) : Int)) (1 / 2)
  let t1 ← logarithmicLoop exp nfreq t_min scale (nfreq / 2) 0 t0
  if nfreq % 2 ≠ 0 then
    writeAt t1 ((((nfreq / 2 : Nat) : Int)) + (((nfreq / 2 : Nat) : Int)) + 1)
      (1 / 2 + t_min * exp (((nfreq : Int) : K) / 2 * scale))
  else pure t1

/-! ### Reference quantities of the quadratic scheme -/

/-- The per-step increment of the quadratic scheme before normalisation:
`4(spread-1)(a²-a) + spread` with `a = i/(nfreq-1)`. -/
def quadraticIncrement (nfreq : Nat) (spread : K) (i : Nat) : K :=
  4 * (spread - 1)
    * ((i : K) / ((nfreq : K) - 1) * ((i : K) / ((nfreq : K) - 1)) - (i : K) / ((nfreq : K) - 1))
    + spread

/-- The normalisation constant of the quadratic scheme:
`C = (nfreq-1)/(3(nfreq-2)) * ((nfreq-1)(2+spread) - 4 + spread)`. -/
def quadraticConstant (nfreq : Nat) (spread : K) : K :=
  ((nfreq : K) - 1) / (3 * ((nfreq : K) - 2)) * (((nfreq : K) - 1) * (2 + spread) - 4 + spread)

end Grid

end Maxent

/-! # Properties -/

/-! ## Tables and the upper-bound search -/

namespace Maxent
section Tables
variable {K : Type} [LinearOrderedField K]

theorem getElem?_eq_some_entry (v : List K) (i : Nat) (h : i < v.length) :
    v[i]? = some (entry v i) := by
  simp [entry, List.getD, List.getElem?_eq_getElem h]

theorem safeDiv_ok (a : K) {b : K} (h : b ≠ 0) : safeDiv a b = .ok (a / b) := by
  simp [safeDiv, h]

theorem safeDiv_zero (a : K) : safeDiv a (0 : K) = .error .divisionByZero := by
  simp [safeDiv]

theorem readAt_ok (v : List K) (i : Nat) (h : i < v.length) :
    readAt v (i : Int) = .ok (entry v i) := by
  have : ¬ ((i : Int) < 0) := by omega
  simp [readAt, this, getElem?_eq_some_entry v i h]

theorem readAt_length_le (v : List K) (i : Nat) (h : v.length ≤ i) :
    readAt v (i : Int) = .error .outOfBounds := by
  have : ¬ ((i : Int) < 0) := by omega
  simp [readAt, this, List.getElem?_eq_none h]

theorem writeAt_ok (v : List K) (i : Nat) (a : K) (h : i < v.length) :
    writeAt v (i : Int) a = .ok (v.set i a) := by
  have : ¬ ((i : Int) < 0) := by omega
  simp [writeAt, this, h]

theorem upper_bound_loop_spec (v : List K) (val : K) (hv : Ascending v) :
    ∀ fuel first len, len ≤ fuel → first + len ≤ v.length →
      (∀ i, i < first → entry v i ≤ val) →
      (∀ i, first + len ≤ i → i < v.length → val < entry v i) →
      first ≤ upper_bound_loop v val fuel first len ∧
      upper_bound_loop v val fuel first len ≤ first + len ∧
      (∀ i, i < upper_bound_loop v val fuel first len → entry v i ≤ val) ∧
      (∀ i, upper_bound_loop v val fuel first len ≤ i → i < v.length → val < entry v i) := by
  intro fuel
  induction fuel with
  | zero =>
    intro first len hlen hle hlo hhi
    have h0 : len = 0 := by omega
    subst h0
    simpa [upper_bound_loop] using ⟨hlo, hhi⟩
  | succ fuel ih =>
    intro first len hlen hle hlo hhi
    by_cases hpos : 0 < len
    · have hmid : first + len / 2 < v.length := by
        have := Nat.div_lt_self hpos (by norm_num : 1 < 2)
        omega
      by_cases hlt : val < entry v (first + len / 2)
      · have hstep : upper_bound_loop v val (fuel + 1) first len
            = upper_bound_loop v val fuel first (len / 2) := by
          simp [upper_bound_loop, hpos, getElem?_eq_some_entry v _ hmid, hlt]
        rw [hstep]
        have := ih first (len / 2) (by omega) (by omega) hlo (by
          intro i hi1 hi2
          exact lt_of_lt_of_le hlt (hv _ _ hi1 hi2))
        refine ⟨this.1, by omega, this.2.2.1, this.2.2.2⟩
      · have hstep : upper_bound_loop v val (fuel + 1) first len
            = upper_bound_loop v val fuel (first + len / 2 + 1) (len - len / 2 - 1) := by
          simp [upper_bound_loop, hpos, getElem?_eq_some_entry v _ hmid, hlt]
        rw [hstep]
        have := ih (first + len / 2 + 1) (len - len / 2 - 1) (by omega) (by omega) (by
          intro i hi
          exact le_trans (hv i _ (by omega) hmid) (not_lt.mp hlt)) (by
          intro i hi1 hi2
          exact hhi i (by omega) hi2)
        refine ⟨by omega, by omega, this.2.2.1, this.2.2.2⟩
    · have h0 : len = 0 := by omega
      subst h0
      simpa [upper_bound_loop] using ⟨hlo, hhi⟩

theorem upper_bound_spec (v : List K) (val : K) (hv : Ascending v) :
    upper_bound v val ≤ v.length ∧
    (∀ i, i < upper_bound v val → entry v i ≤ val) ∧
    (∀ i, upper_bound v val ≤ i → i < v.length → val < entry v i) := by
  have := upper_bound_loop_spec v val hv v.length 0 v.length le_rfl (by omega)
    (by intro i hi; omega) (by intro i h1 h2; omega)
  simpa [upper_bound] using this.2

end Tables
end Maxent

namespace Maxent
section TabFunctionLemmas
variable {K : Type} [LinearOrderedField K]

theorem entry_eq_getElem (v : List K) (i : Nat) (h : i < v.length) : entry v i = v[i] := by
  simp [entry, List.getD, List.getElem?_eq_getElem h]

theorem sorted_lt_entry {v : List K} (hs : v.Sorted (· < ·)) {i j : Nat} (hij : i < j)
    (hj : j < v.length) : entry v i < entry v j := by
  rw [entry_eq_getElem v i (by omega), entry_eq_getElem v j hj]
  exact List.pairwise_iff_getElem.mp hs i j (by omega) hj hij

theorem ascending_of_sorted_lt {v : List K} (hs : v.Sorted (· < ·)) : Ascending v := by
  intro i j hij hj
  rcases Nat.eq_or_lt_of_le hij with h | h
  · subst h; exact le_rfl
  · exact le_of_lt (sorted_lt_entry hs h hj)

/-- Between the first and the last abscissa (the last one excluded) the
search stops at an interior index and the interpolation is carried out. -/
theorem TabFunction.evaluate_inside (f : TabFunction K) (x : K)
    (hs : f.Omega.Sorted (· < ·)) (hy : f.Def.length = f.Omega.length)
    (h0 : entry f.Omega 0 ≤ x) (h1 : x < entry f.Omega (f.Omega.length - 1)) :
    1 ≤ upper_bound f.Omega x ∧ upper_bound f.Omega x < f.Omega.length ∧
    f.evaluate x = .ok (-(entry f.Def (upper_bound f.Omega x)
        - entry f.Def (upper_bound f.Omega x - 1))
      / (entry f.Omega (upper_bound f.Omega x) - entry f.Omega (upper_bound f.Omega x - 1))
      * (entry f.Omega (upper_bound f.Omega x) - x) + entry f.Def (upper_bound f.Omega x)) := by
  obtain ⟨hle, hlo, hhi⟩ := upper_bound_spec f.Omega x (ascending_of_sorted_lt hs)
  set i := upper_bound f.Omega x with hi
  have hlen : 0 < f.Omega.length := by
    rcases Nat.eq_zero_or_pos f.Omega.length with h | h
    · exfalso
      have e1 : entry f.Omega 0 = 0 := by simp [entry, List.length_eq_zero.mp h]
      have e2 : entry f.Omega (f.Omega.length - 1) = 0 := by
        simp [entry, List.length_eq_zero.mp h]
      rw [e1] at h0; rw [e2] at h1
      exact absurd (lt_of_le_of_lt h0 h1) (lt_irrefl _)
    · exact h
  have hi1 : 1 ≤ i := by
    by_contra hc
    have : i = 0 := by omega
    have := hhi 0 (by omega) hlen
    exact absurd (lt_of_le_of_lt h0 this) (lt_irrefl _)
  have hi2 : i < f.Omega.length := by
    by_contra hc
    have := hlo (f.Omega.length - 1) (by omega)
    exact absurd (lt_of_lt_of_le h1 this) (lt_irrefl _)
  refine ⟨hi1, hi2, ?_⟩
  have hne : entry f.Omega i - entry f.Omega (i - 1) ≠ 0 :=
    ne_of_gt (sub_pos.mpr (sorted_lt_entry hs (by omega) hi2))
  have hback : ((f.Omega.length : Int) - 1) = ((f.Omega.length - 1 : Nat) : Int) := by omega
  have hidx : ((i : Int) - 1) = ((i - 1 : Nat) : Int) := by omega
  have hguard : ¬ (x < entry f.Omega 0 ∨ x > entry f.Omega (f.Omega.length - 1)) := by
    rintro (h | h)
    · exact absurd (lt_of_le_of_lt h0 h) (lt_irrefl _)
    · exact absurd (lt_trans h h1) (lt_irrefl _)
  have r0 := readAt_ok f.Omega 0 hlen
  have rb := readAt_ok f.Omega (f.Omega.length - 1) (by omega)
  have r1 := readAt_ok f.Omega (i - 1) (by omega)
  have r2 := readAt_ok f.Omega i hi2
  have r3 := readAt_ok f.Def (i - 1) (by omega)
  have r4 := readAt_ok f.Def i (by omega)
  simp only [Nat.cast_zero] at r0
  unfold TabFunction.evaluate
  simp only [← hi, hback, hidx, r0, rb, r1, r2, r3, r4, safeDiv_ok _ hne, bind, Except.bind,
    pure, Except.pure, if_neg hguard]

end TabFunctionLemmas
end Maxent

/-! ## TabFunction: evaluation -/

namespace Maxent
section TabFunctionProperties
variable {K : Type} [LinearOrderedField K]

theorem TabFunction.evaluate_outside (f : TabFunction K) (x : K) (hlen : 1 ≤ f.Omega.length)
    (h : x < entry f.Omega 0 ∨ entry f.Omega (f.Omega.length - 1) < x) :
    f.evaluate x = .ok 0 := by
  have hback : ((f.Omega.length : Int) - 1) = ((f.Omega.length - 1 : Nat) : Int) := by omega
  have r0 := readAt_ok f.Omega 0 (by omega)
  have rb := readAt_ok f.Omega (f.Omega.length - 1) (by omega)
  simp only [Nat.cast_zero] at r0
  unfold TabFunction.evaluate
  simp only [hback, r0, rb, bind, Except.bind, pure, Except.pure, gt_iff_lt, if_pos h]

/-- At the last abscissa the search returns the end of the table and the
read `Omega[index]` is one past the last entry. -/
theorem TabFunction.evaluate_last (f : TabFunction K)
    (hs : f.Omega.Sorted (· < ·)) (hlen : 1 ≤ f.Omega.length) :
    f.evaluate (entry f.Omega (f.Omega.length - 1)) = .error .outOfBounds := by
  obtain ⟨hle, hlo, hhi⟩ := upper_bound_spec f.Omega (entry f.Omega (f.Omega.length - 1))
    (ascending_of_sorted_lt hs)
  have hub : upper_bound f.Omega (entry f.Omega (f.Omega.length - 1)) = f.Omega.length := by
    by_contra hc
    have h1 : upper_bound f.Omega (entry f.Omega (f.Omega.length - 1)) ≤ f.Omega.length - 1 := by
      omega
    exact absurd (hhi (f.Omega.length - 1) h1 (by omega)) (lt_irrefl _)
  have hback : ((f.Omega.length : Int) - 1) = ((f.Omega.length - 1 : Nat) : Int) := by omega
  have hguard : ¬ (entry f.Omega (f.Omega.length - 1) < entry f.Omega 0 ∨
      entry f.Omega (f.Omega.length - 1) > entry f.Omega (f.Omega.length - 1)) := by
    rintro (h | h)
    · exact absurd h (not_lt.mpr (ascending_of_sorted_lt hs 0 _ (by omega) (by omega)))
    · exact absurd h (lt_irrefl _)
  have r0 := readAt_ok f.Omega 0 (by omega)
  have rb := readAt_ok f.Omega (f.Omega.length - 1) (by omega)
  have r2 := readAt_length_le f.Omega f.Omega.length le_rfl
  simp only [Nat.cast_zero] at r0
  unfold TabFunction.evaluate
  simp only [hub, hback, r0, rb, r2, bind, Except.bind, pure, Except.pure, if_neg hguard]

/-- C1: `TabFunction::operator()` is the piecewise-linear function with
compact support: outside the table range the result is 0, and for
`Omega[0] ≤ x < Omega[last]` it is the interpolation
`Def[i] - (Def[i]-Def[i-1])/(Omega[i]-Omega[i-1])*(Omega[i]-x)` at the
smallest index `i` with `Omega[i] > x`. -/
theorem TabFunction.evaluate_piecewise_linear (f : TabFunction K) (x : K)
    (hs : f.Omega.Sorted (· < ·)) (hlen : 2 ≤ f.Omega.length)
    (hy : f.Def.length = f.Omega.length) :
    ((x < entry f.Omega 0 ∨ entry f.Omega (f.Omega.length - 1) < x) → f.evaluate x = .ok 0) ∧
    (entry f.Omega 0 ≤ x → x < entry f.Omega (f.Omega.length - 1) →
      ∃ i, 1 ≤ i ∧ i < f.Omega.length ∧ x < entry f.Omega i ∧
        (∀ j, j < i → entry f.Omega j ≤ x) ∧
        f.evaluate x = .ok (entry f.Def i
          - (entry f.Def i - entry f.Def (i - 1)) / (entry f.Omega i - entry f.Omega (i - 1))
            * (entry f.Omega i - x))) := by
  refine ⟨fun h => TabFunction.evaluate_outside f x (by omega) h, fun h0 h1 => ?_⟩
  obtain ⟨hi1, hi2, hev⟩ := TabFunction.evaluate_inside f x hs hy h0 h1
  obtain ⟨_, hlo, hhi⟩ := upper_bound_spec f.Omega x (ascending_of_sorted_lt hs)
  refine ⟨upper_bound f.Omega x, hi1, hi2, hhi _ le_rfl hi2, hlo, ?_⟩
  rw [hev]
  congr 1
  ring

/-- C1, on the table `(0,0), (1,2)`: the hypotheses hold and the value at
`1/2` is `1`. -/
theorem TabFunction.evaluate_piecewise_linear_witness :
    ([0, 1] : List ℚ).Sorted (· < ·) ∧
    (TabFunction.mk [0, 1] [0, 2] : TabFunction ℚ).evaluate (1 / 2) = .ok 1 := by
  have hs : ([0, 1] : List ℚ).Sorted (· < ·) := by simp
  refine ⟨hs, ?_⟩
  obtain ⟨i, hi1, hi2, -, -, hev⟩ :=
    (TabFunction.evaluate_piecewise_linear (TabFunction.mk [0, 1] [0, 2] : TabFunction ℚ) (1 / 2)
      hs (by simp) (by simp)).2 (by norm_num [entry]) (by norm_num [entry])
  have hi : i = 1 := by simp at hi2; omega
  subst hi
  rw [hev]
  norm_num [entry]

/-- C2: at every breakpoint but the last one `TabFunction::operator()`
returns the tabulated value; at the last breakpoint `Omega.back()` the read
`Omega[index]` is outside the table. -/
theorem TabFunction.evaluate_breakpoint (f : TabFunction K)
    (hs : f.Omega.Sorted (· < ·)) (hlen : 2 ≤ f.Omega.length)
    (hy : f.Def.length = f.Omega.length) :
    (∀ k, k + 1 < f.Omega.length → f.evaluate (entry f.Omega k) = .ok (entry f.Def k)) ∧
    f.evaluate (entry f.Omega (f.Omega.length - 1)) = .error .outOfBounds := by
  refine ⟨fun k hk => ?_, TabFunction.evaluate_last f hs (by omega)⟩
  have hasc := ascending_of_sorted_lt hs
  obtain ⟨hi1, hi2, hev⟩ := TabFunction.evaluate_inside f (entry f.Omega k) hs hy
    (hasc 0 k (by omega) (by omega)) (sorted_lt_entry hs (by omega) (by omega))
  obtain ⟨_, hlo, hhi⟩ := upper_bound_spec f.Omega (entry f.Omega k) hasc
  have hub : upper_bound f.Omega (entry f.Omega k) = k + 1 := by
    apply le_antisymm
    · by_contra hc
      exact absurd (hlo (k + 1) (by omega))
        (not_le.mpr (sorted_lt_entry hs (by omega) (by omega)))
    · by_contra hc
      exact absurd (hhi k (by omega) (by omega)) (lt_irrefl _)
  rw [hev, hub]
  have hne : entry f.Omega (k + 1) - entry f.Omega k ≠ 0 :=
    ne_of_gt (sub_pos.mpr (sorted_lt_entry hs (by omega) hk))
  congr 1
  simp only [Nat.add_sub_cancel]
  field_simp

/-- C2, on the table `(0,0), (1,2)`: the value at the last breakpoint `1`
is not `2`; the read is outside the table. -/
theorem TabFunction.evaluate_breakpoint_witness :
    ([0, 1] : List ℚ).Sorted (· < ·) ∧
    (TabFunction.mk [0, 1] [0, 2] : TabFunction ℚ).evaluate 1 = .error .outOfBounds := by
  have hs : ([0, 1] : List ℚ).Sorted (· < ·) := by simp
  refine ⟨hs, ?_⟩
  have h := (TabFunction.evaluate_breakpoint (TabFunction.mk [0, 1] [0, 2] : TabFunction ℚ)
    hs (by simp) (by simp)).2
  simpa [entry] using h

end TabFunctionProperties
end Maxent

/-! ## GeneralDefaultModel: construction of the table -/

namespace Maxent
namespace GeneralDefaultModel
section NormLoop
variable {K : Type} [LinearOrderedField K]

theorem set_length_append (l : List K) (a b : K) (r : List K) :
    (l ++ a :: r).set l.length b = l ++ b :: r := by
  induction l with
  | nil => simp
  | cons c l ih => simp [ih]

theorem normLoop_eq (Mod : K → K) (omega_min omega_max : K) (ntab : Nat) :
    ∀ (steps p : Nat) (rest : List K), rest.length = steps →
      normLoop Mod omega_min (gridStep omega_min omega_max ntab) steps (p + 1)
          (trapezoid Mod omega_min omega_max ntab p)
          ((List.range (p + 1)).map (trapezoid Mod omega_min omega_max ntab) ++ rest)
        = .ok (trapezoid Mod omega_min omega_max ntab (p + steps),
            (List.range (p + 1 + steps)).map (trapezoid Mod omega_min omega_max ntab)) := by
  intro steps
  induction steps with
  | zero =>
    intro p rest hr
    have : rest = [] := List.length_eq_zero.mp hr
    subst this
    simp [normLoop]
  | succ steps ih =>
    intro p rest hr
    obtain ⟨r, rest1, rfl⟩ : ∃ r rest1, rest = r :: rest1 := by
      cases rest with
      | nil => simp at hr
      | cons r rest1 => exact ⟨r, rest1, rfl⟩
    have hlen : ((List.range (p + 1)).map (trapezoid Mod omega_min omega_max ntab)).length
        = p + 1 := by simp
    have hsum : trapezoid Mod omega_min omega_max ntab p
        + (Mod (omega_min + (((((p + 1 : Nat) : Int) - 1 : Int)) : K)
              * gridStep omega_min omega_max ntab)
            + Mod (omega_min + ((((p + 1 : Nat) : Int)) : K) * gridStep omega_min omega_max ntab))
          / 2 * gridStep omega_min omega_max ntab
        = trapezoid Mod omega_min omega_max ntab (p + 1) := by
      simp [trapezoid, gridPoint]
    have hw := writeAt_ok
      ((List.range (p + 1)).map (trapezoid Mod omega_min omega_max ntab) ++ r :: rest1)
      (p + 1) (trapezoid Mod omega_min omega_max ntab (p + 1)) (by simp)
    have hset : ((List.range (p + 1)).map (trapezoid Mod omega_min omega_max ntab)
          ++ r :: rest1).set (p + 1) (trapezoid Mod omega_min omega_max ntab (p + 1))
        = (List.range (p + 1 + 1)).map (trapezoid Mod omega_min omega_max ntab) ++ rest1 := by
      have := set_length_append
        ((List.range (p + 1)).map (trapezoid Mod omega_min omega_max ntab)) r
        (trapezoid Mod omega_min omega_max ntab (p + 1)) rest1
      rw [hlen] at this
      rw [this, List.range_succ (n := p + 1)]
      simp
    rw [hset] at hw
    have hih := ih (p + 1) rest1 (by simpa using hr)
    unfold normLoop
    simp only [hsum, hw, bind, Except.bind]
    rw [hih]
    congr 2
    · congr 1; omega
    · congr 2; omega

end NormLoop
end GeneralDefaultModel
end Maxent

namespace Maxent
namespace GeneralDefaultModel
section Construction
variable {K : Type} [LinearOrderedField K]

theorem norm_eq (e : GeneralDefaultModel K) (hl : e.xtab.length = e.ntab) (hn : 2 ≤ e.ntab) :
    norm e = .ok (trapezoid e.Mod e.omega_min e.omega_max e.ntab (e.ntab - 1),
      (List.range e.ntab).map (trapezoid e.Mod e.omega_min e.omega_max e.ntab)) := by
  obtain ⟨a, rest, hx⟩ : ∃ a rest, e.xtab = a :: rest := by
    cases h : e.xtab with
    | nil => rw [h] at hl; simp at hl; omega
    | cons a rest => exact ⟨a, rest, rfl⟩
  have hrest : rest.length = e.ntab - 1 := by rw [hx] at hl; simp at hl; omega
  have hw : writeAt e.xtab 0 0 = .ok ((0 : K) :: rest) := by
    have := writeAt_ok e.xtab 0 (0 : K) (by omega)
    rw [hx] at this ⊢
    simpa using this
  have hd : ((((e.ntab : Int) - 1 : Int)) : K) ≠ 0 := by
    have : ((e.ntab : Int) - 1 : Int) ≠ 0 := by omega
    exact_mod_cast this
  have hdelta : (e.omega_max - e.omega_min) / ((((e.ntab : Int) - 1 : Int)) : K)
      = gridStep e.omega_min e.omega_max e.ntab := by
    simp [gridStep]
  have hloop := normLoop_eq e.Mod e.omega_min e.omega_max e.ntab (e.ntab - 1) 0 rest hrest
  have h1 : 0 + 1 + (e.ntab - 1) = e.ntab := by omega
  have h3 : (List.range 1).map (trapezoid e.Mod e.omega_min e.omega_max e.ntab) ++ rest
      = (0 : K) :: rest := by
    simp [List.range_succ, trapezoid]
  simp only [Nat.zero_add, h1, trapezoid] at hloop
  have h2 : 1 + (e.ntab - 1) = e.ntab := by omega
  rw [h3] at hloop
  try rw [h2] at hloop
  unfold norm
  simp only [hw, safeDiv_ok _ hd, hdelta, bind, Except.bind]
  exact hloop

theorem scaleLoop_eq (sum : K) (hs : sum ≠ 0) (l : List K) :
    scaleLoop sum l = .ok (l.map (fun a => a * (1 / sum))) := by
  induction l with
  | nil => simp [scaleLoop]
  | cons a l ih =>
    unfold scaleLoop
    simp only [safeDiv_ok _ hs, ih, bind, Except.bind, pure, Except.pure, List.map_cons]

/-- The table of a constructed engine: the cumulative trapezoidal sums
divided by the total. -/
theorem construct_eq (ntab : Nat) (omega_min omega_max : K) (Mod : K → K) (hn : 2 ≤ ntab)
    (ht : trapezoid Mod omega_min omega_max ntab (ntab - 1) ≠ 0) :
    construct ntab omega_min omega_max Mod = .ok
      { omega_min := omega_min, omega_max := omega_max, Mod := Mod, ntab := ntab,
        xtab := (List.range ntab).map (fun k => trapezoid Mod omega_min omega_max ntab k
          * (1 / trapezoid Mod omega_min omega_max ntab (ntab - 1))) } := by
  have hnorm := norm_eq (K := K)
    { omega_min := omega_min, omega_max := omega_max, Mod := Mod, ntab := ntab,
      xtab := List.replicate ntab 0 } (by simp) hn
  unfold construct
  simp only [hnorm, scaleLoop_eq _ ht, bind, Except.bind, pure, Except.pure, List.map_map]
  rfl

theorem construct_zero_total (ntab : Nat) (omega_min omega_max : K) (Mod : K → K) (hn : 2 ≤ ntab)
    (ht : trapezoid Mod omega_min omega_max ntab (ntab - 1) = 0) :
    construct ntab omega_min omega_max Mod = .error .divisionByZero := by
  have hnorm := norm_eq (K := K)
    { omega_min := omega_min, omega_max := omega_max, Mod := Mod, ntab := ntab,
      xtab := List.replicate ntab 0 } (by simp) hn
  obtain ⟨m, hm⟩ : ∃ m, ntab = m + 1 := ⟨ntab - 1, by omega⟩
  unfold construct
  simp only [hnorm, bind, Except.bind]
  rw [hm, List.range_succ_eq_map]
  simp only [List.map_cons, scaleLoop, bind, Except.bind]
  rw [hm] at ht
  simp only [Nat.add_sub_cancel] at ht ⊢
  rw [ht, safeDiv_zero]

theorem entry_map_range (g : Nat → K) (n k : Nat) (hk : k < n) :
    entry ((List.range n).map g) k = g k := by
  rw [entry_eq_getElem _ _ (by simpa using hk)]
  simp

end Construction
end GeneralDefaultModel
end Maxent

namespace Maxent
namespace GeneralDefaultModel
section CumulativeTable
variable {K : Type} [LinearOrderedField K]

theorem trapezoid_nonpos_of_step_nonpos (Mod : K → K) (omega_min omega_max : K) (ntab : Nat)
    (hnn : ∀ k, k < ntab → 0 ≤ Mod (gridPoint omega_min omega_max ntab k))
    (hstep : gridStep omega_min omega_max ntab ≤ 0) :
    ∀ o, o < ntab → trapezoid Mod omega_min omega_max ntab o ≤ 0 := by
  intro o
  induction o with
  | zero => intro _; simp [trapezoid]
  | succ o ih =>
    intro ho
    have h1 := ih (by omega)
    have h2 := hnn o (by omega)
    have h3 := hnn (o + 1) ho
    have h4 : (Mod (gridPoint omega_min omega_max ntab o)
        + Mod (gridPoint omega_min omega_max ntab (o + 1))) / 2
          * gridStep omega_min omega_max ntab ≤ 0 :=
      mul_nonpos_of_nonneg_of_nonpos (by positivity) hstep
    simp only [trapezoid]
    linarith

theorem two_le_of_total_pos (Mod : K → K) (omega_min omega_max : K) (ntab : Nat)
    (hpos : 0 < trapezoid Mod omega_min omega_max ntab (ntab - 1)) : 2 ≤ ntab := by
  by_contra hc
  have : ntab - 1 = 0 := by omega
  rw [this] at hpos
  simp [trapezoid] at hpos

theorem gridStep_pos_of_total_pos (Mod : K → K) (omega_min omega_max : K) (ntab : Nat)
    (hnn : ∀ k, k < ntab → 0 ≤ Mod (gridPoint omega_min omega_max ntab k))
    (hpos : 0 < trapezoid Mod omega_min omega_max ntab (ntab - 1)) :
    0 < gridStep omega_min omega_max ntab := by
  by_contra hc
  have h2 := two_le_of_total_pos Mod omega_min omega_max ntab hpos
  have := trapezoid_nonpos_of_step_nonpos Mod omega_min omega_max ntab hnn (not_lt.mp hc)
    (ntab - 1) (by omega)
  exact absurd hpos (not_lt.mpr this)

theorem trapezoid_le_succ (Mod : K → K) (omega_min omega_max : K) (ntab : Nat)
    (hnn : ∀ k, k < ntab → 0 ≤ Mod (gridPoint omega_min omega_max ntab k))
    (hstep : 0 ≤ gridStep omega_min omega_max ntab) (o : Nat) (ho : o + 1 < ntab) :
    trapezoid Mod omega_min omega_max ntab o ≤ trapezoid Mod omega_min omega_max ntab (o + 1) := by
  have h2 := hnn o (by omega)
  have h3 := hnn (o + 1) ho
  have h4 : 0 ≤ (Mod (gridPoint omega_min omega_max ntab o)
        + Mod (gridPoint omega_min omega_max ntab (o + 1))) / 2
          * gridStep omega_min omega_max ntab :=
    mul_nonneg (by positivity) hstep
  simp only [trapezoid]
  linarith

theorem trapezoid_mono (Mod : K → K) (omega_min omega_max : K) (ntab : Nat)
    (hnn : ∀ k, k < ntab → 0 ≤ Mod (gridPoint omega_min omega_max ntab k))
    (hstep : 0 ≤ gridStep omega_min omega_max ntab) (i j : Nat) (hij : i ≤ j) (hj : j < ntab) :
    trapezoid Mod omega_min omega_max ntab i ≤ trapezoid Mod omega_min omega_max ntab j := by
  induction j with
  | zero =>
    have : i = 0 := by omega
    subst this; exact le_rfl
  | succ j ih =>
    rcases Nat.eq_or_lt_of_le hij with h | h
    · subst h; exact le_rfl
    · exact le_trans (ih (by omega) (by omega))
        (trapezoid_le_succ Mod omega_min omega_max ntab hnn hstep j hj)

/-- The engine built from a density that is non-negative on the grid and
has a positive total: its fields, and its table is a cumulative
distribution. -/
theorem construct_spec (ntab : Nat) (omega_min omega_max : K) (Mod : K → K)
    (hnn : ∀ k, k < ntab → 0 ≤ Mod (gridPoint omega_min omega_max ntab k))
    (hpos : 0 < trapezoid Mod omega_min omega_max ntab (ntab - 1)) :
    ∃ e, construct ntab omega_min omega_max Mod = .ok e ∧
      e.omega_min = omega_min ∧ e.omega_max = omega_max ∧ e.Mod = Mod ∧ e.ntab = ntab ∧
      e.xtab = (List.range ntab).map (fun k => trapezoid Mod omega_min omega_max ntab k
          * (1 / trapezoid Mod omega_min omega_max ntab (ntab - 1))) ∧
      IsCDF e := by
  have hn := two_le_of_total_pos Mod omega_min omega_max ntab hpos
  have hstep := gridStep_pos_of_total_pos Mod omega_min omega_max ntab hnn hpos
  refine ⟨_, construct_eq ntab omega_min omega_max Mod hn (ne_of_gt hpos), rfl, rfl, rfl, rfl,
    rfl, ?_⟩
  refine ⟨by simp, hn, ?_, ?_, ?_⟩
  · show entry ((List.range ntab).map _) 0 = 0
    rw [entry_map_range _ _ _ (by omega)]
    simp [trapezoid]
  · show entry ((List.range ntab).map _) (ntab - 1) = 1
    rw [entry_map_range _ _ _ (by omega)]
    field_simp
  · intro i j hij hj
    have hj1 : j < ntab := by simpa using hj
    show entry ((List.range ntab).map _) i ≤ entry ((List.range ntab).map _) j
    rw [entry_map_range _ _ _ (by omega), entry_map_range _ _ _ hj1]
    exact mul_le_mul_of_nonneg_right
      (trapezoid_mono Mod omega_min omega_max ntab hnn (le_of_lt hstep) i j hij hj1)
      (by positivity)

/-- C4: after construction from a density that is non-negative on the
`ntab` grid points and has a positive trapezoidal total, the table is a
cumulative distribution: `xtab[0] = 0`, `xtab[ntab-1] = 1` and
`xtab[o-1] ≤ xtab[o]` for `1 ≤ o ≤ ntab-1`. -/
theorem construct_table_is_cdf (ntab : Nat) (omega_min omega_max : K) (Mod : K → K)
    (hnn : ∀ k, k < ntab → 0 ≤ Mod (gridPoint omega_min omega_max ntab k))
    (hpos : 0 < trapezoid Mod omega_min omega_max ntab (ntab - 1)) :
    ∃ e, construct ntab omega_min omega_max Mod = .ok e ∧
      e.ntab = ntab ∧ e.xtab.length = ntab ∧
      entry e.xtab 0 = 0 ∧ entry e.xtab (ntab - 1) = 1 ∧
      ∀ o, 1 ≤ o → o ≤ ntab - 1 → entry e.xtab (o - 1) ≤ entry e.xtab o := by
  obtain ⟨e, hc, -, -, -, hnt, -, hl, h2, h0, h1, hasc⟩ :=
    construct_spec ntab omega_min omega_max Mod hnn hpos
  rw [hnt] at hl h1
  exact ⟨e, hc, hnt, hl, h0, h1, fun o ho1 ho2 => hasc (o - 1) o (by omega) (by omega)⟩

end CumulativeTable
end GeneralDefaultModel
end Maxent

/-! ## GeneralDefaultModel: values of omega -/

namespace Maxent
namespace GeneralDefaultModel
section OmegaValues
variable {K : Type} [LinearOrderedField K]

theorem ntab_cast_ne_zero (n : Nat) (hn : 2 ≤ n) : ((((n : Int) - 1 : Int)) : K) ≠ 0 := by
  have : ((n : Int) - 1 : Int) ≠ 0 := by omega
  exact_mod_cast this

theorem gridPoint_last (omega_min omega_max : K) (n : Nat) (hn : 2 ≤ n) :
    gridPoint omega_min omega_max n (n - 1) = omega_max := by
  have h1 : ((n - 1 : Nat) : K) = (n : K) - 1 := by
    rw [Nat.cast_sub (by omega)]; simp
  have h2 : (n : K) - 1 ≠ 0 := by
    have : (2 : K) ≤ (n : K) := by exact_mod_cast hn
    linarith
  simp only [gridPoint, gridStep, h1]
  field_simp

theorem gridPoint_succ (omega_min omega_max : K) (n k : Nat) :
    gridPoint omega_min omega_max n (k + 1)
      = gridPoint omega_min omega_max n k + gridStep omega_min omega_max n := by
  simp only [gridPoint]
  push_cast
  ring

theorem gridPoint_mono (omega_min omega_max : K) (n : Nat)
    (hstep : 0 ≤ gridStep omega_min omega_max n) {i j : Nat} (hij : i ≤ j) :
    gridPoint omega_min omega_max n i ≤ gridPoint omega_min omega_max n j := by
  simp only [gridPoint]
  have : (i : K) ≤ (j : K) := by exact_mod_cast hij
  have := mul_le_mul_of_nonneg_right this hstep
  linarith

/-- The index found by the search for an argument below `1`. -/
theorem upper_bound_interior (e : GeneralDefaultModel K) (he : IsCDF e) (x : K)
    (h0 : 0 ≤ x) (h1 : x < 1) :
    1 ≤ upper_bound e.xtab x ∧ upper_bound e.xtab x < e.ntab ∧
      entry e.xtab (upper_bound e.xtab x - 1) ≤ x ∧ x < entry e.xtab (upper_bound e.xtab x) := by
  obtain ⟨hl, hn, hz, ho, hasc⟩ := he
  obtain ⟨hle, hlo, hhi⟩ := upper_bound_spec e.xtab x hasc
  have hi1 : 1 ≤ upper_bound e.xtab x := by
    by_contra hc
    have := hhi 0 (by omega) (by omega)
    rw [hz] at this
    exact absurd (lt_of_le_of_lt h0 this) (lt_irrefl _)
  have hi2 : upper_bound e.xtab x < e.ntab := by
    by_contra hc
    have := hlo (e.ntab - 1) (by omega)
    rw [ho] at this
    exact absurd (lt_of_lt_of_le h1 this) (lt_irrefl _)
  exact ⟨hi1, hi2, hlo _ (by omega), hhi _ le_rfl (by omega)⟩

/-- The value of `omega` for an argument in `[0, 1)`: the interpolation
between the grid points `i - 1` and `i`, where `i` is the index found by
the search. -/
theorem omega_interior (e : GeneralDefaultModel K) (he : IsCDF e) (x : K)
    (h0 : 0 ≤ x) (h1 : x < 1) :
    omega e x = .ok (gridPoint e.omega_min e.omega_max e.ntab (upper_bound e.xtab x)
      - gridStep e.omega_min e.omega_max e.ntab
        / (entry e.xtab (upper_bound e.xtab x) - entry e.xtab (upper_bound e.xtab x - 1))
        * (entry e.xtab (upper_bound e.xtab x) - x)) := by
  obtain ⟨hi1, hi2, hx1, hx2⟩ := upper_bound_interior e he x h0 h1
  obtain ⟨hl, hn, hz, ho, hasc⟩ := he
  set i := upper_bound e.xtab x with hi
  have hne : i ≠ e.xtab.length := by omega
  have hd := ntab_cast_ne_zero (K := K) e.ntab hn
  have hidx : ((i : Int) - 1) = ((i - 1 : Nat) : Int) := by omega
  have hw : entry e.xtab i - entry e.xtab (i - 1) ≠ 0 :=
    ne_of_gt (sub_pos.mpr (lt_of_le_of_lt hx1 hx2))
  have r1 := readAt_ok e.xtab (i - 1) (by omega)
  have r2 := readAt_ok e.xtab i (by omega)
  have hguard : ¬ (x > 1 ∨ x < 0) := by
    rintro (h | h)
    · exact absurd (lt_trans h h1) (lt_irrefl _)
    · exact absurd (lt_of_le_of_lt h0 h) (lt_irrefl _)
  have hcast : ((((e.ntab : Int) - 1 : Int)) : K) = (e.ntab : K) - 1 := by push_cast; ring
  have hd2 : (e.ntab : K) - 1 ≠ 0 := by rw [← hcast]; exact hd
  have hc1 : (((i - 1 : Nat) : Int) : K) = (i : K) - 1 := by
    rw [← hidx]; push_cast; ring
  unfold omega
  simp only [← hi, if_neg hguard, if_neg hne, safeDiv_ok _ hd, bind, Except.bind, pure,
    Except.pure, hidx, r1, r2]
  rw [safeDiv_ok _ hw]
  simp only [gridPoint, gridStep, hcast, hc1, Int.cast_natCast]
  congr 1
  field_simp
  ring

/-- The value of `omega` at `1`: the search reaches the end of the table,
the index is clamped to `ntab - 1`, and the divisor is
`xtab[ntab-1] - xtab[ntab-2]`. -/
theorem omega_one (e : GeneralDefaultModel K) (he : IsCDF e) :
    (entry e.xtab (e.ntab - 2) < 1 → omega e 1 = .ok e.omega_max) ∧
    (entry e.xtab (e.ntab - 2) = 1 → omega e 1 = .error .divisionByZero) := by
  obtain ⟨hl, hn, hz, ho, hasc⟩ := he
  obtain ⟨hle, hlo, hhi⟩ := upper_bound_spec e.xtab 1 hasc
  have hub : upper_bound e.xtab 1 = e.xtab.length := by
    by_contra hc
    have := hhi (e.ntab - 1) (by omega) (by omega)
    rw [ho] at this
    exact absurd this (lt_irrefl _)
  have hd := ntab_cast_ne_zero (K := K) e.ntab hn
  have hidx1 : ((e.xtab.length : Int) - 0 - 1) = ((e.ntab - 1 : Nat) : Int) := by omega
  have hidx2 : (((e.ntab - 1 : Nat) : Int) - 1) = ((e.ntab - 2 : Nat) : Int) := by omega
  have r1 := readAt_ok e.xtab (e.ntab - 2) (by omega)
  have r2 := readAt_ok e.xtab (e.ntab - 1) (by omega)
  have hguard : ¬ ((1 : K) > 1 ∨ (1 : K) < 0) := by
    rintro (h | h)
    · exact absurd h (lt_irrefl _)
    · exact absurd h (by norm_num)
  have hcast : ((((e.ntab : Int) - 1 : Int)) : K) = (e.ntab : K) - 1 := by push_cast; ring
  have hd2 : (e.ntab : K) - 1 ≠ 0 := by rw [← hcast]; exact hd
  have hc1 : (((e.ntab - 1 : Nat) : Int) : K) = (e.ntab : K) - 1 := by
    rw [Int.cast_natCast, Nat.cast_sub (by omega)]; simp
  constructor
  · intro hlt
    have hw : (1 : K) - entry e.xtab (e.ntab - 2) ≠ 0 := ne_of_gt (sub_pos.mpr hlt)
    unfold omega
    simp only [hub, if_neg hguard, if_true, safeDiv_ok _ hd, bind, Except.bind, pure,
      Except.pure, hidx1, hidx2, r1, r2, ho]
    rw [safeDiv_ok _ hw]
    simp only [hcast, hc1]
    congr 1
    field_simp
  · intro heq
    unfold omega
    simp only [hub, if_neg hguard, if_true, safeDiv_ok _ hd, bind, Except.bind, pure,
      Except.pure, hidx1, hidx2, r1, r2, ho, heq, sub_self, safeDiv_zero]

end OmegaValues
end GeneralDefaultModel
end Maxent

/-! ## GeneralDefaultModel: domain errors -/

namespace Maxent
namespace GeneralDefaultModel

section DomainError
variable {K : Type} [LinearOrderedField K]

theorem bind_ne_domain {α β : Type} (m : Except Err α) (f : α → Except Err β)
    (hm : m ≠ .error .domain) (hf : ∀ a, f a ≠ .error .domain) :
    (m >>= f) ≠ .error .domain := by
  cases m with
  | error err => simpa [bind, Except.bind] using hm
  | ok a => simpa [bind, Except.bind] using hf a

theorem safeDiv_ne_domain (a b : K) : safeDiv a b ≠ .error .domain := by
  unfold safeDiv; split <;> simp

theorem readAt_ne_domain (v : List K) (i : Int) : readAt v i ≠ .error .domain := by
  unfold readAt; split
  · simp
  · split <;> simp

/-- C7: `omega(x)` throws the domain error exactly when `x < 0` or `x > 1`,
and `x(t)` throws it exactly when `t < 0` or `t > 1`; in particular neither
throws at the endpoints `0` and `1`, and `omega` throws at `-0.01` and at
`1.01`. -/
theorem domain_error_iff [FloorRing K] (e : GeneralDefaultModel K) :
    (∀ x : K, omega e x = .error .domain ↔ (x < 0 ∨ 1 < x)) ∧
    (∀ t : K, GeneralDefaultModel.x e t = .error .domain ↔ (t < 0 ∨ 1 < t)) ∧
    omega e 0 ≠ .error .domain ∧ omega e 1 ≠ .error .domain ∧
    GeneralDefaultModel.x e 0 ≠ .error .domain ∧ GeneralDefaultModel.x e 1 ≠ .error .domain ∧
    omega e (-(1 / 100)) = .error .domain ∧ omega e (101 / 100) = .error .domain := by
  have homega : ∀ x : K, omega e x = .error .domain ↔ (x < 0 ∨ 1 < x) := by
    intro x
    constructor
    · intro h
      by_contra hc
      have hguard : ¬ (x > 1 ∨ x < 0) := fun hg => hc (Or.symm hg)
      unfold omega at h
      rw [if_neg hguard] at h
      revert h
      refine bind_ne_domain _ _ (safeDiv_ne_domain _ _) (fun q1 => ?_)
      refine bind_ne_domain _ _ (safeDiv_ne_domain _ _) (fun q2 => ?_)
      refine bind_ne_domain _ _ (readAt_ne_domain _ _) (fun x1 => ?_)
      refine bind_ne_domain _ _ (readAt_ne_domain _ _) (fun x2 => ?_)
      refine bind_ne_domain _ _ (safeDiv_ne_domain _ _) (fun q => ?_)
      simp [pure, Except.pure]
    · intro h
      unfold omega
      rw [if_pos (Or.symm h)]
  have hx : ∀ t : K, GeneralDefaultModel.x e t = .error .domain ↔ (t < 0 ∨ 1 < t) := by
    intro t
    constructor
    · intro h
      by_contra hc
      have hguard : ¬ (t > 1 ∨ t < 0) := fun hg => hc (Or.symm hg)
      unfold GeneralDefaultModel.x at h
      rw [if_neg hguard] at h
      revert h
      simp only []
      split
      · simp
      · refine bind_ne_domain _ _ (readAt_ne_domain _ _) (fun x1 => ?_)
        refine bind_ne_domain _ _ (readAt_ne_domain _ _) (fun x2 => ?_)
        simp [pure, Except.pure]
    · intro h
      unfold GeneralDefaultModel.x
      rw [if_pos (Or.symm h)]
  refine ⟨homega, hx, ?_, ?_, ?_, ?_, ?_, ?_⟩
  · rw [Ne, homega]; norm_num
  · rw [Ne, homega]; norm_num
  · rw [Ne, hx]; norm_num
  · rw [Ne, hx]; norm_num
  · rw [homega]; left; norm_num
  · rw [homega]; right; norm_num

end DomainError
end GeneralDefaultModel
end Maxent

/-! ## Linear grid -/

namespace Maxent
section LinearGrid
variable {K : Type} [LinearOrderedField K]

theorem fillLoop_eq (f : Nat → Except Err K) (g : Nat → K) :
    ∀ (count start : Nat), (∀ i, start ≤ i → i < start + count → f i = .ok (g i)) →
      fillLoop f count start = .ok ((List.range' start count).map g) := by
  intro count
  induction count with
  | zero => intro start _; simp [fillLoop]
  | succ count ih =>
    intro start h
    have h1 := h start le_rfl (by omega)
    have h2 := ih (start + 1) (fun i hi1 hi2 => h i (by omega) (by omega))
    unfold fillLoop
    simp only [h1, h2, bind, Except.bind, pure, Except.pure, List.range'_succ, List.map_cons]

theorem entry_map_range' (g : Nat → K) (n k : Nat) (hk : k < n) :
    entry ((List.range' 0 n).map g) k = g k := by
  rw [entry_eq_getElem _ _ (by simpa using hk)]
  simp

/-- C9: for `nfreq > 0` the linear scheme gives `nfreq + 1` entries with
`t_array[i] = i/nfreq`. -/
theorem initialize_linear_map_spec (nfreq : Nat) (hn : 0 < nfreq) :
    ∃ t : List K, initialize_linear_map nfreq = .ok t ∧ t.length = nfreq + 1 ∧
      ∀ i, i ≤ nfreq → entry t i = (i : K) / (nfreq : K) := by
  have hne : (((nfreq : Int)) : K) ≠ 0 := by
    have : (nfreq : Int) ≠ 0 := by omega
    exact_mod_cast this
  have h := fillLoop_eq (fun i => safeDiv (((i : Int)) : K) (((nfreq : Int)) : K))
    (fun i => (i : K) / (nfreq : K)) (nfreq + 1) 0
    (fun i _ _ => by
      show safeDiv (((i : Int)) : K) (((nfreq : Int)) : K) = .ok ((i : K) / (nfreq : K))
      rw [safeDiv_ok _ hne]; simp only [Int.cast_natCast])
  refine ⟨_, h, by simp, fun i hi => ?_⟩
  rw [entry_map_range' _ _ _ (by omega)]

/-- C9 at `nfreq = 4`: the grid is `[0, 1/4, 1/2, 3/4, 1]`. -/
theorem initialize_linear_map_spec_witness :
    0 < 4 ∧ (initialize_linear_map 4 : Except Err (List ℚ)) = .ok [0, 1 / 4, 1 / 2, 3 / 4, 1] := by
  refine ⟨by decide, ?_⟩
  obtain ⟨t, ht, hlen, hval⟩ := initialize_linear_map_spec (K := ℚ) 4 (by decide)
  rw [ht]
  congr 1
  match t, hlen, hval with
  | [a, b, c, d, e], _, hval =>
    have h0 := hval 0 (by decide)
    have h1 := hval 1 (by decide)
    have h2 := hval 2 (by decide)
    have h3 := hval 3 (by decide)
    have h4 := hval 4 (by decide)
    simp [entry] at h0 h1 h2 h3 h4
    subst h0 h1 h2 h3 h4
    norm_num

end LinearGrid
end Maxent

/-! ## GeneralDefaultModel: constant density -/

namespace Maxent
namespace GeneralDefaultModel
section ConstantDensity
variable {K : Type} [LinearOrderedField K]

theorem trapezoid_const (c omega_min omega_max : K) (ntab : Nat) (k : Nat) :
    trapezoid (fun _ => c) omega_min omega_max ntab k
      = (k : K) * c * gridStep omega_min omega_max ntab := by
  induction k with
  | zero => simp [trapezoid]
  | succ k ih =>
    simp only [trapezoid, ih]
    push_cast
    ring

/-- C8: for a constant density `c > 0` the table is `xtab[k] = k/(ntab-1)`
and `omega(x) = omega_min + x*(omega_max - omega_min)` on `[0, 1]`. -/
theorem constant_density (ntab : Nat) (omega_min omega_max c : K) (hc : 0 < c)
    (hlt : omega_min < omega_max) (hn : 2 ≤ ntab) :
    ∃ e, construct ntab omega_min omega_max (fun _ => c) = .ok e ∧
      (∀ k, k < ntab → entry e.xtab k = (k : K) / ((ntab : K) - 1)) ∧
      ∀ x, 0 ≤ x → x ≤ 1 → omega e x = .ok (omega_min + x * (omega_max - omega_min)) := by
  have hn1 : (0 : K) < (ntab : K) - 1 := by
    have : (2 : K) ≤ (ntab : K) := by exact_mod_cast hn
    linarith
  have hcast : ((ntab - 1 : Nat) : K) = (ntab : K) - 1 := by
    rw [Nat.cast_sub (by omega)]; simp
  have hstep : 0 < gridStep omega_min omega_max ntab := by
    unfold gridStep
    exact div_pos (sub_pos.mpr hlt) hn1
  have htot : trapezoid (fun _ => c) omega_min omega_max ntab (ntab - 1)
      = ((ntab : K) - 1) * c * gridStep omega_min omega_max ntab := by
    rw [trapezoid_const, hcast]
  have hpos : 0 < trapezoid (fun _ => c) omega_min omega_max ntab (ntab - 1) := by
    rw [htot]; positivity
  obtain ⟨e, hce, hmin, hmax, -, hnt, htab, hcdf⟩ :=
    construct_spec ntab omega_min omega_max (fun _ => c) (fun _ _ => le_of_lt hc) hpos
  have hentry : ∀ k, k < ntab → entry e.xtab k = (k : K) / ((ntab : K) - 1) := by
    intro k hk
    rw [htab, entry_map_range _ _ _ hk, htot, trapezoid_const]
    have hs := ne_of_gt hstep
    have hc0 := ne_of_gt hc
    have hn0 := ne_of_gt hn1
    field_simp
    ring
  refine ⟨e, hce, hentry, fun x h0 h1 => ?_⟩
  rcases lt_or_eq_of_le h1 with hx | hx
  · obtain ⟨hi1, hi2, -, -⟩ := upper_bound_interior e hcdf x h0 hx
    rw [omega_interior e hcdf x h0 hx, hmin, hmax, hnt]
    rw [hnt] at hi2
    rw [hentry _ hi2, hentry _ (by omega)]
    have hc1 : ((upper_bound e.xtab x - 1 : Nat) : K) = (upper_bound e.xtab x : K) - 1 := by
      rw [Nat.cast_sub hi1]; simp
    rw [hc1]
    simp only [gridPoint, gridStep]
    congr 1
    field_simp
    ring
  · subst hx
    have h2 : entry e.xtab (e.ntab - 2) < 1 := by
      rw [hnt, hentry _ (by omega), div_lt_one hn1]
      have : ((ntab - 2 : Nat) : K) = (ntab : K) - 2 := by
        rw [Nat.cast_sub hn]; simp
      rw [this]; linarith
    rw [(omega_one e hcdf).1 h2, hmax]
    congr 1
    ring

/-- C8 with `omega_min = -5`, `omega_max = 5` and `ntab = 5001`:
`omega(0.5) = 0`, `omega(0) = -5` and `omega(1) = 5`. -/
theorem constant_density_witness :
    ∃ e, construct 5001 (-5 : ℚ) 5 (fun _ => 1) = .ok e ∧
      omega e (1 / 2) = .ok 0 ∧ omega e 0 = .ok (-5) ∧ omega e 1 = .ok 5 := by
  obtain ⟨e, hce, -, hom⟩ := constant_density 5001 (-5 : ℚ) 5 1 (by norm_num) (by norm_num)
    (by norm_num)
  refine ⟨e, hce, ?_, ?_, ?_⟩
  · rw [hom (1 / 2) (by norm_num) (by norm_num)]; norm_num
  · rw [hom 0 (by norm_num) (by norm_num)]; norm_num
  · rw [hom 1 (by norm_num) (by norm_num)]; norm_num

end ConstantDensity
end GeneralDefaultModel
end Maxent

/-! ## GeneralDefaultModel: monotonicity of omega -/

namespace Maxent
namespace GeneralDefaultModel
section Monotonicity
variable {K : Type} [LinearOrderedField K]

theorem upper_bound_mono (v : List K) (hv : Ascending v) {x y : K} (hxy : x ≤ y) :
    upper_bound v x ≤ upper_bound v y := by
  obtain ⟨hlex, hlox, -⟩ := upper_bound_spec v x hv
  obtain ⟨-, -, hhiy⟩ := upper_bound_spec v y hv
  by_contra hc
  have h1 := hlox (upper_bound v y) (by omega)
  have h2 := hhiy (upper_bound v y) le_rfl (by omega)
  exact absurd (lt_of_lt_of_le h2 (le_trans h1 hxy)) (lt_irrefl _)

/-- For an argument in `[0, 1)` the value of `omega` lies between the grid
points `i - 1` and `i` of the index found by the search. -/
theorem omega_interior_bounds (e : GeneralDefaultModel K) (he : IsCDF e)
    (hstep : 0 ≤ gridStep e.omega_min e.omega_max e.ntab) (x : K) (h0 : 0 ≤ x) (h1 : x < 1) :
    ∃ a, omega e x = .ok a ∧
      gridPoint e.omega_min e.omega_max e.ntab (upper_bound e.xtab x - 1) ≤ a ∧
      a ≤ gridPoint e.omega_min e.omega_max e.ntab (upper_bound e.xtab x) := by
  obtain ⟨hi1, hi2, hx1, hx2⟩ := upper_bound_interior e he x h0 h1
  refine ⟨_, omega_interior e he x h0 h1, ?_, ?_⟩
  · have hg : gridPoint e.omega_min e.omega_max e.ntab (upper_bound e.xtab x)
        = gridPoint e.omega_min e.omega_max e.ntab (upper_bound e.xtab x - 1)
          + gridStep e.omega_min e.omega_max e.ntab := by
      rw [← gridPoint_succ]; congr 1; omega
    have hw : 0 < entry e.xtab (upper_bound e.xtab x) - entry e.xtab (upper_bound e.xtab x - 1) :=
      sub_pos.mpr (lt_of_le_of_lt hx1 hx2)
    have hfrac : gridStep e.omega_min e.omega_max e.ntab
        / (entry e.xtab (upper_bound e.xtab x) - entry e.xtab (upper_bound e.xtab x - 1))
        * (entry e.xtab (upper_bound e.xtab x) - x)
        ≤ gridStep e.omega_min e.omega_max e.ntab := by
      rw [div_mul_eq_mul_div, div_le_iff₀ hw]
      exact mul_le_mul_of_nonneg_left (by linarith) hstep
    linarith
  · have hw : 0 < entry e.xtab (upper_bound e.xtab x) - entry e.xtab (upper_bound e.xtab x - 1) :=
      sub_pos.mpr (lt_of_le_of_lt hx1 hx2)
    have : 0 ≤ gridStep e.omega_min e.omega_max e.ntab
        / (entry e.xtab (upper_bound e.xtab x) - entry e.xtab (upper_bound e.xtab x - 1))
        * (entry e.xtab (upper_bound e.xtab x) - x) :=
      mul_nonneg (div_nonneg hstep (le_of_lt hw)) (by linarith)
    linarith

/-- On `[0, 1)` the map `omega` does not decrease. -/
theorem omega_mono_interior (e : GeneralDefaultModel K) (he : IsCDF e)
    (hstep : 0 ≤ gridStep e.omega_min e.omega_max e.ntab) (x y : K) (h0 : 0 ≤ x) (hxy : x ≤ y)
    (h1 : y < 1) :
    ∃ a b, omega e x = .ok a ∧ omega e y = .ok b ∧ a ≤ b := by
  have hx1 : x < 1 := lt_of_le_of_lt hxy h1
  have hy0 : 0 ≤ y := le_trans h0 hxy
  have hidx := upper_bound_mono e.xtab he.2.2.2.2 hxy
  rcases Nat.eq_or_lt_of_le hidx with heq | hlt
  · refine ⟨_, _, omega_interior e he x h0 hx1, omega_interior e he y hy0 h1, ?_⟩
    obtain ⟨-, -, hy1, hy2⟩ := upper_bound_interior e he y hy0 h1
    rw [heq]
    have hw : 0 < entry e.xtab (upper_bound e.xtab y) - entry e.xtab (upper_bound e.xtab y - 1) :=
      sub_pos.mpr (lt_of_le_of_lt hy1 hy2)
    have := mul_le_mul_of_nonneg_left (sub_le_sub_left hxy (entry e.xtab (upper_bound e.xtab y)))
      (div_nonneg hstep (le_of_lt hw))
    linarith
  · obtain ⟨a, ha, -, ha2⟩ := omega_interior_bounds e he hstep x h0 hx1
    obtain ⟨b, hb, hb1, -⟩ := omega_interior_bounds e he hstep y hy0 h1
    refine ⟨a, b, ha, hb, le_trans ha2 (le_trans ?_ hb1)⟩
    exact gridPoint_mono _ _ _ hstep (by omega)

/-- When the last step of the table is not flat, `omega` does not decrease
on the whole of `[0, 1]`. -/
theorem omega_mono_closed (e : GeneralDefaultModel K) (he : IsCDF e)
    (hstep : 0 ≤ gridStep e.omega_min e.omega_max e.ntab)
    (hlast : entry e.xtab (e.ntab - 2) < 1) (x : K) (h0 : 0 ≤ x) (h1 : x ≤ 1) :
    ∃ a, omega e x = .ok a ∧ omega e 1 = .ok e.omega_max ∧ a ≤ e.omega_max := by
  have hone := (omega_one e he).1 hlast
  rcases lt_or_eq_of_le h1 with hx | hx
  · obtain ⟨a, ha, -, ha2⟩ := omega_interior_bounds e he hstep x h0 hx
    obtain ⟨-, hi2, -, -⟩ := upper_bound_interior e he x h0 hx
    refine ⟨a, ha, hone, le_trans ha2 ?_⟩
    exact le_of_le_of_eq
      (gridPoint_mono _ _ _ hstep (show upper_bound e.xtab x ≤ e.ntab - 1 by omega))
      (gridPoint_last e.omega_min e.omega_max e.ntab he.2.1)
  · subst hx
    exact ⟨_, hone, hone, le_rfl⟩

/-- A density that vanishes at the last two grid points makes the last
step of the table flat. -/
theorem flat_tail_of_density (ntab : Nat) (omega_min omega_max : K) (Mod : K → K)
    (hpos : 0 < trapezoid Mod omega_min omega_max ntab (ntab - 1))
    (hz1 : Mod (gridPoint omega_min omega_max ntab (ntab - 2)) = 0)
    (hz2 : Mod (gridPoint omega_min omega_max ntab (ntab - 1)) = 0) :
    entry ((List.range ntab).map (fun k => trapezoid Mod omega_min omega_max ntab k
          * (1 / trapezoid Mod omega_min omega_max ntab (ntab - 1)))) (ntab - 2) = 1 := by
  have hn := two_le_of_total_pos Mod omega_min omega_max ntab hpos
  rw [entry_map_range _ _ _ (by omega)]
  have h : trapezoid Mod omega_min omega_max ntab (ntab - 1)
      = trapezoid Mod omega_min omega_max ntab (ntab - 2) := by
    obtain ⟨m, hm⟩ : ∃ m, ntab = m + 2 := ⟨ntab - 2, by omega⟩
    subst hm
    simp only [Nat.add_sub_cancel, show m + 2 - 1 = m + 1 by omega] at hz1 hz2 ⊢
    simp [trapezoid, hz1, hz2]
  rw [← h]
  field_simp

/-- C3: for an engine built from a density that is non-negative on the
grid with positive total, `omega(x) ≤ omega(y)` holds for `0 ≤ x ≤ y ≤ 1`
whenever `y < 1` or the last step of the table is not flat; when the
density vanishes at the last two grid points, `omega(1)` divides by zero
and has no value to compare. -/
theorem omega_monotone (ntab : Nat) (omega_min omega_max : K) (Mod : K → K)
    (e : GeneralDefaultModel K)
    (hnn : ∀ k, k < ntab → 0 ≤ Mod (gridPoint omega_min omega_max ntab k))
    (hpos : 0 < trapezoid Mod omega_min omega_max ntab (ntab - 1))
    (hlt : omega_min < omega_max)
    (hc : construct ntab omega_min omega_max Mod = .ok e) :
    (∀ x y, 0 ≤ x → x ≤ y → y ≤ 1 → (y < 1 ∨ entry e.xtab (ntab - 2) < 1) →
      ∃ a b, omega e x = .ok a ∧ omega e y = .ok b ∧ a ≤ b) ∧
    (Mod (gridPoint omega_min omega_max ntab (ntab - 2)) = 0 →
      Mod (gridPoint omega_min omega_max ntab (ntab - 1)) = 0 →
      omega e 1 = .error .divisionByZero) := by
  obtain ⟨e1, hc1, hmin, hmax, -, hnt, htab, hcdf⟩ :=
    construct_spec ntab omega_min omega_max Mod hnn hpos
  have he : e1 = e := by rw [hc1] at hc; exact Except.ok.inj hc
  subst he
  have hstep : 0 ≤ gridStep e1.omega_min e1.omega_max e1.ntab := by
    rw [hmin, hmax, hnt]
    have hn1 : (0 : K) < (ntab : K) - 1 := by
      have : (2 : K) ≤ (ntab : K) := by
        exact_mod_cast two_le_of_total_pos Mod omega_min omega_max ntab hpos
      linarith
    exact le_of_lt (div_pos (sub_pos.mpr hlt) hn1)
  constructor
  · intro x y h0 hxy h1 hcase
    rcases lt_or_eq_of_le h1 with hy | hy
    · exact omega_mono_interior e1 hcdf hstep x y h0 hxy hy
    · subst hy
      have hlast : entry e1.xtab (e1.ntab - 2) < 1 := by
        rcases hcase with h | h
        · exact absurd h (lt_irrefl _)
        · rw [hnt]; exact h
      obtain ⟨a, ha, hone, hle⟩ := omega_mono_closed e1 hcdf hstep hlast x h0 hxy
      exact ⟨a, _, ha, hone, hle⟩
  · intro hz1 hz2
    refine (omega_one e1 hcdf).2 ?_
    rw [hnt, htab]
    exact flat_tail_of_density ntab omega_min omega_max Mod hpos hz1 hz2

end Monotonicity
end GeneralDefaultModel
end Maxent

/-! ## GeneralDefaultModel: the step density, and omega at the breakpoints -/

namespace Maxent
namespace GeneralDefaultModel
section StepDownEngine

theorem trapezoid_one {K : Type} [LinearOrderedField K] (Mod : K → K) (omega_min omega_max : K)
    (ntab : Nat) :
    trapezoid Mod omega_min omega_max ntab 1
      = (Mod omega_min + Mod (omega_min + gridStep omega_min omega_max ntab)) / 2
        * gridStep omega_min omega_max ntab := by
  simp [trapezoid, gridPoint]

theorem gridStep_stepDown : gridStep (-1 : ℚ) 1 5001 = 1 / 2500 := by
  simp only [gridStep]; norm_num

theorem stepDown_nonneg (k : Nat) : 0 ≤ stepDown (gridPoint (-1 : ℚ) 1 5001 k) := by
  unfold stepDown
  split <;> norm_num

theorem stepDown_total_pos : 0 < trapezoid stepDown (-1 : ℚ) 1 5001 (5001 - 1) := by
  refine lt_of_lt_of_le ?_ (trapezoid_mono stepDown (-1 : ℚ) 1 5001 (fun k _ => stepDown_nonneg k)
    (by rw [gridStep_stepDown]; norm_num) 1 (5001 - 1) (by norm_num) (by norm_num))
  rw [trapezoid_one, gridStep_stepDown]
  simp only [stepDown]; norm_num

theorem stepDown_trapezoid_one : trapezoid stepDown (-1 : ℚ) 1 5001 1 = 1 / 2500 := by
  rw [trapezoid_one, gridStep_stepDown]
  simp only [stepDown]; norm_num

theorem stepDown_last_two :
    stepDown (gridPoint (-1 : ℚ) 1 5001 (5001 - 2)) = 0 ∧
    stepDown (gridPoint (-1 : ℚ) 1 5001 (5001 - 1)) = 0 := by
  constructor
  · simp only [gridPoint, gridStep_stepDown, stepDown]; norm_num
  · simp only [gridPoint, gridStep_stepDown, stepDown]; norm_num

/-- C4 at the program's resolution `ntab = 5001`, for the density that is
`1` up to `0` and `0` beyond on `[-1, 1]`: the engine is built and its
table has 5001 entries, from `0` to `1`. -/
theorem construct_table_is_cdf_witness :
    ∃ e, construct 5001 (-1 : ℚ) 1 stepDown = .ok e ∧ e.xtab.length = 5001 ∧
      entry e.xtab 0 = 0 ∧ entry e.xtab 5000 = 1 ∧ entry e.xtab 0 ≤ entry e.xtab 1 := by
  obtain ⟨e, hc, -, hl, h0, h1, hmono⟩ := construct_table_is_cdf 5001 (-1 : ℚ) 1 stepDown
    (fun k _ => stepDown_nonneg k) stepDown_total_pos
  exact ⟨e, hc, hl, h0, h1, hmono 1 le_rfl (by norm_num)⟩

/-- C3 at the program's resolution `ntab = 5001`, for the density that is
`1` up to `0` and `0` beyond on `[-1, 1]`: the engine is built, `omega` is
ordered at `0` and `1/2`, and `omega(1)` divides by zero. -/
theorem omega_monotone_witness :
    ∃ e, construct 5001 (-1 : ℚ) 1 stepDown = .ok e ∧
      (∃ a b, omega e 0 = .ok a ∧ omega e (1 / 2) = .ok b ∧ a ≤ b) ∧
      omega e 1 = .error .divisionByZero := by
  obtain ⟨e, hc, -⟩ := construct_spec 5001 (-1 : ℚ) 1 stepDown (fun k _ => stepDown_nonneg k)
    stepDown_total_pos
  have h := omega_monotone 5001 (-1 : ℚ) 1 stepDown e (fun k _ => stepDown_nonneg k)
    stepDown_total_pos (by norm_num) hc
  refine ⟨e, hc, h.1 0 (1 / 2) le_rfl (by norm_num) (by norm_num) (Or.inl (by norm_num)), ?_⟩
  exact h.2 stepDown_last_two.1 stepDown_last_two.2

end StepDownEngine

section Breakpoints
variable {K : Type} [LinearOrderedField K]

/-- The value of `omega` at a table entry below `1`: the grid point of the
last index that holds this entry. -/
theorem omega_at_entry (e : GeneralDefaultModel K) (he : IsCDF e) (k : Nat) (hk : k < e.ntab)
    (h1 : entry e.xtab k < 1) :
    k ≤ upper_bound e.xtab (entry e.xtab k) - 1 ∧
    upper_bound e.xtab (entry e.xtab k) - 1 < e.ntab ∧
    entry e.xtab (upper_bound e.xtab (entry e.xtab k) - 1) = entry e.xtab k ∧
    omega e (entry e.xtab k) = .ok (gridPoint e.omega_min e.omega_max e.ntab
      (upper_bound e.xtab (entry e.xtab k) - 1)) := by
  have hasc := he.2.2.2.2
  have hl := he.1
  have h0 : 0 ≤ entry e.xtab k := by
    rw [← he.2.2.1]; exact hasc 0 k (by omega) (by omega)
  obtain ⟨hi1, hi2, hx1, hx2⟩ := upper_bound_interior e he _ h0 h1
  obtain ⟨-, -, hhi⟩ := upper_bound_spec e.xtab (entry e.xtab k) hasc
  have hki : k < upper_bound e.xtab (entry e.xtab k) := by
    by_contra hc
    exact absurd (hhi k (by omega) (by omega)) (lt_irrefl _)
  have heq : entry e.xtab (upper_bound e.xtab (entry e.xtab k) - 1) = entry e.xtab k :=
    le_antisymm hx1 (hasc k _ (by omega) (by omega))
  refine ⟨by omega, by omega, heq, ?_⟩
  rw [omega_interior e he _ h0 h1, heq]
  have hw : entry e.xtab (upper_bound e.xtab (entry e.xtab k)) - entry e.xtab k ≠ 0 :=
    ne_of_gt (sub_pos.mpr hx2)
  have hg : gridPoint e.omega_min e.omega_max e.ntab (upper_bound e.xtab (entry e.xtab k))
      = gridPoint e.omega_min e.omega_max e.ntab (upper_bound e.xtab (entry e.xtab k) - 1)
        + gridStep e.omega_min e.omega_max e.ntab := by
    rw [← gridPoint_succ]; congr 1; omega
  rw [hg]
  congr 1
  field_simp

/-- C5: for an engine built from a density that is non-negative on the
grid with positive total, `omega` at a table entry below `1` is the grid
frequency of an index holding the same entry (the index `k` itself when
`xtab[k] < xtab[k+1]`); at the last entry `xtab[ntab-1] = 1` it is
`omega_max` when the last step of the table is not flat, and a division by
zero when it is flat. -/
theorem omega_at_breakpoint (ntab : Nat) (omega_min omega_max : K) (Mod : K → K)
    (e : GeneralDefaultModel K)
    (hnn : ∀ k, k < ntab → 0 ≤ Mod (gridPoint omega_min omega_max ntab k))
    (hpos : 0 < trapezoid Mod omega_min omega_max ntab (ntab - 1))
    (hc : construct ntab omega_min omega_max Mod = .ok e) :
    (∀ k, k < ntab → entry e.xtab k < 1 →
      ∃ j, j < ntab ∧ entry e.xtab j = entry e.xtab k ∧
        omega e (entry e.xtab k) = .ok (gridPoint omega_min omega_max ntab j)) ∧
    (∀ k, k + 1 < ntab → entry e.xtab k < entry e.xtab (k + 1) →
      omega e (entry e.xtab k) = .ok (gridPoint omega_min omega_max ntab k)) ∧
    (entry e.xtab (ntab - 2) < 1 →
      omega e (entry e.xtab (ntab - 1)) = .ok (gridPoint omega_min omega_max ntab (ntab - 1))) ∧
    (entry e.xtab (ntab - 2) = 1 →
      omega e (entry e.xtab (ntab - 1)) = .error .divisionByZero) := by
  obtain ⟨e1, hc1, hmin, hmax, -, hnt, htab, hcdf⟩ :=
    construct_spec ntab omega_min omega_max Mod hnn hpos
  have he : e1 = e := by rw [hc1] at hc; exact Except.ok.inj hc
  subst he
  have hasc := hcdf.2.2.2.2
  have hl := hcdf.1
  have hlast : entry e1.xtab (ntab - 1) = 1 := by rw [← hnt]; exact hcdf.2.2.2.1
  refine ⟨fun k hk h1 => ?_, fun k hk hlt => ?_, fun h => ?_, fun h => ?_⟩
  · obtain ⟨-, hj, heq, hval⟩ := omega_at_entry e1 hcdf k (by omega) h1
    rw [hmin, hmax, hnt] at hval
    exact ⟨_, by omega, heq, hval⟩
  · have h1 : entry e1.xtab k < 1 := by
      refine lt_of_lt_of_le hlt ?_
      rw [← hlast]
      exact hasc (k + 1) (ntab - 1) (by omega) (by omega)
    obtain ⟨hk1, -, heq, hval⟩ := omega_at_entry e1 hcdf k (by omega) h1
    obtain ⟨-, hlo, -⟩ := upper_bound_spec e1.xtab (entry e1.xtab k) hasc
    have hub : upper_bound e1.xtab (entry e1.xtab k) - 1 = k := by
      by_contra hne
      have := hlo (k + 1) (by omega)
      exact absurd (lt_of_lt_of_le hlt this) (lt_irrefl _)
    rw [hub, hmin, hmax, hnt] at hval
    exact hval
  · rw [hlast, (omega_one e1 hcdf).1 (by rw [hnt]; exact h), hmax,
      gridPoint_last omega_min omega_max ntab (by rw [← hnt]; exact hcdf.2.1)]
  · rw [hlast, (omega_one e1 hcdf).2 (by rw [hnt]; exact h)]

/-- C5 at the program's resolution `ntab = 5001`, for the density that is
`1` up to `0` and `0` beyond on `[-1, 1]`: `omega(xtab[0])` is the grid
frequency `omega_min = -1`, the last entry is `1`, and `omega(xtab[5000])`
divides by zero. -/
theorem omega_at_breakpoint_witness :
    ∃ e, construct 5001 (-1 : ℚ) 1 stepDown = .ok e ∧
      omega e (entry e.xtab 0) = .ok (-1) ∧ entry e.xtab 5000 = 1 ∧
      omega e (entry e.xtab 5000) = .error .divisionByZero := by
  obtain ⟨e, hc, -, -, -, hnt, htab, hcdf⟩ := construct_spec 5001 (-1 : ℚ) 1 stepDown
    (fun k _ => stepDown_nonneg k) stepDown_total_pos
  have h := omega_at_breakpoint 5001 (-1 : ℚ) 1 stepDown e (fun k _ => stepDown_nonneg k)
    stepDown_total_pos hc
  have h01 : entry e.xtab 0 < entry e.xtab (0 + 1) := by
    rw [hcdf.2.2.1, htab, entry_map_range _ _ _ (by norm_num), stepDown_trapezoid_one]
    exact mul_pos (by norm_num) (one_div_pos.mpr stepDown_total_pos)
  have hflat : entry e.xtab (5001 - 2) = 1 := by
    rw [htab]
    exact flat_tail_of_density 5001 (-1 : ℚ) 1 stepDown stepDown_total_pos
      stepDown_last_two.1 stepDown_last_two.2
  have hlast : entry e.xtab 5000 = 1 := by
    have := hcdf.2.2.2.1
    rw [hnt] at this
    exact this
  refine ⟨e, hc, ?_, hlast, h.2.2.2 hflat⟩
  rw [h.2.1 0 (by norm_num) h01]
  simp only [gridPoint]; norm_num

end Breakpoints
end GeneralDefaultModel
end Maxent

/-! ## GeneralDefaultModel: omega at the endpoints -/

namespace Maxent
namespace GeneralDefaultModel
section Endpoints
variable {K : Type} [LinearOrderedField K]

/-- The value of `omega` at `0`: the grid point of the last index whose
entry is `0`. -/
theorem omega_zero_of_entries (e : GeneralDefaultModel K) (he : IsCDF e) (m : Nat)
    (hm : m + 1 < e.ntab) (h0 : entry e.xtab m = 0) (h1 : 0 < entry e.xtab (m + 1)) :
    omega e 0 = .ok (gridPoint e.omega_min e.omega_max e.ntab m) := by
  have hasc := he.2.2.2.2
  have hl := he.1
  have hz := he.2.2.1
  obtain ⟨-, hj, heq, hval⟩ := omega_at_entry e he 0 (by omega) (by rw [hz]; exact zero_lt_one)
  rw [hz] at hval heq
  obtain ⟨-, hlo, hhi⟩ := upper_bound_spec e.xtab (0 : K) hasc
  have hub : upper_bound e.xtab (0 : K) = m + 1 := by
    apply le_antisymm
    · by_contra hc
      exact absurd (lt_of_lt_of_le h1 (hlo (m + 1) (by omega))) (lt_irrefl _)
    · by_contra hc
      have := hhi m (by omega) (by omega)
      rw [h0] at this
      exact absurd this (lt_irrefl _)
  rw [hub] at hval
  exact hval

theorem exists_last_zero (e : GeneralDefaultModel K) (he : IsCDF e) :
    ∃ m, m + 1 < e.ntab ∧ entry e.xtab m = 0 ∧ 0 < entry e.xtab (m + 1) := by
  have hz := he.2.2.1
  obtain ⟨hi1, hi2, hx1, hx2⟩ := upper_bound_interior e he 0 le_rfl zero_lt_one
  refine ⟨upper_bound e.xtab (0 : K) - 1, by omega, ?_, ?_⟩
  · refine le_antisymm hx1 ?_
    have hl := he.1
    have := he.2.2.2.2 0 (upper_bound e.xtab (0 : K) - 1) (Nat.zero_le _) (by omega)
    rw [hz] at this
    exact this
  · have : upper_bound e.xtab (0 : K) - 1 + 1 = upper_bound e.xtab (0 : K) := by omega
    rw [this]; exact hx2

/-- C6 as stated fails at the program's resolution `ntab = 5001`: for the
density on `[0, 5000]` that vanishes up to `2`, the grid step is `1` and
`omega(0) = 2`, two grid steps above `omega_min = 0`. -/
theorem omega_zero_two_steps_off :
    ∃ e, construct 5001 (0 : ℚ) 5000 stepUp = .ok e ∧
      (∀ k, k < 5001 → 0 ≤ stepUp (gridPoint (0 : ℚ) 5000 5001 k)) ∧
      0 < trapezoid stepUp (0 : ℚ) 5000 5001 (5001 - 1) ∧ (0 : ℚ) < 5000 ∧
      omega e 0 = .ok 2 ∧ ¬ (|(2 : ℚ) - 0| ≤ (5000 - 0) / (5001 - 1)) := by
  have hstep : gridStep (0 : ℚ) 5000 5001 = 1 := by
    simp only [gridStep]; norm_num
  have hnn : ∀ k, k < 5001 → 0 ≤ stepUp (gridPoint (0 : ℚ) 5000 5001 k) := by
    intro k _
    unfold stepUp
    split <;> norm_num
  have h2 : trapezoid stepUp (0 : ℚ) 5000 5001 2 = 0 := by
    simp only [trapezoid, gridPoint, hstep, stepUp]; norm_num
  have h3 : trapezoid stepUp (0 : ℚ) 5000 5001 3 = 1 / 2 := by
    simp only [trapezoid, gridPoint, hstep, stepUp]; norm_num
  have hpos : 0 < trapezoid stepUp (0 : ℚ) 5000 5001 (5001 - 1) := by
    refine lt_of_lt_of_le ?_ (trapezoid_mono stepUp (0 : ℚ) 5000 5001 hnn
      (by rw [hstep]; norm_num) 3 (5001 - 1) (by norm_num) (by norm_num))
    rw [h3]; norm_num
  obtain ⟨e, hc, hmin, hmax, -, hnt, htab, hcdf⟩ := construct_spec 5001 (0 : ℚ) 5000 stepUp hnn hpos
  have he2 : entry e.xtab 2 = 0 := by
    rw [htab, entry_map_range _ _ _ (by norm_num), h2, zero_mul]
  have he3 : 0 < entry e.xtab (2 + 1) := by
    rw [htab, entry_map_range _ _ _ (by norm_num), h3]
    exact mul_pos (by norm_num) (one_div_pos.mpr hpos)
  have hval := omega_zero_of_entries e hcdf 2 (by rw [hnt]; norm_num) he2 he3
  rw [hmin, hmax, hnt] at hval
  refine ⟨e, hc, hnn, hpos, by norm_num, ?_, by norm_num⟩
  rw [hval]
  simp only [gridPoint, hstep]; norm_num

/-- C6, amended: for an engine built from a density that is non-negative on
the grid with positive total and `omega_min < omega_max`, `omega(0)` is the
grid frequency `omega_min + m*Δω` of the last index `m` whose entry is `0`,
which is within one grid step of `omega_min` exactly when `m ≤ 1` and is
`omega_min` itself when `xtab[1] > 0`; and `omega(1) = omega_max` when the
last step of the table is not flat. -/
theorem omega_endpoints (ntab : Nat) (omega_min omega_max : K) (Mod : K → K)
    (e : GeneralDefaultModel K)
    (hnn : ∀ k, k < ntab → 0 ≤ Mod (gridPoint omega_min omega_max ntab k))
    (hpos : 0 < trapezoid Mod omega_min omega_max ntab (ntab - 1))
    (hlt : omega_min < omega_max)
    (hc : construct ntab omega_min omega_max Mod = .ok e) :
    (∃ m, m + 1 < ntab ∧ entry e.xtab m = 0 ∧ 0 < entry e.xtab (m + 1) ∧
      omega e 0 = .ok (omega_min + (m : K) * ((omega_max - omega_min) / ((ntab : K) - 1))) ∧
      (|omega_min + (m : K) * ((omega_max - omega_min) / ((ntab : K) - 1)) - omega_min|
          ≤ (omega_max - omega_min) / ((ntab : K) - 1) ↔ m ≤ 1)) ∧
    (0 < entry e.xtab 1 → omega e 0 = .ok omega_min) ∧
    (entry e.xtab (ntab - 2) < 1 → omega e 1 = .ok omega_max) := by
  obtain ⟨e1, hc1, hmin, hmax, -, hnt, htab, hcdf⟩ :=
    construct_spec ntab omega_min omega_max Mod hnn hpos
  have he : e1 = e := by rw [hc1] at hc; exact Except.ok.inj hc
  subst he
  have hn1 : (0 : K) < (ntab : K) - 1 := by
    have : (2 : K) ≤ (ntab : K) := by
      exact_mod_cast two_le_of_total_pos Mod omega_min omega_max ntab hpos
    linarith
  have hstep : 0 < (omega_max - omega_min) / ((ntab : K) - 1) :=
    div_pos (sub_pos.mpr hlt) hn1
  refine ⟨?_, fun h => ?_, fun h => ?_⟩
  · obtain ⟨m, hm, h0, h1⟩ := exists_last_zero e1 hcdf
    have hval := omega_zero_of_entries e1 hcdf m hm h0 h1
    rw [hmin, hmax, hnt] at hval
    rw [hnt] at hm
    refine ⟨m, hm, h0, h1, hval, ?_⟩
    have hm0 : (0 : K) ≤ (m : K) := Nat.cast_nonneg m
    rw [add_sub_cancel_left, abs_of_nonneg (mul_nonneg hm0 (le_of_lt hstep))]
    constructor
    · intro hle
      have : (m : K) ≤ 1 := by
        by_contra hcon
        have := mul_lt_mul_of_pos_right (not_le.mp hcon) hstep
        linarith
      exact_mod_cast this
    · intro hle
      have : (m : K) ≤ 1 := by exact_mod_cast hle
      have := mul_le_mul_of_nonneg_right this (le_of_lt hstep)
      linarith
  · have hval := omega_zero_of_entries e1 hcdf 0 (by have := hcdf.2.1; omega) hcdf.2.2.1 h
    rw [hval, hmin]
    simp [gridPoint]
  · rw [(omega_one e1 hcdf).1 (by rw [hnt]; exact h), hmax]

/-- C6, amended, at `ntab = 5001` for the constant density `1` on
`[-5, 5]`: `omega(0) = -5` and `omega(1) = 5`. -/
theorem omega_endpoints_witness :
    ∃ e, construct 5001 (-5 : ℚ) 5 (fun _ => 1) = .ok e ∧
      omega e 0 = .ok (-5) ∧ omega e 1 = .ok 5 := by
  have hstep : gridStep (-5 : ℚ) 5 5001 = 1 / 500 := by
    simp only [gridStep]; norm_num
  have hnn : ∀ k, k < 5001 → (0 : ℚ) ≤ (fun _ : ℚ => (1 : ℚ)) (gridPoint (-5 : ℚ) 5 5001 k) :=
    fun _ _ => zero_le_one
  have htr : ∀ k, trapezoid (fun _ : ℚ => (1 : ℚ)) (-5) 5 5001 k = (k : ℚ) * (1 / 500) := by
    intro k; rw [trapezoid_const, hstep]; ring
  have hpos : 0 < trapezoid (fun _ : ℚ => (1 : ℚ)) (-5) 5 5001 (5001 - 1) := by
    rw [htr]; norm_num
  obtain ⟨e, hc, -, -, -, -, htab, -⟩ :=
    construct_spec 5001 (-5 : ℚ) 5 (fun _ => 1) hnn hpos
  have h := omega_endpoints 5001 (-5 : ℚ) 5 (fun _ => 1) e hnn hpos (by norm_num) hc
  refine ⟨e, hc, h.2.1 ?_, h.2.2 ?_⟩
  · rw [htab, entry_map_range _ _ _ (by norm_num), htr, htr]; norm_num
  · rw [htab, entry_map_range _ _ _ (by norm_num), htr, htr]; norm_num

end Endpoints
end GeneralDefaultModel
end Maxent

/-! ## Lorentzian grid -/

namespace Maxent
section Rescaling
variable {K : Type} [LinearOrderedField K]

/-- The rescaling loop applied to the samples `T 0, …, T n` of a strictly
increasing sequence. -/
theorem rescaleLoop_eq (T : Nat → K) (n : Nat) (hn : 1 ≤ n)
    (hT : ∀ i j, i < j → j ≤ n → T i < T j) :
    rescaleLoop ((List.range' 0 (n + 1)).map T) (n + 1)
      = .ok ((List.range' 0 (n + 1)).map (fun i => (T i - T 0) / (T n - T 0))) := by
  have hlen : ((List.range' 0 (n + 1)).map T).length = n + 1 := by simp
  have hne : T n - T 0 ≠ 0 := ne_of_gt (sub_pos.mpr (hT 0 n (by omega) le_rfl))
  have hlast : ((((List.range' 0 (n + 1)).map T).length : Int) - 1) = ((n : Nat) : Int) := by
    rw [hlen]; push_cast; ring
  have r0 := readAt_ok ((List.range' 0 (n + 1)).map T) 0 (by rw [hlen]; omega)
  have rl := readAt_ok ((List.range' 0 (n + 1)).map T) n (by rw [hlen]; omega)
  rw [entry_map_range' _ _ _ (by omega)] at r0 rl
  simp only [Nat.cast_zero] at r0
  unfold rescaleLoop
  refine fillLoop_eq _ _ (n + 1) 0 (fun i _ hi => ?_)
  have ri := readAt_ok ((List.range' 0 (n + 1)).map T) i (by rw [hlen]; omega)
  rw [entry_map_range' _ _ _ (by omega)] at ri
  simp only [hlast, r0, rl, ri, bind, Except.bind, safeDiv_ok _ hne]

/-- The rescaled samples of a strictly increasing sequence start at `0`,
end at `1` and increase strictly. -/
theorem rescaled_invariant (T : Nat → K) (n : Nat) (hn : 1 ≤ n)
    (hT : ∀ i j, i < j → j ≤ n → T i < T j) :
    ((List.range' 0 (n + 1)).map (fun i => (T i - T 0) / (T n - T 0))).length = n + 1 ∧
    entry ((List.range' 0 (n + 1)).map (fun i => (T i - T 0) / (T n - T 0))) 0 = 0 ∧
    entry ((List.range' 0 (n + 1)).map (fun i => (T i - T 0) / (T n - T 0))) n = 1 ∧
    ∀ i, i < n →
      entry ((List.range' 0 (n + 1)).map (fun i => (T i - T 0) / (T n - T 0))) i
        < entry ((List.range' 0 (n + 1)).map (fun i => (T i - T 0) / (T n - T 0))) (i + 1) := by
  have hpos : 0 < T n - T 0 := sub_pos.mpr (hT 0 n (by omega) le_rfl)
  refine ⟨by simp, ?_, ?_, fun i hi => ?_⟩
  · rw [entry_map_range' _ _ _ (by omega)]; simp
  · rw [entry_map_range' _ _ _ (by omega)]; exact div_self (ne_of_gt hpos)
  · rw [entry_map_range' _ _ _ (by omega), entry_map_range' _ _ _ (by omega)]
    exact div_lt_div_of_pos_right (sub_lt_sub_right (hT i (i + 1) (by omega) (by omega)) _) hpos

end Rescaling

section LorentzianGrid

/-- The argument of the tangent in the Lorentzian scheme. -/
theorem lorentzian_arg_bounds (nfreq : Nat) (cut : ℝ) (hn : 1 ≤ nfreq) (hc0 : 0 < cut)
    (hc1 : cut < 1 / 2) (i : Nat) (hi : i ≤ nfreq) :
    -(Real.pi / 2) < Real.pi * ((i : ℝ) / (nfreq : ℝ) * (1 - 2 * cut) + cut - 1 / 2) ∧
    Real.pi * ((i : ℝ) / (nfreq : ℝ) * (1 - 2 * cut) + cut - 1 / 2) < Real.pi / 2 := by
  have hpi := Real.pi_pos
  have hnpos : (0 : ℝ) < (nfreq : ℝ) := by exact_mod_cast hn
  have h0 : 0 ≤ (i : ℝ) / (nfreq : ℝ) := div_nonneg (Nat.cast_nonneg i) (le_of_lt hnpos)
  have h1 : (i : ℝ) / (nfreq : ℝ) ≤ 1 := by
    rw [div_le_one hnpos]; exact_mod_cast hi
  have hw : 0 < 1 - 2 * cut := by linarith
  have hlo : -(1 / 2) < (i : ℝ) / (nfreq : ℝ) * (1 - 2 * cut) + cut - 1 / 2 := by
    have := mul_nonneg h0 (le_of_lt hw)
    linarith
  have hhi : (i : ℝ) / (nfreq : ℝ) * (1 - 2 * cut) + cut - 1 / 2 < 1 / 2 := by
    have := mul_le_mul_of_nonneg_right h1 (le_of_lt hw)
    linarith
  constructor
  · have := mul_lt_mul_of_pos_left hlo hpi
    linarith
  · have := mul_lt_mul_of_pos_left hhi hpi
    linarith

/-- C10: for `nfreq ≥ 1` and `0 < cut < 1/2` the Lorentzian scheme gives
`nfreq + 1` entries with `t_array[0] = 0`, `t_array[nfreq] = 1` and
`t_array[i] < t_array[i+1]` for `0 ≤ i < nfreq` (real tangent and `π`). -/
theorem initialize_lorentzian_grid_invariant (nfreq : Nat) (cut : ℝ) (hn : 1 ≤ nfreq)
    (hc0 : 0 < cut) (hc1 : cut < 1 / 2) :
    ∃ t : List ℝ, initialize_lorentzian_grid Real.tan Real.pi nfreq cut = .ok t ∧
      t.length = nfreq + 1 ∧ entry t 0 = 0 ∧ entry t nfreq = 1 ∧
      ∀ i, i < nfreq → entry t i < entry t (i + 1) := by
  have hnpos : (0 : ℝ) < (nfreq : ℝ) := by exact_mod_cast hn
  have hne : (((nfreq : Int)) : ℝ) ≠ 0 := by
    rw [Int.cast_natCast]; exact ne_of_gt hnpos
  have hw : 0 < 1 - 2 * cut := by linarith
  have hT : ∀ i j, i < j → j ≤ nfreq →
      Real.tan (Real.pi * ((i : ℝ) / (nfreq : ℝ) * (1 - 2 * cut) + cut - 1 / 2))
        < Real.tan (Real.pi * ((j : ℝ) / (nfreq : ℝ) * (1 - 2 * cut) + cut - 1 / 2)) := by
    intro i j hij hj
    refine Real.tan_lt_tan_of_lt_of_lt_pi_div_two
      (lorentzian_arg_bounds nfreq cut hn hc0 hc1 i (by omega)).1
      (lorentzian_arg_bounds nfreq cut hn hc0 hc1 j hj).2 ?_
    have hlt : (i : ℝ) / (nfreq : ℝ) < (j : ℝ) / (nfreq : ℝ) :=
      div_lt_div_of_pos_right (by exact_mod_cast hij) hnpos
    have := mul_lt_mul_of_pos_right hlt hw
    exact mul_lt_mul_of_pos_left (by linarith) Real.pi_pos
  have htemp := fillLoop_eq
    (fun i => do
      let q ← safeDiv (((i : Int)) : ℝ) (((nfreq : Int)) : ℝ)
      pure (Real.tan (Real.pi * (q * (1 - 2 * cut) + cut - 1 / 2))))
    (fun i => Real.tan (Real.pi * ((i : ℝ) / (nfreq : ℝ) * (1 - 2 * cut) + cut - 1 / 2)))
    (nfreq + 1) 0 (fun i _ _ => by
      show (do
        let q ← safeDiv (((i : Int)) : ℝ) (((nfreq : Int)) : ℝ)
        pure (Real.tan (Real.pi * (q * (1 - 2 * cut) + cut - 1 / 2)))) = _
      rw [safeDiv_ok _ hne]
      simp only [bind, Except.bind, pure, Except.pure, Int.cast_natCast])
  have hres := rescaleLoop_eq
    (fun i => Real.tan (Real.pi * ((i : ℝ) / (nfreq : ℝ) * (1 - 2 * cut) + cut - 1 / 2)))
    nfreq hn hT
  have hinv := rescaled_invariant
    (fun i => Real.tan (Real.pi * ((i : ℝ) / (nfreq : ℝ) * (1 - 2 * cut) + cut - 1 / 2)))
    nfreq hn hT
  refine ⟨_, ?_, hinv⟩
  unfold initialize_lorentzian_grid
  rw [htemp]
  simp only [bind, Except.bind]
  exact hres

/-- C10 at `nfreq = 2`, `cut = 1/4`: the grid has three entries, from `0`
to `1`, and its middle entry lies strictly between them. -/
theorem initialize_lorentzian_grid_invariant_witness :
    ∃ t : List ℝ, initialize_lorentzian_grid Real.tan Real.pi 2 (1 / 4) = .ok t ∧
      t.length = 3 ∧ entry t 0 = 0 ∧ entry t 2 = 1 ∧ 0 < entry t 1 ∧ entry t 1 < 1 := by
  obtain ⟨t, ht, hlen, h0, h2, hinc⟩ :=
    initialize_lorentzian_grid_invariant 2 (1 / 4) (by norm_num) (by norm_num) (by norm_num)
  refine ⟨t, ht, hlen, h0, h2, ?_, ?_⟩
  · have := hinc 0 (by norm_num)
    rw [h0] at this; exact this
  · have := hinc 1 (by norm_num)
    rw [h2] at this; exact this

end LorentzianGrid
end Maxent

/-! ## GeneralDefaultModel: the trapezoidal rule of norm -/

namespace Maxent
namespace GeneralDefaultModel
section TrapezoidalRule
variable {K : Type} [LinearOrderedField K]

theorem trapezoid_eq_sum (Mod : K → K) (omega_min omega_max : K) (ntab : Nat) (o : Nat) :
    trapezoid Mod omega_min omega_max ntab o
      = gridStep omega_min omega_max ntab
        * (∑ k in Finset.range (o + 1), Mod (gridPoint omega_min omega_max ntab k)
          - (Mod (gridPoint omega_min omega_max ntab 0)
              + Mod (gridPoint omega_min omega_max ntab o)) / 2) := by
  induction o with
  | zero => simp [trapezoid]
  | succ o ih =>
    rw [Finset.sum_range_succ]
    simp only [trapezoid, ih]
    ring

/-- C17: on a table of `ntab ≥ 2` entries `norm()` succeeds, sets
`xtab[0] = 0` and `xtab[o] = Δω * (Σ_{k=0..o} f(ω(k)) - (f(ω(0)) + f(ω(o)))/2)`
for `1 ≤ o ≤ ntab-1`, and returns `xtab[ntab-1]`. -/
theorem norm_cumulative_trapezoid (e : GeneralDefaultModel K) (hl : e.xtab.length = e.ntab)
    (hn : 2 ≤ e.ntab) :
    ∃ total tab, norm e = .ok (total, tab) ∧ tab.length = e.ntab ∧ entry tab 0 = 0 ∧
      (∀ o, 1 ≤ o → o ≤ e.ntab - 1 → entry tab o
        = gridStep e.omega_min e.omega_max e.ntab
          * (∑ k in Finset.range (o + 1), e.Mod (gridPoint e.omega_min e.omega_max e.ntab k)
            - (e.Mod (gridPoint e.omega_min e.omega_max e.ntab 0)
                + e.Mod (gridPoint e.omega_min e.omega_max e.ntab o)) / 2)) ∧
      total = entry tab (e.ntab - 1) := by
  refine ⟨_, _, norm_eq e hl hn, by simp, ?_, fun o _ ho => ?_, ?_⟩
  · rw [entry_map_range _ _ _ (by omega)]; simp [trapezoid]
  · rw [entry_map_range _ _ _ (by omega), trapezoid_eq_sum]
  · rw [entry_map_range _ _ _ (by omega)]

/-- C17 on three grid points of `[0, 2]` with the identity as density: the
table is `[0, 1/2, 2]` and the returned total is `2`. -/
theorem norm_cumulative_trapezoid_witness :
    norm (K := ℚ)
        { omega_min := 0, omega_max := 2, Mod := id, ntab := 3, xtab := [0, 0, 0] }
      = .ok (2, [0, 1 / 2, 2]) := by
  obtain ⟨total, tab, hnorm, hlen, h0, hval, htot⟩ := norm_cumulative_trapezoid (K := ℚ)
    { omega_min := 0, omega_max := 2, Mod := id, ntab := 3, xtab := [0, 0, 0] }
    (by simp) (by simp)
  have h1 := hval 1 (by norm_num) (by norm_num)
  have h2 := hval 2 (by norm_num) (by norm_num)
  simp only [Finset.sum_range_succ, Finset.sum_range_zero, gridPoint, gridStep] at h1 h2
  rw [hnorm]
  match tab, hlen with
  | [a, b, c], _ =>
    simp only [entry, List.getD_cons_zero, List.getD_cons_succ] at h0 h1 h2 htot
    subst h0
    rw [htot, h1, h2]
    norm_num

end TrapezoidalRule
end GeneralDefaultModel
end Maxent

/-! ## GeneralDefaultModel: safety of omega -/

namespace Maxent
namespace GeneralDefaultModel
section OmegaSafety
variable {K : Type} [LinearOrderedField K]

/-- The method `omega` in terms of `omega_index`. -/
theorem omega_eq_index (e : GeneralDefaultModel K) (x : K) :
    omega e x = (if x > 1 ∨ x < 0 then .error .domain else do
      let d : K := (((e.ntab : Int) - 1 : Int) : K)
      let q1 ← safeDiv (((omega_index e x - 1 : Int) : K) * (e.omega_max - e.omega_min)) d
      let om1 := e.omega_min + q1
      let q2 ← safeDiv ((omega_index e x : K) * (e.omega_max - e.omega_min)) d
      let om2 := e.omega_min + q2
      let x1 ← readAt e.xtab (omega_index e x - 1)
      let x2 ← readAt e.xtab (omega_index e x)
      let q ← safeDiv (-(om2 - om1)) (x2 - x1)
      pure (q * (x2 - x) + om2)) := rfl

/-- The index used by `omega` on `[0, 1]`: the result of the search below
`1`, and the last index at `1`. -/
theorem omega_index_eq (e : GeneralDefaultModel K) (he : IsCDF e) (x : K)
    (h0 : 0 ≤ x) (h1 : x ≤ 1) :
    (x < 1 → omega_index e x = (upper_bound e.xtab x : Int) ∧
      1 ≤ upper_bound e.xtab x ∧ upper_bound e.xtab x < e.ntab ∧
      entry e.xtab (upper_bound e.xtab x - 1) < entry e.xtab (upper_bound e.xtab x)) ∧
    (x = 1 → omega_index e x = (e.ntab : Int) - 1) := by
  constructor
  · intro hx
    obtain ⟨hi1, hi2, hx1, hx2⟩ := upper_bound_interior e he x h0 hx
    have hl := he.1
    refine ⟨?_, hi1, hi2, lt_of_le_of_lt hx1 hx2⟩
    unfold omega_index
    rw [if_neg (by omega)]
  · intro hx
    subst hx
    obtain ⟨hl, hn, hz, ho, hasc⟩ := he
    obtain ⟨hle, hlo, hhi⟩ := upper_bound_spec e.xtab 1 hasc
    have hub : upper_bound e.xtab 1 = e.xtab.length := by
      by_contra hc
      have := hhi (e.ntab - 1) (by omega) (by omega)
      rw [ho] at this
      exact absurd this (lt_irrefl _)
    unfold omega_index
    rw [if_pos hub, hl]
    ring

/-- C19: for an engine built from a density that is non-negative on the
grid with positive total and every `x` in `[0, 1]`, the index satisfies
`1 ≤ omega_index ≤ ntab-1` and both reads are inside the table; the
divisor `xtab[omega_index] - xtab[omega_index-1]` is non-zero when `x < 1`
or the last step of the table is not flat, and it is zero at `x = 1` when
the density vanishes at the last two grid points. -/
theorem omega_index_safe (ntab : Nat) (omega_min omega_max : K) (Mod : K → K)
    (e : GeneralDefaultModel K)
    (hnn : ∀ k, k < ntab → 0 ≤ Mod (gridPoint omega_min omega_max ntab k))
    (hpos : 0 < trapezoid Mod omega_min omega_max ntab (ntab - 1))
    (hc : construct ntab omega_min omega_max Mod = .ok e) :
    (∀ x, 0 ≤ x → x ≤ 1 →
      1 ≤ omega_index e x ∧ omega_index e x ≤ (ntab : Int) - 1 ∧
      readAt e.xtab (omega_index e x - 1) = .ok (entry e.xtab (omega_index e x - 1).toNat) ∧
      readAt e.xtab (omega_index e x) = .ok (entry e.xtab (omega_index e x).toNat) ∧
      ((x < 1 ∨ entry e.xtab (ntab - 2) < 1) →
        entry e.xtab (omega_index e x).toNat - entry e.xtab (omega_index e x - 1).toNat ≠ 0)) ∧
    (Mod (gridPoint omega_min omega_max ntab (ntab - 2)) = 0 →
      Mod (gridPoint omega_min omega_max ntab (ntab - 1)) = 0 →
      entry e.xtab (omega_index e 1).toNat - entry e.xtab (omega_index e 1 - 1).toNat = 0 ∧
      omega e 1 = .error .divisionByZero) := by
  obtain ⟨e1, hc1, hmin, hmax, -, hnt, htab, hcdf⟩ :=
    construct_spec ntab omega_min omega_max Mod hnn hpos
  have he : e1 = e := by rw [hc1] at hc; exact Except.ok.inj hc
  subst he
  have hl := hcdf.1
  have hn := hcdf.2.1
  constructor
  · intro x h0 h1
    rcases lt_or_eq_of_le h1 with hx | hx
    · obtain ⟨hidx, hi1, hi2, hlt⟩ := (omega_index_eq e1 hcdf x h0 h1).1 hx
      have hidx1 : omega_index e1 x - 1 = ((upper_bound e1.xtab x - 1 : Nat) : Int) := by
        rw [hidx]; omega
      have ht1 : (omega_index e1 x - 1).toNat = upper_bound e1.xtab x - 1 := by
        rw [hidx1]; simp
      have ht2 : (omega_index e1 x).toNat = upper_bound e1.xtab x := by
        rw [hidx]; simp
      refine ⟨by rw [hidx]; omega, by rw [hidx]; omega, ?_, ?_, fun _ => ?_⟩
      · rw [ht1, hidx1]; exact readAt_ok _ _ (by omega)
      · rw [ht2, hidx]; exact readAt_ok _ _ (by omega)
      · rw [ht1, ht2]; exact ne_of_gt (sub_pos.mpr hlt)
    · have hidx := (omega_index_eq e1 hcdf x h0 h1).2 hx
      rw [hnt] at hidx
      have hidx0 : omega_index e1 x = ((ntab - 1 : Nat) : Int) := by
        rw [hidx]; omega
      have hidx1 : omega_index e1 x - 1 = ((ntab - 2 : Nat) : Int) := by
        rw [hidx]; omega
      have ht1 : (omega_index e1 x - 1).toNat = ntab - 2 := by
        rw [hidx1]; simp
      have ht2 : (omega_index e1 x).toNat = ntab - 1 := by
        rw [hidx0]; simp
      refine ⟨by rw [hidx]; omega, by rw [hidx], ?_, ?_, fun hcase => ?_⟩
      · rw [ht1, hidx1]; exact readAt_ok _ _ (by omega)
      · rw [ht2, hidx0]; exact readAt_ok _ _ (by omega)
      · rw [ht1, ht2]
        have hlast : entry e1.xtab (ntab - 1) = 1 := by rw [← hnt]; exact hcdf.2.2.2.1
        rw [hlast]
        rcases hcase with h | h
        · rw [hx] at h; exact absurd h (lt_irrefl _)
        · exact ne_of_gt (sub_pos.mpr h)
  · intro hz1 hz2
    have hflat : entry e1.xtab (ntab - 2) = 1 := by
      rw [htab]
      exact flat_tail_of_density ntab omega_min omega_max Mod hpos hz1 hz2
    have hidx := (omega_index_eq e1 hcdf 1 zero_le_one le_rfl).2 rfl
    rw [hnt] at hidx
    have ht1 : (omega_index e1 1 - 1).toNat = ntab - 2 := by
      rw [hidx]; omega
    have ht2 : (omega_index e1 1).toNat = ntab - 1 := by
      rw [hidx]; omega
    have hlast : entry e1.xtab (ntab - 1) = 1 := by rw [← hnt]; exact hcdf.2.2.2.1
    refine ⟨by rw [ht1, ht2, hlast, hflat, sub_self], ?_⟩
    exact (omega_one e1 hcdf).2 (by rw [hnt]; exact hflat)

/-- C19 at the program's resolution `ntab = 5001`, for the density that is
`1` up to `0` and `0` beyond on `[-1, 1]`: at `x = 1` the index is `5000`,
inside the table, and the divisor `xtab[5000] - xtab[4999]` is zero. -/
theorem omega_index_safe_witness :
    ∃ e, construct 5001 (-1 : ℚ) 1 stepDown = .ok e ∧ omega_index e 1 = 5000 ∧
      entry e.xtab 5000 - entry e.xtab 4999 = 0 ∧ omega e 1 = .error .divisionByZero := by
  obtain ⟨e, hc, -, -, -, hnt, -, hcdf⟩ := construct_spec 5001 (-1 : ℚ) 1 stepDown
    (fun k _ => stepDown_nonneg k) stepDown_total_pos
  have h := omega_index_safe 5001 (-1 : ℚ) 1 stepDown e (fun k _ => stepDown_nonneg k)
    stepDown_total_pos hc
  have hidx : omega_index e 1 = 5000 := by
    have := (omega_index_eq e hcdf 1 zero_le_one le_rfl).2 rfl
    rw [hnt] at this
    rw [this]; norm_num
  obtain ⟨hdiv, hom⟩ := h.2 stepDown_last_two.1 stepDown_last_two.2
  rw [hidx] at hdiv
  exact ⟨e, hc, hidx, by simpa using hdiv, hom⟩

end OmegaSafety
end GeneralDefaultModel
end Maxent

/-! ## GeneralDefaultModel: the map x -/

namespace Maxent
namespace GeneralDefaultModel
section MapX
variable {K : Type} [LinearOrderedField K] [FloorRing K]

/-- The value of `x` for an argument in `[0, 1)`, with
`od = floor(t*(ntab-1))`. -/
theorem x_interior (e : GeneralDefaultModel K) (he : IsCDF e) (t : K) (h0 : 0 ≤ t)
    (h1 : t < 1) :
    (⌊t * ((e.ntab : K) - 1)⌋.toNat : K) ≤ t * ((e.ntab : K) - 1) ∧
    t * ((e.ntab : K) - 1) < (⌊t * ((e.ntab : K) - 1)⌋.toNat : K) + 1 ∧
    ⌊t * ((e.ntab : K) - 1)⌋.toNat + 1 < e.ntab ∧
    x e t = .ok (-(entry e.xtab (⌊t * ((e.ntab : K) - 1)⌋.toNat + 1)
          - entry e.xtab ⌊t * ((e.ntab : K) - 1)⌋.toNat)
        * ((⌊t * ((e.ntab : K) - 1)⌋.toNat : K) + 1 - t * (e.ntab : K))
        + entry e.xtab (⌊t * ((e.ntab : K) - 1)⌋.toNat + 1)) := by
  obtain ⟨hl, hn, hz, ho, hasc⟩ := he
  have hcast : ((((e.ntab : Int) - 1 : Int)) : K) = (e.ntab : K) - 1 := by push_cast; ring
  have hn1 : (0 : K) < (e.ntab : K) - 1 := by
    have : (2 : K) ≤ (e.ntab : K) := by exact_mod_cast hn
    linarith
  set u := t * ((e.ntab : K) - 1) with hu
  have hu0 : 0 ≤ u := mul_nonneg h0 (le_of_lt hn1)
  have hu1 : u < (e.ntab : K) - 1 := by
    have := mul_lt_mul_of_pos_right h1 hn1
    simpa [hu] using this
  have hfl0 : 0 ≤ ⌊u⌋ := Int.floor_nonneg.mpr hu0
  have hfl1 : ⌊u⌋ < (e.ntab : Int) - 1 := by
    rw [Int.floor_lt]; push_cast; exact hu1
  have hnat : ((⌊u⌋.toNat : Nat) : Int) = ⌊u⌋ := Int.toNat_of_nonneg hfl0
  have hnatK : ((⌊u⌋.toNat : Nat) : K) = ((⌊u⌋ : Int) : K) := by
    have h := (Int.cast_natCast (R := K) ⌊u⌋.toNat).symm
    rw [h, hnat]
  have hod : ⌊u⌋.toNat + 1 < e.ntab := by omega
  have r1 := readAt_ok e.xtab ⌊u⌋.toNat (by omega)
  have r2 := readAt_ok e.xtab (⌊u⌋.toNat + 1) (by omega)
  rw [hnat] at r1
  have hidx2 : (((⌊u⌋.toNat + 1 : Nat)) : Int) = ⌊u⌋ + 1 := by omega
  rw [hidx2] at r2
  have hguard : ¬ (t > 1 ∨ t < 0) := by
    rintro (h | h)
    · exact absurd (lt_trans h h1) (lt_irrefl _)
    · exact absurd (lt_of_le_of_lt h0 h) (lt_irrefl _)
  refine ⟨by rw [hnatK]; exact Int.floor_le u, by rw [hnatK]; exact Int.lt_floor_add_one u,
    hod, ?_⟩
  unfold GeneralDefaultModel.x
  rw [if_neg hguard]
  simp only [hcast, ← hu, toInt, if_pos hu0]
  rw [if_neg (by omega)]
  simp only [r1, r2, bind, Except.bind, pure, Except.pure, hnatK]
  congr 1
  push_cast
  ring

theorem x_zero (e : GeneralDefaultModel K) (he : IsCDF e) : x e 0 = .ok 0 := by
  obtain ⟨-, -, -, hx⟩ := x_interior e he 0 le_rfl zero_lt_one
  rw [hx]
  simp [he.2.2.1]

theorem x_one (e : GeneralDefaultModel K) : x e 1 = .ok 1 := by
  have hguard : ¬ ((1 : K) > 1 ∨ (1 : K) < 0) := by
    rintro (h | h)
    · exact absurd h (lt_irrefl _)
    · exact absurd h (by norm_num)
  have hfl : toInt ((1 : K) * ((((e.ntab : Int) - 1 : Int)) : K)) = (e.ntab : Int) - 1 := by
    rw [one_mul]
    unfold toInt
    split
    · exact Int.floor_intCast _
    · exact Int.ceil_intCast _
  unfold GeneralDefaultModel.x
  rw [if_neg hguard]
  simp only [hfl, if_true]

/-- C18, amended: for an engine whose table is a cumulative distribution
and `0 ≤ t < 1`, with `od = floor(t*(ntab-1))`, the value is
`x(t) = xtab[od+1] - (xtab[od+1] - xtab[od])*(od + 1 - t*ntab)`; it
satisfies `xtab[od] ≤ x(t) ≤ xtab[od+1] + t*(xtab[od+1] - xtab[od])`, hence
`0 ≤ x(t) ≤ 1 + t`; and `x(0) = 0`, `x(1) = 1`. -/
theorem x_between (e : GeneralDefaultModel K) (he : IsCDF e) :
    (∀ t, 0 ≤ t → t < 1 → ∃ v, x e t = .ok v ∧
      v = entry e.xtab (⌊t * ((e.ntab : K) - 1)⌋.toNat + 1)
        - (entry e.xtab (⌊t * ((e.ntab : K) - 1)⌋.toNat + 1)
            - entry e.xtab ⌊t * ((e.ntab : K) - 1)⌋.toNat)
          * ((⌊t * ((e.ntab : K) - 1)⌋.toNat : K) + 1 - t * (e.ntab : K)) ∧
      entry e.xtab ⌊t * ((e.ntab : K) - 1)⌋.toNat ≤ v ∧
      v ≤ entry e.xtab (⌊t * ((e.ntab : K) - 1)⌋.toNat + 1)
        + t * (entry e.xtab (⌊t * ((e.ntab : K) - 1)⌋.toNat + 1)
          - entry e.xtab ⌊t * ((e.ntab : K) - 1)⌋.toNat) ∧
      0 ≤ v ∧ v ≤ 1 + t) ∧
    x e 0 = .ok 0 ∧ x e 1 = .ok 1 := by
  refine ⟨fun t h0 h1 => ?_, x_zero e he, x_one e⟩
  obtain ⟨hlo, hhi, hod, hx⟩ := x_interior e he t h0 h1
  obtain ⟨hl, hn, hz, ho, hasc⟩ := he
  set od := ⌊t * ((e.ntab : K) - 1)⌋.toNat with hodd
  have hw : 0 ≤ entry e.xtab (od + 1) - entry e.xtab od :=
    sub_nonneg.mpr (hasc od (od + 1) (by omega) (by omega))
  have hx1 : 0 ≤ entry e.xtab od := by
    rw [← hz]; exact hasc 0 od (by omega) (by omega)
  have hx2 : entry e.xtab (od + 1) ≤ 1 := by
    rw [← ho]; exact hasc (od + 1) (e.ntab - 1) (by omega) (by omega)
  have hfrac1 : (od : K) + 1 - t * (e.ntab : K) ≤ 1 - t := by linarith
  have hfrac2 : -t ≤ (od : K) + 1 - t * (e.ntab : K) := by linarith
  have hA := mul_le_mul_of_nonneg_left hfrac1 hw
  have hB := mul_le_mul_of_nonneg_left hfrac2 hw
  have hC : 0 ≤ t * (entry e.xtab (od + 1) - entry e.xtab od) := mul_nonneg h0 hw
  have hD : t * (entry e.xtab (od + 1) - entry e.xtab od) ≤ t * 1 :=
    mul_le_mul_of_nonneg_left (by linarith) h0
  refine ⟨_, hx, by ring, ?_, ?_, ?_, ?_⟩
  · linarith
  · linarith
  · linarith
  · linarith

end MapX

section MapXExample

/-- The engine built from the constant density `1` on `[-5, 5]` at the
program's resolution: its table is `xtab[k] = k/5000`. -/
theorem constant_engine :
    ∃ e, construct 5001 (-5 : ℚ) 5 (fun _ => 1) = .ok e ∧ IsCDF e ∧ e.ntab = 5001 ∧
      ∀ k, k < 5001 → entry e.xtab k = (k : ℚ) / 5000 := by
  have hstep : gridStep (-5 : ℚ) 5 5001 = 1 / 500 := by
    simp only [gridStep]; norm_num
  have hnn : ∀ k, k < 5001 → (0 : ℚ) ≤ (fun _ : ℚ => (1 : ℚ)) (gridPoint (-5 : ℚ) 5 5001 k) :=
    fun _ _ => zero_le_one
  have htr : ∀ k, trapezoid (fun _ : ℚ => (1 : ℚ)) (-5) 5 5001 k = (k : ℚ) * (1 / 500) := by
    intro k; rw [trapezoid_const, hstep]; ring
  have hpos : 0 < trapezoid (fun _ : ℚ => (1 : ℚ)) (-5) 5 5001 (5001 - 1) := by
    rw [htr]; norm_num
  obtain ⟨e, hc, -, -, -, hnt, htab, hcdf⟩ :=
    construct_spec 5001 (-5 : ℚ) 5 (fun _ => 1) hnn hpos
  refine ⟨e, hc, hcdf, hnt, fun k hk => ?_⟩
  rw [htab, entry_map_range _ _ _ hk, htr, htr]
  norm_num
  ring

/-- C18 as stated fails at the program's resolution: for the constant
density on `[-5, 5]` and `t = 0.9999`, `od = 4999` and
`x(t) = 1 + 4999/50000000`, above `xtab[od+1] = 1`. -/
theorem x_above_next_entry :
    ∃ e, construct 5001 (-5 : ℚ) 5 (fun _ => 1) = .ok e ∧ IsCDF e ∧
      ⌊(9999 / 10000 : ℚ) * ((e.ntab : ℚ) - 1)⌋ = 4999 ∧
      x e (9999 / 10000) = .ok (1 + 4999 / 50000000) ∧
      ¬ ((1 + 4999 / 50000000 : ℚ) ≤ entry e.xtab (4999 + 1)) ∧
      ¬ ((1 + 4999 / 50000000 : ℚ) ≤ 1) := by
  obtain ⟨e, hc, hcdf, hnt, hent⟩ := constant_engine
  have hfl : ⌊(9999 / 10000 : ℚ) * ((e.ntab : ℚ) - 1)⌋ = 4999 := by
    rw [hnt, Int.floor_eq_iff]
    constructor <;> norm_num
  obtain ⟨-, -, -, hx⟩ := x_interior e hcdf (9999 / 10000) (by norm_num) (by norm_num)
  rw [hfl] at hx
  have h1 : ((4999 : Int)).toNat = 4999 := by simp
  rw [h1, hent 4999 (by norm_num), hent (4999 + 1) (by norm_num), hnt] at hx
  refine ⟨e, hc, hcdf, hfl, ?_, ?_, by norm_num⟩
  · rw [hx]; exact congrArg Except.ok (by norm_num)
  · rw [hent (4999 + 1) (by norm_num)]; norm_num

/-- C18, amended, at the program's resolution for the constant density on
`[-5, 5]`: `x(0) = 0`, `x(1) = 1` and `0 ≤ x(1/2) ≤ 3/2`. -/
theorem x_between_witness :
    ∃ e, construct 5001 (-5 : ℚ) 5 (fun _ => 1) = .ok e ∧ x e 0 = .ok 0 ∧ x e 1 = .ok 1 ∧
      ∃ v, x e (1 / 2) = .ok v ∧ 0 ≤ v ∧ v ≤ 1 + 1 / 2 := by
  obtain ⟨e, hc, hcdf, -, -⟩ := constant_engine
  have h := x_between e hcdf
  obtain ⟨v, hv, -, -, -, hv0, hv1⟩ := h.1 (1 / 2) (by norm_num) (by norm_num)
  exact ⟨e, hc, h.2.1, h.2.2, v, hv, hv0, hv1⟩

end MapXExample
end GeneralDefaultModel
end Maxent

/-! ## Quadratic grid -/

namespace Maxent
section QuadraticGrid
variable {K : Type} [LinearOrderedField K]

theorem entry_cons_succ (a : K) (l : List K) (i : Nat) : entry (a :: l) (i + 1) = entry l i := by
  simp [entry]

theorem entry_cons_zero (a : K) (l : List K) : entry (a :: l) 0 = a := by
  simp [entry]

theorem entry_map_range'_from (g : Nat → K) (s n k : Nat) (hk : k < n) :
    entry ((List.range' s n).map g) k = g (s + k) := by
  rw [entry_eq_getElem _ _ (by simpa using hk)]
  simp

theorem quadraticIncrement_ge_one (nfreq : Nat) (spread : K) (hs : 1 ≤ spread) (i : Nat) :
    1 ≤ quadraticIncrement nfreq spread i := by
  unfold quadraticIncrement
  have hsq : 0 ≤ ((i : K) / ((nfreq : K) - 1) - 1 / 2) ^ 2 := sq_nonneg _
  have h1 : 0 ≤ spread - 1 := by linarith
  have h2 : -(1 / 4) ≤ (i : K) / ((nfreq : K) - 1) * ((i : K) / ((nfreq : K) - 1))
      - (i : K) / ((nfreq : K) - 1) := by nlinarith
  have h3 := mul_le_mul_of_nonneg_left h2 (mul_nonneg (by norm_num : (0 : K) ≤ 4) h1)
  linarith

theorem quadraticConstant_pos (nfreq : Nat) (spread : K) (hn : 3 ≤ nfreq) (hs : 1 ≤ spread) :
    0 < quadraticConstant nfreq spread := by
  unfold quadraticConstant
  have h3 : (3 : K) ≤ (nfreq : K) := by exact_mod_cast hn
  have h4 : 0 < ((nfreq : K) - 1) * (2 + spread) - 4 + spread := by nlinarith
  exact mul_pos (div_pos (by linarith) (by linarith)) h4

theorem quadratic_sum_pos (nfreq : Nat) (spread : K) (hs : 1 ≤ spread) (k : Nat) (hk : 0 < k) :
    0 < ∑ j in Finset.range k, quadraticIncrement nfreq spread j := by
  apply Finset.sum_pos
  · intro j _
    exact lt_of_lt_of_le zero_lt_one (quadraticIncrement_ge_one nfreq spread hs j)
  · exact Finset.nonempty_range_iff.mpr (by omega)

/-- The first loop of the quadratic scheme: the array `temp` holds the
partial sums of the increments divided by the constant. -/
theorem quadraticLoop_eq (nfreq : Nat) (spread : K) (hn : 3 ≤ nfreq)
    (hC : quadraticConstant nfreq spread ≠ 0) :
    ∀ (steps i : Nat) (rest : List K), rest.length = steps →
      quadraticLoop nfreq spread steps i
          ((∑ j in Finset.range i, quadraticIncrement nfreq spread j)
            / quadraticConstant nfreq spread)
          ((List.range i).map (fun k =>
              (∑ j in Finset.range (k + 1), quadraticIncrement nfreq spread j)
                / quadraticConstant nfreq spread) ++ rest)
        = .ok ((List.range (i + steps)).map (fun k =>
              (∑ j in Finset.range (k + 1), quadraticIncrement nfreq spread j)
                / quadraticConstant nfreq spread)) := by
  have h3 : (3 : K) ≤ (nfreq : K) := by exact_mod_cast hn
  have hd1 : ((((nfreq : Int) - 1 : Int)) : K) = (nfreq : K) - 1 := by push_cast; ring
  have hd2 : ((((nfreq : Int) - 2 : Int)) : K) = (nfreq : K) - 2 := by push_cast; ring
  have hn1 : (nfreq : K) - 1 ≠ 0 := by
    have : (0 : K) < (nfreq : K) - 1 := by linarith
    exact ne_of_gt this
  have hn2 : 3 * ((nfreq : K) - 2) ≠ 0 := by
    have : (0 : K) < 3 * ((nfreq : K) - 2) := by linarith
    exact ne_of_gt this
  intro steps
  induction steps with
  | zero =>
    intro i rest hr
    have : rest = [] := List.length_eq_zero.mp hr
    subst this
    simp [quadraticLoop]
  | succ steps ih =>
    intro i rest hr
    obtain ⟨r, rest1, rfl⟩ : ∃ r rest1, rest = r :: rest1 := by
      cases rest with
      | nil => simp at hr
      | cons r rest1 => exact ⟨r, rest1, rfl⟩
    have hlen : ((List.range i).map (fun k =>
        (∑ j in Finset.range (k + 1), quadraticIncrement nfreq spread j)
          / quadraticConstant nfreq spread)).length = i := by simp
    have hC2 : ((nfreq : K) - 1) / (3 * ((nfreq : K) - 2))
        * (((nfreq : K) - 1) * (2 + spread) - 4 + spread) ≠ 0 := hC
    have hsum : (∑ j in Finset.range i, quadraticIncrement nfreq spread j)
          / quadraticConstant nfreq spread
        + (4 * (spread - 1)
            * ((((i : Int)) : K) / ((nfreq : K) - 1) * ((((i : Int)) : K) / ((nfreq : K) - 1))
              - (((i : Int)) : K) / ((nfreq : K) - 1)) + spread)
          / (((nfreq : K) - 1) / (3 * ((nfreq : K) - 2))
            * (((nfreq : K) - 1) * (2 + spread) - 4 + spread))
        = (∑ j in Finset.range (i + 1), quadraticIncrement nfreq spread j)
          / quadraticConstant nfreq spread := by
      rw [Finset.sum_range_succ]
      simp only [quadraticIncrement, quadraticConstant, Int.cast_natCast]
      ring
    have hw := writeAt_ok
      ((List.range i).map (fun k =>
          (∑ j in Finset.range (k + 1), quadraticIncrement nfreq spread j)
            / quadraticConstant nfreq spread) ++ r :: rest1)
      i ((∑ j in Finset.range (i + 1), quadraticIncrement nfreq spread j)
          / quadraticConstant nfreq spread) (by simp)
    have hset : ((List.range i).map (fun k =>
          (∑ j in Finset.range (k + 1), quadraticIncrement nfreq spread j)
            / quadraticConstant nfreq spread) ++ r :: rest1).set i
          ((∑ j in Finset.range (i + 1), quadraticIncrement nfreq spread j)
            / quadraticConstant nfreq spread)
        = (List.range (i + 1)).map (fun k =>
          (∑ j in Finset.range (k + 1), quadraticIncrement nfreq spread j)
            / quadraticConstant nfreq spread) ++ rest1 := by
      have := GeneralDefaultModel.set_length_append
        ((List.range i).map (fun k =>
          (∑ j in Finset.range (k + 1), quadraticIncrement nfreq spread j)
            / quadraticConstant nfreq spread)) r
        ((∑ j in Finset.range (i + 1), quadraticIncrement nfreq spread j)
          / quadraticConstant nfreq spread) rest1
      rw [hlen] at this
      rw [this, List.range_succ (n := i)]
      simp
    rw [hset] at hw
    have hih := ih (i + 1) rest1 (by simpa using hr)
    unfold quadraticLoop
    simp only [hd1, hd2, safeDiv_ok _ hn1, safeDiv_ok _ hn2, safeDiv_ok _ hC2, bind,
      Except.bind, hsum, hw]
    rw [hih]
    have hidx : i + 1 + steps = i + (steps + 1) := by omega
    rw [hidx]

/-- The result of the quadratic scheme for `nfreq ≥ 3` and `spread ≥ 1`. -/
theorem initialize_quadratic_map_eq (nfreq : Nat) (spread : K) (hn : 3 ≤ nfreq)
    (hs : 1 ≤ spread) :
    initialize_quadratic_map nfreq spread = .ok ((0 : K) :: (List.range' 1 nfreq).map (fun i =>
      (∑ j in Finset.range i, quadraticIncrement nfreq spread j)
        / (∑ j in Finset.range nfreq, quadraticIncrement nfreq spread j))) := by
  have hC := quadraticConstant_pos nfreq spread hn hs
  have hloop := quadraticLoop_eq nfreq spread hn (ne_of_gt hC) nfreq 0 (List.replicate nfreq 0)
    (by simp)
  simp only [Finset.range_zero, Finset.sum_empty, zero_div, List.range_zero, List.map_nil,
    List.nil_append, Nat.zero_add] at hloop
  have hS := quadratic_sum_pos nfreq spread hs nfreq (by omega)
  have hlast : (∑ j in Finset.range nfreq, quadraticIncrement nfreq spread j)
      / quadraticConstant nfreq spread ≠ 0 := ne_of_gt (div_pos hS hC)
  have hlen : ((List.range nfreq).map (fun k =>
      (∑ j in Finset.range (k + 1), quadraticIncrement nfreq spread j)
        / quadraticConstant nfreq spread)).length = nfreq := by simp
  have hfill := fillLoop_eq
    (fun i => do
      let a ← readAt ((List.range nfreq).map (fun k =>
        (∑ j in Finset.range (k + 1), quadraticIncrement nfreq spread j)
          / quadraticConstant nfreq spread)) ((i : Int) - 1)
      let l ← readAt ((List.range nfreq).map (fun k =>
        (∑ j in Finset.range (k + 1), quadraticIncrement nfreq spread j)
          / quadraticConstant nfreq spread))
        ((((List.range nfreq).map (fun k =>
          (∑ j in Finset.range (k + 1), quadraticIncrement nfreq spread j)
            / quadraticConstant nfreq spread)).length : Int) - 1)
      safeDiv a l)
    (fun i => (∑ j in Finset.range i, quadraticIncrement nfreq spread j)
        / (∑ j in Finset.range nfreq, quadraticIncrement nfreq spread j))
    nfreq 1 (fun i hi1 hi2 => by
      have hidx : ((i : Int) - 1) = ((i - 1 : Nat) : Int) := by omega
      have hidl : ((nfreq : Int) - 1) = ((nfreq - 1 : Nat) : Int) := by omega
      have ra := readAt_ok ((List.range nfreq).map (fun k =>
        (∑ j in Finset.range (k + 1), quadraticIncrement nfreq spread j)
          / quadraticConstant nfreq spread)) (i - 1) (by rw [hlen]; omega)
      have rl := readAt_ok ((List.range nfreq).map (fun k =>
        (∑ j in Finset.range (k + 1), quadraticIncrement nfreq spread j)
          / quadraticConstant nfreq spread)) (nfreq - 1) (by rw [hlen]; omega)
      rw [GeneralDefaultModel.entry_map_range _ _ _ (by omega)] at ra rl
      have e1 : i - 1 + 1 = i := by omega
      have e2 : nfreq - 1 + 1 = nfreq := by omega
      rw [e1] at ra
      rw [e2] at rl
      simp only [hlen, hidx, hidl, ra, rl, bind, Except.bind]
      rw [safeDiv_ok _ hlast]
      congr 1
      field_simp)
  unfold initialize_quadratic_map
  rw [if_neg (not_lt.mpr hs)]
  simp only [bind, Except.bind] at hfill
  simp only [hloop, bind, Except.bind, pure, Except.pure]
  rw [hfill]

end QuadraticGrid
end Maxent

namespace Maxent
section QuadraticProperties
variable {K : Type} [LinearOrderedField K]

/-- C12: for `nfreq ≥ 3` and `spread ≥ 1` the quadratic scheme gives
`nfreq + 1` entries with `t_array[0] = 0`, `t_array[nfreq] = 1`,
`t_array[i] < t_array[i+1]`, and `t_array[i]` is the sum of the first `i`
increments `4(spread-1)(a²-a)+spread` divided by the sum of all `nfreq`
increments (the normalisation constant cancels). -/
theorem initialize_quadratic_map_invariant (nfreq : Nat) (spread : K) (hn : 3 ≤ nfreq)
    (hs : 1 ≤ spread) :
    ∃ t : List K, initialize_quadratic_map nfreq spread = .ok t ∧ t.length = nfreq + 1 ∧
      entry t 0 = 0 ∧ entry t nfreq = 1 ∧
      (∀ i, i < nfreq → entry t i < entry t (i + 1)) ∧
      ∀ i, i ≤ nfreq → entry t i
        = (∑ j in Finset.range i, quadraticIncrement nfreq spread j)
          / (∑ j in Finset.range nfreq, quadraticIncrement nfreq spread j) := by
  have hS := quadratic_sum_pos nfreq spread hs nfreq (by omega)
  have hval : ∀ i, i ≤ nfreq →
      entry ((0 : K) :: (List.range' 1 nfreq).map (fun i =>
        (∑ j in Finset.range i, quadraticIncrement nfreq spread j)
          / (∑ j in Finset.range nfreq, quadraticIncrement nfreq spread j))) i
      = (∑ j in Finset.range i, quadraticIncrement nfreq spread j)
          / (∑ j in Finset.range nfreq, quadraticIncrement nfreq spread j) := by
    intro i hi
    cases i with
    | zero => simp [entry_cons_zero]
    | succ k =>
      rw [entry_cons_succ, entry_map_range'_from _ _ _ _ (by omega)]
      have : 1 + k = k + 1 := by omega
      rw [this]
  refine ⟨_, initialize_quadratic_map_eq nfreq spread hn hs, by simp, ?_, ?_, fun i hi => ?_,
    hval⟩
  · rw [hval 0 (by omega)]; simp
  · rw [hval nfreq le_rfl]; exact div_self (ne_of_gt hS)
  · rw [hval i (by omega), hval (i + 1) (by omega)]
    apply div_lt_div_of_pos_right _ hS
    rw [Finset.sum_range_succ]
    have := quadraticIncrement_ge_one nfreq spread hs i
    linarith

/-- C12 at `nfreq = 4`, `spread = 4`: the second entry is
`4 / (4 + 4/3 + 4/3 + 4) = 3/8`, and the grid runs from `0` to `1`. -/
theorem initialize_quadratic_map_invariant_witness :
    ∃ t : List ℚ, initialize_quadratic_map 4 (4 : ℚ) = .ok t ∧ t.length = 5 ∧
      entry t 0 = 0 ∧ entry t 1 = 3 / 8 ∧ entry t 4 = 1 := by
  obtain ⟨t, ht, hlen, h0, h4, -, hval⟩ :=
    initialize_quadratic_map_invariant 4 (4 : ℚ) (by norm_num) (by norm_num)
  refine ⟨t, ht, hlen, h0, ?_, h4⟩
  rw [hval 1 (by norm_num)]
  simp only [Finset.sum_range_succ, Finset.sum_range_zero, quadraticIncrement]
  norm_num

/-- C15: for `nfreq ≥ 3` the quadratic scheme fails with the configuration
error exactly when `spread < 1`; every `spread ≥ 1`, the value `1`
included, is accepted and a grid is built. -/
theorem initialize_quadratic_map_config_error (nfreq : Nat) (spread : K) (hn : 3 ≤ nfreq) :
    (initialize_quadratic_map nfreq spread = .error .config ↔ spread < 1) ∧
    (1 ≤ spread → ∃ t : List K, initialize_quadratic_map nfreq spread = .ok t) := by
  constructor
  · constructor
    · intro h
      by_contra hc
      rw [initialize_quadratic_map_eq nfreq spread hn (not_lt.mp hc)] at h
      exact absurd h (by simp)
    · intro h
      unfold initialize_quadratic_map
      rw [if_pos h]
  · intro hs
    exact ⟨_, initialize_quadratic_map_eq nfreq spread hn hs⟩

/-- C15 at `nfreq = 3`: `spread = 1` is accepted (no configuration error),
`spread = 1/2` is rejected. -/
theorem initialize_quadratic_map_config_error_witness :
    (∃ t : List ℚ, initialize_quadratic_map 3 (1 : ℚ) = .ok t) ∧
    initialize_quadratic_map 3 (1 : ℚ) ≠ .error .config ∧
    initialize_quadratic_map 3 (1 / 2 : ℚ) = .error .config := by
  have h1 := initialize_quadratic_map_config_error 3 (1 : ℚ) (by norm_num)
  have h2 := initialize_quadratic_map_config_error 3 (1 / 2 : ℚ) (by norm_num)
  refine ⟨h1.2 le_rfl, ?_, h2.1.mpr (by norm_num)⟩
  intro h
  exact absurd (h1.1.mp h) (lt_irrefl _)

end QuadraticProperties
end Maxent

/-! ## Half-Lorentzian grid -/

namespace Maxent
section HalfLorentzian
variable {K : Type} [LinearOrderedField K]

/-- The rescaling loop applied to the samples `T 0, …, T n` when the
divisor `T n - T 0` is not zero. -/
theorem rescaleLoop_eq_of_ne (T : Nat → K) (n : Nat) (hne : T n - T 0 ≠ 0) :
    rescaleLoop ((List.range' 0 (n + 1)).map T) (n + 1)
      = .ok ((List.range' 0 (n + 1)).map (fun i => (T i - T 0) / (T n - T 0))) := by
  have hlen : ((List.range' 0 (n + 1)).map T).length = n + 1 := by simp
  have hlast : ((((List.range' 0 (n + 1)).map T).length : Int) - 1) = ((n : Nat) : Int) := by
    rw [hlen]; push_cast; ring
  have r0 := readAt_ok ((List.range' 0 (n + 1)).map T) 0 (by rw [hlen]; omega)
  have rl := readAt_ok ((List.range' 0 (n + 1)).map T) n (by rw [hlen]; omega)
  rw [entry_map_range' _ _ _ (by omega)] at r0 rl
  simp only [Nat.cast_zero] at r0
  unfold rescaleLoop
  refine fillLoop_eq _ _ (n + 1) 0 (fun i _ hi => ?_)
  have ri := readAt_ok ((List.range' 0 (n + 1)).map T) i (by rw [hlen]; omega)
  rw [entry_map_range' _ _ _ (by omega)] at ri
  simp only [hlast, r0, rl, ri, bind, Except.bind, safeDiv_ok _ hne]

theorem rescaleLoop_zero_divisor (T : Nat → K) (n : Nat) (hz : T n - T 0 = 0) :
    rescaleLoop ((List.range' 0 (n + 1)).map T) (n + 1) = .error .divisionByZero := by
  have hlen : ((List.range' 0 (n + 1)).map T).length = n + 1 := by simp
  have hlast : ((((List.range' 0 (n + 1)).map T).length : Int) - 1) = ((n : Nat) : Int) := by
    rw [hlen]; push_cast; ring
  have r0 := readAt_ok ((List.range' 0 (n + 1)).map T) 0 (by rw [hlen]; omega)
  have rl := readAt_ok ((List.range' 0 (n + 1)).map T) n (by rw [hlen]; omega)
  rw [entry_map_range' _ _ _ (by omega)] at r0 rl
  simp only [Nat.cast_zero] at r0
  unfold rescaleLoop
  unfold fillLoop
  simp only [hlast, r0, rl, Nat.cast_zero, bind, Except.bind, hz, safeDiv_zero]

/-- The samples `temp` of the half-Lorentzian scheme. -/
theorem half_lorentzian_temp (tan : K → K) (pi : K) (nfreq : Nat) (cut : K) :
    fillLoop (fun i => do
        let q ← safeDiv ((((i : Int) + (nfreq : Int) : Int)) : K)
          (((2 * (nfreq : Int) - 1 : Int)) : K)
        pure (tan (pi * (q * (1 - 2 * cut) + cut - 1 / 2)))) (nfreq + 1) 0
      = .ok ((List.range' 0 (nfreq + 1)).map (fun i : Nat =>
          tan (pi * (((i : K) + (nfreq : K)) / (2 * (nfreq : K) - 1) * (1 - 2 * cut)
            + cut - 1 / 2)))) := by
  have hne : (((2 * (nfreq : Int) - 1 : Int)) : K) ≠ 0 := by
    have : (2 * (nfreq : Int) - 1 : Int) ≠ 0 := by omega
    exact_mod_cast this
  refine fillLoop_eq _ _ (nfreq + 1) 0 (fun i _ _ => ?_)
  show (do
    let q ← safeDiv ((((i : Int) + (nfreq : Int) : Int)) : K)
      (((2 * (nfreq : Int) - 1 : Int)) : K)
    pure (tan (pi * (q * (1 - 2 * cut) + cut - 1 / 2)))) = _
  rw [safeDiv_ok _ hne]
  simp only [bind, Except.bind, pure, Except.pure]
  push_cast
  rfl

/-- The result of the half-Lorentzian scheme when the divisor of the
rescaling is not zero. -/
theorem initialize_half_lorentzian_grid_eq (tan : K → K) (pi : K) (nfreq : Nat) (cut : K)
    (hne : tan (pi * (((nfreq : K) + (nfreq : K)) / (2 * (nfreq : K) - 1) * (1 - 2 * cut)
          + cut - 1 / 2))
        - tan (pi * ((((0 : Nat) : K) + (nfreq : K)) / (2 * (nfreq : K) - 1) * (1 - 2 * cut)
          + cut - 1 / 2)) ≠ 0) :
    initialize_half_lorentzian_grid tan pi nfreq cut
      = .ok ((List.range' 0 (nfreq + 1)).map (fun i : Nat =>
        (tan (pi * (((i : K) + (nfreq : K)) / (2 * (nfreq : K) - 1) * (1 - 2 * cut)
            + cut - 1 / 2))
          - tan (pi * ((((0 : Nat) : K) + (nfreq : K)) / (2 * (nfreq : K) - 1) * (1 - 2 * cut)
            + cut - 1 / 2)))
        / (tan (pi * (((nfreq : K) + (nfreq : K)) / (2 * (nfreq : K) - 1) * (1 - 2 * cut)
            + cut - 1 / 2))
          - tan (pi * ((((0 : Nat) : K) + (nfreq : K)) / (2 * (nfreq : K) - 1) * (1 - 2 * cut)
            + cut - 1 / 2))))) := by
  have hres := rescaleLoop_eq_of_ne
    (fun i : Nat => tan (pi * (((i : K) + (nfreq : K)) / (2 * (nfreq : K) - 1) * (1 - 2 * cut)
      + cut - 1 / 2))) nfreq hne
  unfold initialize_half_lorentzian_grid
  rw [half_lorentzian_temp]
  simp only [bind, Except.bind]
  exact hres

end HalfLorentzian

section HalfLorentzianReal

/-- The argument of the tangent in the half-Lorentzian scheme, in units of
`π`: it is positive at the first sample, increases with the index and is
`1/2 - cut` at the last sample but one. -/
theorem half_arg_facts (nfreq : Nat) (cut : ℝ) (hn : 1 ≤ nfreq) (hc0 : 0 < cut)
    (hc1 : cut < 1 / 2) :
    0 < (((0 : Nat) : ℝ) + (nfreq : ℝ)) / (2 * (nfreq : ℝ) - 1) * (1 - 2 * cut) + cut - 1 / 2 ∧
    (∀ i j : Nat, i < j →
      ((i : ℝ) + (nfreq : ℝ)) / (2 * (nfreq : ℝ) - 1) * (1 - 2 * cut) + cut - 1 / 2
        < ((j : ℝ) + (nfreq : ℝ)) / (2 * (nfreq : ℝ) - 1) * (1 - 2 * cut) + cut - 1 / 2) ∧
    (∀ i : Nat, i + 1 ≤ nfreq →
      ((i : ℝ) + (nfreq : ℝ)) / (2 * (nfreq : ℝ) - 1) * (1 - 2 * cut) + cut - 1 / 2 < 1 / 2) ∧
    ((nfreq : ℝ) + (nfreq : ℝ)) / (2 * (nfreq : ℝ) - 1) * (1 - 2 * cut) + cut - 1 / 2 - 1
      < (((0 : Nat) : ℝ) + (nfreq : ℝ)) / (2 * (nfreq : ℝ) - 1) * (1 - 2 * cut) + cut - 1 / 2 := by
  have hn1 : (1 : ℝ) ≤ (nfreq : ℝ) := by exact_mod_cast hn
  have hd : 0 < 2 * (nfreq : ℝ) - 1 := by linarith
  have hw : 0 < 1 - 2 * cut := by linarith
  refine ⟨?_, fun i j hij => ?_, fun i hi => ?_, ?_⟩
  · have h : (((0 : Nat) : ℝ) + (nfreq : ℝ)) / (2 * (nfreq : ℝ) - 1) * (1 - 2 * cut)
        + cut - 1 / 2 = (1 - 2 * cut) / (2 * (2 * (nfreq : ℝ) - 1)) := by
      field_simp; ring
    rw [h]; positivity
  · have hij' : (i : ℝ) < (j : ℝ) := by exact_mod_cast hij
    have h1 : ((i : ℝ) + (nfreq : ℝ)) / (2 * (nfreq : ℝ) - 1)
        < ((j : ℝ) + (nfreq : ℝ)) / (2 * (nfreq : ℝ) - 1) :=
      div_lt_div_of_pos_right (by linarith) hd
    have := mul_lt_mul_of_pos_right h1 hw
    linarith
  · have hi' : (i : ℝ) + 1 ≤ (nfreq : ℝ) := by exact_mod_cast hi
    have h1 : ((i : ℝ) + (nfreq : ℝ)) / (2 * (nfreq : ℝ) - 1) ≤ 1 := by
      rw [div_le_one hd]; linarith
    have := mul_le_mul_of_nonneg_right h1 (le_of_lt hw)
    linarith
  · have h : ((nfreq : ℝ) + (nfreq : ℝ)) / (2 * (nfreq : ℝ) - 1) * (1 - 2 * cut)
        - (((0 : Nat) : ℝ) + (nfreq : ℝ)) / (2 * (nfreq : ℝ) - 1) * (1 - 2 * cut)
        = (nfreq : ℝ) * (1 - 2 * cut) / (2 * (nfreq : ℝ) - 1) := by
      field_simp; ring
    have h2 : (nfreq : ℝ) * (1 - 2 * cut) / (2 * (nfreq : ℝ) - 1) < 1 := by
      rw [div_lt_one hd]; nlinarith
    linarith

/-- The last argument is below `1/2` exactly when `cut * (2 nfreq + 1) > 1`. -/
theorem half_arg_last (nfreq : Nat) (cut : ℝ) (hn : 1 ≤ nfreq) :
    (1 < cut * (2 * (nfreq : ℝ) + 1) ↔
      ((nfreq : ℝ) + (nfreq : ℝ)) / (2 * (nfreq : ℝ) - 1) * (1 - 2 * cut) + cut - 1 / 2
        < 1 / 2) ∧
    (cut * (2 * (nfreq : ℝ) + 1) < 1 ↔
      1 / 2 < ((nfreq : ℝ) + (nfreq : ℝ)) / (2 * (nfreq : ℝ) - 1) * (1 - 2 * cut)
        + cut - 1 / 2) := by
  have hn1 : (1 : ℝ) ≤ (nfreq : ℝ) := by exact_mod_cast hn
  have hd : 0 < 2 * (nfreq : ℝ) - 1 := by linarith
  have h : ((nfreq : ℝ) + (nfreq : ℝ)) / (2 * (nfreq : ℝ) - 1) * (1 - 2 * cut) + cut - 1 / 2
      - 1 / 2 = (1 - cut * (2 * (nfreq : ℝ) + 1)) / (2 * (nfreq : ℝ) - 1) := by
    field_simp; ring
  constructor
  · constructor
    · intro hc
      have : (1 - cut * (2 * (nfreq : ℝ) + 1)) / (2 * (nfreq : ℝ) - 1) < 0 :=
        div_neg_of_neg_of_pos (by linarith) hd
      linarith
    · intro hlt
      by_contra hc
      have : 0 ≤ (1 - cut * (2 * (nfreq : ℝ) + 1)) / (2 * (nfreq : ℝ) - 1) :=
        div_nonneg (by linarith) (le_of_lt hd)
      linarith
  · constructor
    · intro hc
      have : 0 < (1 - cut * (2 * (nfreq : ℝ) + 1)) / (2 * (nfreq : ℝ) - 1) :=
        div_pos (by linarith) hd
      linarith
    · intro hlt
      by_contra hc
      have : (1 - cut * (2 * (nfreq : ℝ) + 1)) / (2 * (nfreq : ℝ) - 1) ≤ 0 :=
        div_nonpos_of_nonpos_of_nonneg (by linarith) (le_of_lt hd)
      linarith

end HalfLorentzianReal
end Maxent

namespace Maxent
section HalfLorentzianTangent

theorem tan_pi_mul_lt {a b : ℝ} (ha : -(1 / 2) < a) (hab : a < b) (hb : b < 1 / 2) :
    Real.tan (Real.pi * a) < Real.tan (Real.pi * b) := by
  have hpi := Real.pi_pos
  refine Real.tan_lt_tan_of_lt_of_lt_pi_div_two ?_ ?_ (mul_lt_mul_of_pos_left hab hpi)
  · have := mul_lt_mul_of_pos_left ha hpi
    linarith
  · have := mul_lt_mul_of_pos_left hb hpi
    linarith

theorem tan_pi_mul_sub_one (a : ℝ) : Real.tan (Real.pi * a) = Real.tan (Real.pi * (a - 1)) := by
  have h := Real.tan_periodic (Real.pi * (a - 1))
  have e : Real.pi * (a - 1) + Real.pi = Real.pi * a := by ring
  rw [e] at h
  exact h

/-- Above the threshold `cut * (2 nfreq + 1) > 1` the samples of the
half-Lorentzian scheme increase strictly. -/
theorem half_tan_increasing (nfreq : Nat) (cut : ℝ) (hn : 1 ≤ nfreq) (hc0 : 0 < cut)
    (hc1 : cut < 1 / 2) (hlarge : 1 < cut * (2 * (nfreq : ℝ) + 1)) :
    ∀ i j : Nat, i < j → j ≤ nfreq →
      Real.tan (Real.pi * (((i : ℝ) + (nfreq : ℝ)) / (2 * (nfreq : ℝ) - 1) * (1 - 2 * cut)
          + cut - 1 / 2))
        < Real.tan (Real.pi * (((j : ℝ) + (nfreq : ℝ)) / (2 * (nfreq : ℝ) - 1) * (1 - 2 * cut)
          + cut - 1 / 2)) := by
  intro i j hij hj
  obtain ⟨h0, hmono, -, -⟩ := half_arg_facts nfreq cut hn hc0 hc1
  have hlast := (half_arg_last nfreq cut hn).1.mp hlarge
  refine tan_pi_mul_lt ?_ (hmono i j hij) ?_
  · rcases Nat.eq_zero_or_pos i with hi | hi
    · subst hi; linarith
    · have := hmono 0 i hi
      linarith
  · rcases Nat.eq_or_lt_of_le hj with hjn | hjn
    · subst hjn; exact hlast
    · have := hmono j nfreq hjn
      linarith

/-- Below the threshold the last sample has passed the pole of the
tangent: it lies below the first sample, while the samples before it
increase. -/
theorem half_tan_past_pole (nfreq : Nat) (cut : ℝ) (hn : 1 ≤ nfreq) (hc0 : 0 < cut)
    (hsmall : cut * (2 * (nfreq : ℝ) + 1) < 1) :
    Real.tan (Real.pi * (((nfreq : ℝ) + (nfreq : ℝ)) / (2 * (nfreq : ℝ) - 1) * (1 - 2 * cut)
          + cut - 1 / 2))
        < Real.tan (Real.pi * ((((0 : Nat) : ℝ) + (nfreq : ℝ)) / (2 * (nfreq : ℝ) - 1)
          * (1 - 2 * cut) + cut - 1 / 2)) ∧
    ∀ i j : Nat, i < j → j + 1 ≤ nfreq →
      Real.tan (Real.pi * (((i : ℝ) + (nfreq : ℝ)) / (2 * (nfreq : ℝ) - 1) * (1 - 2 * cut)
          + cut - 1 / 2))
        < Real.tan (Real.pi * (((j : ℝ) + (nfreq : ℝ)) / (2 * (nfreq : ℝ) - 1) * (1 - 2 * cut)
          + cut - 1 / 2)) := by
  have hn1 : (1 : ℝ) ≤ (nfreq : ℝ) := by exact_mod_cast hn
  have hc1 : cut < 1 / 2 := by nlinarith
  obtain ⟨h0, hmono, hbelow, hwrap⟩ := half_arg_facts nfreq cut hn hc0 hc1
  have hlast := (half_arg_last nfreq cut hn).2.mp hsmall
  constructor
  · rw [tan_pi_mul_sub_one]
    exact tan_pi_mul_lt (by linarith) hwrap (hbelow 0 (by omega))
  · intro i j hij hj
    refine tan_pi_mul_lt ?_ (hmono i j hij) (hbelow j hj)
    rcases Nat.eq_zero_or_pos i with hi | hi
    · subst hi; linarith
    · have := hmono 0 i hi
      linarith

/-- For `nfreq ≥ 2` and a cut below the threshold the half-Lorentzian grid
is built and its second entry lies below its first. -/
theorem half_lorentzian_not_increasing (nfreq : Nat) (cut : ℝ) (hn : 2 ≤ nfreq) (hc0 : 0 < cut)
    (hsmall : cut * (2 * (nfreq : ℝ) + 1) < 1) :
    ∃ t : List ℝ, initialize_half_lorentzian_grid Real.tan Real.pi nfreq cut = .ok t ∧
      t.length = nfreq + 1 ∧ entry t 0 = 0 ∧ entry t 1 < 0 := by
  obtain ⟨hD, hinc⟩ := half_tan_past_pole nfreq cut (by omega) hc0 hsmall
  have h01 := hinc 0 1 (by omega) (by omega)
  refine ⟨_, initialize_half_lorentzian_grid_eq Real.tan Real.pi nfreq cut
    (ne_of_lt (sub_neg.mpr hD)), by simp, ?_, ?_⟩
  · rw [entry_map_range' _ _ _ (by omega)]; simp
  · rw [entry_map_range' _ _ _ (by omega)]
    exact div_neg_of_pos_of_neg (sub_pos.mpr h01) (sub_neg.mpr hD)

/-- C11 as stated fails at `nfreq = 2`, `cut = 1/8`: the grid is built
and `t_array[1] < 0 = t_array[0]`, so `t_array[0] < t_array[1]` does not
hold. -/
theorem half_lorentzian_decreasing_step :
    (1 : ℕ) ≤ 2 ∧ (0 : ℝ) < 1 / 8 ∧ (1 / 8 : ℝ) < 1 / 2 ∧
    ∃ t : List ℝ, initialize_half_lorentzian_grid Real.tan Real.pi 2 (1 / 8) = .ok t ∧
      ¬ (entry t 0 < entry t 1) := by
  obtain ⟨t, ht, -, h0, h1⟩ := half_lorentzian_not_increasing 2 (1 / 8) le_rfl (by norm_num)
    (by norm_num)
  refine ⟨by norm_num, by norm_num, by norm_num, t, ht, ?_⟩
  rw [h0]
  exact not_lt.mpr (le_of_lt h1)

/-- C11, amended: for `nfreq ≥ 1` and `1/(2 nfreq + 1) < cut < 1/2` the
half-Lorentzian scheme gives `nfreq + 1` entries with `t_array[0] = 0`,
`t_array[nfreq] = 1` and `t_array[i] < t_array[i+1]` for `0 ≤ i < nfreq`
(real tangent and `π`); for `nfreq ≥ 2` and `0 < cut < 1/(2 nfreq + 1)` the
grid is not increasing. -/
theorem initialize_half_lorentzian_grid_invariant (nfreq : Nat) (cut : ℝ) (hn : 1 ≤ nfreq)
    (hc1 : cut < 1 / 2) :
    (1 < cut * (2 * (nfreq : ℝ) + 1) →
      ∃ t : List ℝ, initialize_half_lorentzian_grid Real.tan Real.pi nfreq cut = .ok t ∧
        t.length = nfreq + 1 ∧ entry t 0 = 0 ∧ entry t nfreq = 1 ∧
        ∀ i, i < nfreq → entry t i < entry t (i + 1)) ∧
    (2 ≤ nfreq → 0 < cut → cut * (2 * (nfreq : ℝ) + 1) < 1 →
      ∃ t : List ℝ, initialize_half_lorentzian_grid Real.tan Real.pi nfreq cut = .ok t ∧
        ¬ (entry t 0 < entry t 1)) := by
  constructor
  · intro hlarge
    have hc0 : 0 < cut := by
      by_contra hc
      have hn0 : (0 : ℝ) ≤ 2 * (nfreq : ℝ) + 1 := by positivity
      have := mul_nonpos_of_nonpos_of_nonneg (not_lt.mp hc) hn0
      linarith
    have hT := half_tan_increasing nfreq cut hn hc0 hc1 hlarge
    have hinv := rescaled_invariant
      (fun i : Nat => Real.tan (Real.pi * (((i : ℝ) + (nfreq : ℝ)) / (2 * (nfreq : ℝ) - 1)
        * (1 - 2 * cut) + cut - 1 / 2))) nfreq hn hT
    exact ⟨_, initialize_half_lorentzian_grid_eq Real.tan Real.pi nfreq cut
      (ne_of_gt (sub_pos.mpr (hT 0 nfreq (by omega) le_rfl))), hinv⟩
  · intro hn2 hc0 hsmall
    obtain ⟨t, ht, -, h0, h1⟩ := half_lorentzian_not_increasing nfreq cut hn2 hc0 hsmall
    refine ⟨t, ht, ?_⟩
    rw [h0]
    exact not_lt.mpr (le_of_lt h1)

/-- C11, amended, at `nfreq = 2`, `cut = 1/4` (above the threshold `1/5`):
the grid has three entries, from `0` to `1`, the middle one strictly
between. -/
theorem initialize_half_lorentzian_grid_invariant_witness :
    ∃ t : List ℝ, initialize_half_lorentzian_grid Real.tan Real.pi 2 (1 / 4) = .ok t ∧
      t.length = 3 ∧ entry t 0 = 0 ∧ entry t 2 = 1 ∧ 0 < entry t 1 ∧ entry t 1 < 1 := by
  obtain ⟨t, ht, hlen, h0, h2, hinc⟩ :=
    (initialize_half_lorentzian_grid_invariant 2 (1 / 4) (by norm_num) (by norm_num)).1
      (by norm_num)
  refine ⟨t, ht, hlen, h0, h2, ?_, ?_⟩
  · have := hinc 0 (by norm_num)
    rw [h0] at this; exact this
  · have := hinc 1 (by norm_num)
    rw [h2] at this; exact this

end HalfLorentzianTangent
end Maxent

/-! ## Logarithmic grid -/

namespace Maxent
section LogarithmicGrid
variable {K : Type} [LinearOrderedField K]

theorem entry_set (l : List K) (k : Nat) (a : K) (p : Nat) (hk : k < l.length) :
    entry (l.set k a) p = if p = k then a else entry l p := by
  unfold entry
  by_cases h : p = k
  · subst h
    simp [List.getD, hk]
  · simp [List.getD, h, List.getElem?_set, Ne.symm h]

/-- The loop of the log scheme writes `1/2 ± t_min * exp(j * scale)` at the
distance `j + 1` from the middle index `m = nfreq/2`, for
`j = i, …, i + steps - 1`, and leaves the other entries as they are. -/
theorem logarithmicLoop_spec (exp : K → K) (nfreq : Nat) (t_min scale : K) :
    ∀ (steps i : Nat) (t : List K), i + steps ≤ nfreq / 2 →
      nfreq / 2 + i + steps < t.length →
      ∃ t1, logarithmicLoop exp nfreq t_min scale steps i t = .ok t1 ∧
        t1.length = t.length ∧
        (∀ p, nfreq / 2 + i < p → p ≤ nfreq / 2 + i + steps →
          entry t1 p = 1 / 2 + t_min * exp (((p - nfreq / 2 - 1 : Nat) : K) * scale)) ∧
        (∀ p, p + i < nfreq / 2 → nfreq / 2 ≤ p + i + steps →
          entry t1 p = 1 / 2 - t_min * exp (((nfreq / 2 - 1 - p : Nat) : K) * scale)) ∧
        (∀ p, (p ≤ nfreq / 2 + i ∧ nfreq / 2 ≤ p + i) ∨ nfreq / 2 + i + steps < p
            ∨ p + i + steps < nfreq / 2 → entry t1 p = entry t p) := by
  intro steps
  induction steps with
  | zero =>
    intro i t _ _
    refine ⟨t, by simp [logarithmicLoop], rfl, ?_, ?_, fun p _ => rfl⟩
    · intro p h1 h2; omega
    · intro p h1 h2; omega
  | succ steps ih =>
    intro i t him hlen
    have hidx1 : ((((nfreq / 2 : Nat) : Int)) + (i : Int) + 1)
        = ((nfreq / 2 + i + 1 : Nat) : Int) := by omega
    have hidx2 : ((((nfreq / 2 : Nat) : Int)) - (i : Int) - 1)
        = ((nfreq / 2 - i - 1 : Nat) : Int) := by omega
    have hw1 := writeAt_ok t (nfreq / 2 + i + 1)
      (1 / 2 + t_min * exp ((((i : Int)) : K) * scale)) (by omega)
    have hw2 := writeAt_ok (t.set (nfreq / 2 + i + 1)
        (1 / 2 + t_min * exp ((((i : Int)) : K) * scale))) (nfreq / 2 - i - 1)
      (1 / 2 - t_min * exp ((((i : Int)) : K) * scale)) (by simp; omega)
    obtain ⟨t1, hloop, hl1, hup, hdown, hrest⟩ := ih (i + 1)
      ((t.set (nfreq / 2 + i + 1) (1 / 2 + t_min * exp ((((i : Int)) : K) * scale))).set
        (nfreq / 2 - i - 1) (1 / 2 - t_min * exp ((((i : Int)) : K) * scale)))
      (by omega) (by simp; omega)
    have hent : ∀ p, entry ((t.set (nfreq / 2 + i + 1)
          (1 / 2 + t_min * exp ((((i : Int)) : K) * scale))).set
        (nfreq / 2 - i - 1) (1 / 2 - t_min * exp ((((i : Int)) : K) * scale))) p
        = if p = nfreq / 2 - i - 1 then 1 / 2 - t_min * exp ((((i : Int)) : K) * scale)
          else if p = nfreq / 2 + i + 1 then 1 / 2 + t_min * exp ((((i : Int)) : K) * scale)
          else entry t p := by
      intro p
      rw [entry_set _ _ _ _ (by simp; omega), entry_set _ _ _ _ (by omega)]
    refine ⟨t1, ?_, by simpa using hl1, ?_, ?_, ?_⟩
    · unfold logarithmicLoop
      simp only [hidx1, hidx2, hw1, hw2, bind, Except.bind]
      exact hloop
    · intro p h1 h2
      by_cases hp : p = nfreq / 2 + i + 1
      · have hr := hrest p (Or.inl ⟨by omega, by omega⟩)
        rw [hr, hent, if_neg (by omega), if_pos hp]
        have : p - nfreq / 2 - 1 = i := by omega
        rw [this, Int.cast_natCast]
      · exact hup p (by omega) (by omega)
    · intro p h1 h2
      by_cases hp : p = nfreq / 2 - i - 1
      · have hr := hrest p (Or.inl ⟨by omega, by omega⟩)
        rw [hr, hent, if_pos hp]
        have : nfreq / 2 - 1 - p = i := by omega
        rw [this, Int.cast_natCast]
      · exact hdown p (by omega) (by omega)
    · intro p hp
      have hr := hrest p (by omega)
      rw [hr, hent, if_neg (by omega), if_neg (by omega)]

/-- The result of the log scheme when `t_min ≠ 0` and `nfreq/2 ≠ 1`: all
`nfreq + 1` entries are written. -/
theorem initialize_logarithmic_map_spec (exp log : K → K) (nfreq : Nat) (t_min : K)
    (ht : t_min ≠ 0) (hm : nfreq / 2 ≠ 1) :
    ∃ t, initialize_logarithmic_map exp log nfreq t_min = .ok t ∧ t.length = nfreq + 1 ∧
      entry t (nfreq / 2) = 1 / 2 ∧
      (∀ p, nfreq / 2 < p → p ≤ nfreq / 2 + nfreq / 2 →
        entry t p = 1 / 2 + t_min * exp (((p - nfreq / 2 - 1 : Nat) : K)
          * (log (1 / 2 / t_min) / (((nfreq / 2 : Nat) : K) - 1)))) ∧
      (∀ p, p < nfreq / 2 →
        entry t p = 1 / 2 - t_min * exp (((nfreq / 2 - 1 - p : Nat) : K)
          * (log (1 / 2 / t_min) / (((nfreq / 2 : Nat) : K) - 1)))) ∧
      (nfreq % 2 = 1 →
        entry t nfreq = 1 / 2 + t_min * exp ((nfreq : K) / 2
          * (log (1 / 2 / t_min) / (((nfreq / 2 : Nat) : K) - 1)))) := by
  have hcast : (((((((nfreq / 2 : Nat) : Int)) - 1 : Int)) : K)) = ((nfreq / 2 : Nat) : K) - 1 := by
    rw [Int.cast_sub, Int.cast_natCast, Int.cast_one]
  have hd : ((nfreq / 2 : Nat) : K) - 1 ≠ 0 := by
    intro h
    have h1 : ((nfreq / 2 : Nat) : K) = ((1 : Nat) : K) := by
      rw [Nat.cast_one]; linarith
    exact hm (Nat.cast_injective h1)
  have hw0 := writeAt_ok (List.replicate (nfreq + 1) (0 : K)) (nfreq / 2) (1 / 2)
    (by simp; omega)
  obtain ⟨t1, hloop, hl1, hup, hdown, hrest⟩ := logarithmicLoop_spec exp nfreq t_min
    (log (1 / 2 / t_min) / (((nfreq / 2 : Nat) : K) - 1)) (nfreq / 2) 0
    ((List.replicate (nfreq + 1) (0 : K)).set (nfreq / 2) (1 / 2)) (by omega) (by simp; omega)
  have hl1' : t1.length = nfreq + 1 := by simpa using hl1
  have hmid : entry t1 (nfreq / 2) = 1 / 2 := by
    rw [hrest (nfreq / 2) (Or.inl ⟨by omega, by omega⟩), entry_set _ _ _ _ (by simp; omega),
      if_pos rfl]
  rcases Nat.mod_two_eq_zero_or_one nfreq with hpar | hpar
  · refine ⟨t1, ?_, hl1', hmid, fun p h1 h2 => hup p (by omega) (by omega),
      fun p h1 => hdown p (by omega) (by omega), fun h => by omega⟩
    unfold initialize_logarithmic_map
    simp only [safeDiv_ok _ ht, hcast, safeDiv_ok _ hd, hw0, hloop, bind, Except.bind, pure,
      Except.pure, hpar, ne_eq, not_true_eq_false, if_false]
  · have hidx : ((((nfreq / 2 : Nat) : Int)) + (((nfreq / 2 : Nat) : Int)) + 1)
        = ((nfreq : Nat) : Int) := by omega
    have hw := writeAt_ok t1 nfreq (1 / 2 + t_min * exp ((((nfreq : Int)) : K) / 2
      * (log (1 / 2 / t_min) / (((nfreq / 2 : Nat) : K) - 1)))) (by omega)
    refine ⟨t1.set nfreq (1 / 2 + t_min * exp ((((nfreq : Int)) : K) / 2
      * (log (1 / 2 / t_min) / (((nfreq / 2 : Nat) : K) - 1)))), ?_, by simpa using hl1', ?_,
      fun p h1 h2 => ?_, fun p h1 => ?_, fun _ => ?_⟩
    · unfold initialize_logarithmic_map
      simp only [safeDiv_ok _ ht, hcast, safeDiv_ok _ hd, hw0, hloop, bind, Except.bind, hpar,
        ne_eq, one_ne_zero, not_false_eq_true, if_true, hidx, hw]
    · rw [entry_set _ _ _ _ (by omega), if_neg (by omega)]; exact hmid
    · rw [entry_set _ _ _ _ (by omega), if_neg (by omega)]; exact hup p (by omega) (by omega)
    · rw [entry_set _ _ _ _ (by omega), if_neg (by omega)]; exact hdown p (by omega) (by omega)
    · rw [entry_set _ _ _ _ (by omega), if_pos rfl, Int.cast_natCast]

/-- For `nfreq = 2` and `nfreq = 3` the divisor `nfreq/2 - 1` of the log
scheme is zero. -/
theorem initialize_logarithmic_map_zero_divisor (exp log : K → K) (nfreq : Nat) (t_min : K)
    (ht : t_min ≠ 0) (hm : nfreq / 2 = 1) :
    initialize_logarithmic_map exp log nfreq t_min = .error .divisionByZero := by
  unfold initialize_logarithmic_map
  simp only [safeDiv_ok _ ht, hm, Nat.cast_one, sub_self, Int.cast_zero, safeDiv_zero, bind,
    Except.bind]

end LogarithmicGrid
end Maxent

namespace Maxent
section LogarithmicReal

/-- The scale of the log scheme is positive and `t_min * exp((m-1)*scale)`
is `1/2`, for `m = nfreq/2 ≥ 2` and `0 < t_min < 1/2`. -/
theorem log_scale_facts (m : Nat) (t_min : ℝ) (hm : 2 ≤ m) (ht0 : 0 < t_min)
    (ht1 : t_min < 1 / 2) :
    0 < Real.log (1 / 2 / t_min) / ((m : ℝ) - 1) ∧
    t_min * Real.exp (((m - 1 : Nat) : ℝ) * (Real.log (1 / 2 / t_min) / ((m : ℝ) - 1)))
      = 1 / 2 := by
  have hm1 : (0 : ℝ) < (m : ℝ) - 1 := by
    have : (2 : ℝ) ≤ (m : ℝ) := by exact_mod_cast hm
    linarith
  have hr : 1 < 1 / 2 / t_min := by
    rw [lt_div_iff₀ ht0]; linarith
  have hlog : 0 < Real.log (1 / 2 / t_min) := Real.log_pos hr
  refine ⟨div_pos hlog hm1, ?_⟩
  have hcast : ((m - 1 : Nat) : ℝ) = (m : ℝ) - 1 := by
    rw [Nat.cast_sub (by omega)]; simp
  rw [hcast, mul_div_cancel₀ _ (ne_of_gt hm1), Real.exp_log (by linarith)]
  field_simp
  ring

/-- The part of the log grid written by the loop, for `nfreq/2 ≥ 2` and
`0 < t_min < 1/2`: entries `0 … 2*(nfreq/2)` run from `0` through `1/2` at
the middle to `1`, increase strictly and are symmetric about the middle;
for odd `nfreq` the extra last entry lies above `1`. -/
theorem logarithmic_entries (nfreq : Nat) (t_min : ℝ) (hm : 2 ≤ nfreq / 2) (ht0 : 0 < t_min)
    (ht1 : t_min < 1 / 2) :
    ∃ t : List ℝ, initialize_logarithmic_map Real.exp Real.log nfreq t_min = .ok t ∧
      t.length = nfreq + 1 ∧ entry t 0 = 0 ∧ entry t (nfreq / 2) = 1 / 2 ∧
      entry t (nfreq / 2 + nfreq / 2) = 1 ∧
      (∀ i, i < nfreq / 2 + nfreq / 2 → entry t i < entry t (i + 1)) ∧
      (∀ k, k ≤ nfreq / 2 → entry t (nfreq / 2 + k) + entry t (nfreq / 2 - k) = 1) ∧
      (nfreq % 2 = 1 →
        entry t nfreq = 1 / 2 + t_min * Real.exp ((nfreq : ℝ) / 2
          * (Real.log (1 / 2 / t_min) / (((nfreq / 2 : Nat) : ℝ) - 1))) ∧
        1 < entry t nfreq ∧
        ((nfreq / 2 : Nat) : ℝ) * (Real.log (1 / 2 / t_min) / (((nfreq / 2 : Nat) : ℝ) - 1))
          < (nfreq : ℝ) / 2 * (Real.log (1 / 2 / t_min) / (((nfreq / 2 : Nat) : ℝ) - 1))) := by
  obtain ⟨hs, hend⟩ := log_scale_facts (nfreq / 2) t_min hm ht0 ht1
  obtain ⟨t, ht, hlen, hmid, hup, hdown, hodd⟩ :=
    initialize_logarithmic_map_spec Real.exp Real.log nfreq t_min (ne_of_gt ht0) (by omega)
  set s := Real.log (1 / 2 / t_min) / (((nfreq / 2 : Nat) : ℝ) - 1) with hsdef
  have hexp : ∀ a b : Nat, a < b →
      t_min * Real.exp ((a : ℝ) * s) < t_min * Real.exp ((b : ℝ) * s) := by
    intro a b hab
    have hab' : (a : ℝ) < (b : ℝ) := by exact_mod_cast hab
    exact mul_lt_mul_of_pos_left (Real.exp_lt_exp.mpr (mul_lt_mul_of_pos_right hab' hs)) ht0
  have hpos : ∀ a : Nat, 0 < t_min * Real.exp ((a : ℝ) * s) :=
    fun a => mul_pos ht0 (Real.exp_pos _)
  refine ⟨t, ht, hlen, ?_, hmid, ?_, fun i hi => ?_, fun k hk => ?_, fun hpar => ?_⟩
  · rw [hdown 0 (by omega)]
    have : nfreq / 2 - 1 - 0 = nfreq / 2 - 1 := by omega
    rw [this, hend]; norm_num
  · rw [hup _ (by omega) le_rfl]
    have : nfreq / 2 + nfreq / 2 - nfreq / 2 - 1 = nfreq / 2 - 1 := by omega
    rw [this, hend]; norm_num
  · rcases Nat.lt_trichotomy (i + 1) (nfreq / 2) with h | h | h
    · rw [hdown i (by omega), hdown (i + 1) h]
      have := hexp (nfreq / 2 - 1 - (i + 1)) (nfreq / 2 - 1 - i) (by omega)
      linarith
    · rw [hdown i (by omega), h, hmid]
      have := hpos (nfreq / 2 - 1 - i)
      linarith
    · rcases Nat.eq_or_lt_of_le (Nat.lt_succ_iff.mp h) with h2 | h2
      · rw [← h2, hmid, hup (nfreq / 2 + 1) (by omega) (by omega)]
        have := hpos (nfreq / 2 + 1 - nfreq / 2 - 1)
        linarith
      · rw [hup i h2 (by omega), hup (i + 1) (by omega) (by omega)]
        have := hexp (i - nfreq / 2 - 1) (i + 1 - nfreq / 2 - 1) (by omega)
        linarith
  · rcases Nat.eq_zero_or_pos k with hk0 | hk0
    · subst hk0
      simp only [Nat.add_zero, Nat.sub_zero, hmid]; norm_num
    · rw [hup (nfreq / 2 + k) (by omega) (by omega), hdown (nfreq / 2 - k) (by omega)]
      have h1 : nfreq / 2 + k - nfreq / 2 - 1 = k - 1 := by omega
      have h2 : nfreq / 2 - 1 - (nfreq / 2 - k) = k - 1 := by omega
      rw [h1, h2]; ring
  · refine ⟨hodd hpar, ?_, ?_⟩
    swap
    · apply mul_lt_mul_of_pos_right _ hs
      have h2 : 2 * (nfreq / 2) + 1 ≤ nfreq := by omega
      have h3 : (2 : ℝ) * ((nfreq / 2 : Nat) : ℝ) + 1 ≤ (nfreq : ℝ) := by exact_mod_cast h2
      linarith
    rw [hodd hpar]
    have hlt : ((nfreq / 2 - 1 : Nat) : ℝ) * s < (nfreq : ℝ) / 2 * s := by
      apply mul_lt_mul_of_pos_right _ hs
      have h1 : ((nfreq / 2 - 1 : Nat) : ℝ) ≤ ((nfreq : Nat) : ℝ) / 2 - 1 := by
        have h2 : 2 * (nfreq / 2 - 1) + 2 ≤ nfreq := by omega
        have h3 : (2 : ℝ) * ((nfreq / 2 - 1 : Nat) : ℝ) + 2 ≤ (nfreq : ℝ) := by exact_mod_cast h2
        linarith
      linarith
    have := mul_lt_mul_of_pos_left (Real.exp_lt_exp.mpr hlt) ht0
    rw [hend] at this
    linarith

/-- C13: for even `nfreq ≥ 4` and `0 < t_min < 1/2` the log scheme gives
`nfreq + 1` entries with `t_array[0] = 0`, `t_array[nfreq/2] = 1/2`,
`t_array[nfreq] = 1`, `t_array[i] < t_array[i+1]` for `0 ≤ i < nfreq`, and
`t_array[nfreq/2 + k] + t_array[nfreq/2 - k] = 1` for `0 ≤ k ≤ nfreq/2`
(real exponential and logarithm). -/
theorem initialize_logarithmic_map_even (nfreq : Nat) (t_min : ℝ) (hn : 4 ≤ nfreq)
    (heven : nfreq % 2 = 0) (ht0 : 0 < t_min) (ht1 : t_min < 1 / 2) :
    ∃ t : List ℝ, initialize_logarithmic_map Real.exp Real.log nfreq t_min = .ok t ∧
      t.length = nfreq + 1 ∧ entry t 0 = 0 ∧ entry t (nfreq / 2) = 1 / 2 ∧
      entry t nfreq = 1 ∧
      (∀ i, i < nfreq → entry t i < entry t (i + 1)) ∧
      (∀ k, k ≤ nfreq / 2 → entry t (nfreq / 2 + k) + entry t (nfreq / 2 - k) = 1) := by
  obtain ⟨t, ht, hlen, h0, hmid, hend, hinc, hsym, -⟩ :=
    logarithmic_entries nfreq t_min (by omega) ht0 ht1
  have h2m : nfreq / 2 + nfreq / 2 = nfreq := by omega
  rw [h2m] at hend hinc
  exact ⟨t, ht, hlen, h0, hmid, hend, hinc, hsym⟩

/-- C13 at `nfreq = 4`, `t_min = 1/4`: five entries, from `0` through
`1/2` in the middle to `1`, with `t_array[1] + t_array[3] = 1`. -/
theorem initialize_logarithmic_map_even_witness :
    ∃ t : List ℝ, initialize_logarithmic_map Real.exp Real.log 4 (1 / 4) = .ok t ∧
      t.length = 5 ∧ entry t 0 = 0 ∧ entry t 2 = 1 / 2 ∧ entry t 4 = 1 ∧
      entry t 1 < entry t 2 ∧ entry t 3 + entry t 1 = 1 := by
  obtain ⟨t, ht, hlen, h0, hmid, hend, hinc, hsym⟩ :=
    initialize_logarithmic_map_even 4 (1 / 4) (by norm_num) (by norm_num) (by norm_num)
      (by norm_num)
  exact ⟨t, ht, hlen, h0, hmid, hend, hinc 1 (by norm_num), hsym 1 (by norm_num)⟩

/-- C14: for odd `nfreq ≥ 5` and `0 < t_min < 1/2` the log scheme returns
`nfreq + 1` entries and writes every one of them: `1/2` at the middle index
`m = nfreq/2`, `1/2 ± t_min * exp(i * scale)` at `m ± (i + 1)` for
`0 ≤ i < m`, and the extra entry at index `nfreq`; `t_array[0] = 0`, and the
entries increase strictly. The loop already reaches `1` at index
`nfreq - 1`, and the extra entry is
`1/2 + t_min * exp((nfreq/2) * scale)` with `nfreq/2` the quotient of real
numbers: it lies above `1`, so `t_array[nfreq] = 1` fails, and it is not the
exponential rule at the integer `nfreq/2` either
(`scale = log(0.5/t_min)/(nfreq/2 - 1)`, integer quotient). -/
theorem initialize_logarithmic_map_odd (nfreq : Nat) (t_min : ℝ) (hn : 5 ≤ nfreq)
    (hodd : nfreq % 2 = 1) (ht0 : 0 < t_min) (ht1 : t_min < 1 / 2) :
    ∃ t : List ℝ, initialize_logarithmic_map Real.exp Real.log nfreq t_min = .ok t ∧
      t.length = nfreq + 1 ∧
      entry t (nfreq / 2) = 1 / 2 ∧
      (∀ i, i < nfreq / 2 →
        entry t (nfreq / 2 + i + 1) = 1 / 2 + t_min * Real.exp ((i : ℝ)
          * (Real.log (1 / 2 / t_min) / (((nfreq / 2 : Nat) : ℝ) - 1))) ∧
        entry t (nfreq / 2 - i - 1) = 1 / 2 - t_min * Real.exp ((i : ℝ)
          * (Real.log (1 / 2 / t_min) / (((nfreq / 2 : Nat) : ℝ) - 1)))) ∧
      entry t nfreq = 1 / 2 + t_min * Real.exp ((nfreq : ℝ) / 2
        * (Real.log (1 / 2 / t_min) / (((nfreq / 2 : Nat) : ℝ) - 1))) ∧
      entry t 0 = 0 ∧ entry t (nfreq - 1) = 1 ∧
      (∀ i, i < nfreq → entry t i < entry t (i + 1)) ∧
      1 < entry t nfreq ∧
      entry t nfreq ≠ 1 / 2 + t_min * Real.exp (((nfreq / 2 : Nat) : ℝ)
        * (Real.log (1 / 2 / t_min) / (((nfreq / 2 : Nat) : ℝ) - 1))) := by
  obtain ⟨t, ht, hlen, h0, hmid, hend, hinc, -, hlast⟩ :=
    logarithmic_entries nfreq t_min (by omega) ht0 ht1
  obtain ⟨t2, ht2, -, -, hup, hdown, -⟩ :=
    initialize_logarithmic_map_spec Real.exp Real.log nfreq t_min (ne_of_gt ht0) (by omega)
  have htt : t2 = t := Except.ok.inj (ht2.symm.trans ht)
  subst htt
  obtain ⟨hval, hgt, hlt⟩ := hlast hodd
  have h2m : nfreq / 2 + nfreq / 2 = nfreq - 1 := by omega
  rw [h2m] at hend hinc
  refine ⟨t2, ht, hlen, hmid, fun i hi => ⟨?_, ?_⟩, hval, h0, hend, fun i hi => ?_, hgt, ?_⟩
  · rw [hup (nfreq / 2 + i + 1) (by omega) (by omega)]
    have : nfreq / 2 + i + 1 - nfreq / 2 - 1 = i := by omega
    rw [this]
  · rw [hdown (nfreq / 2 - i - 1) (by omega)]
    have : nfreq / 2 - 1 - (nfreq / 2 - i - 1) = i := by omega
    rw [this]
  · rcases Nat.lt_or_ge i (nfreq - 1) with h | h
    · exact hinc i h
    · have hi1 : i = nfreq - 1 := by omega
      have hi2 : i + 1 = nfreq := by omega
      rw [hi2, hi1, hend]
      exact hgt
  · rw [hval]
    intro h
    have h2 := mul_left_cancel₀ (ne_of_gt ht0) (add_left_cancel h)
    exact absurd (Real.exp_injective h2) (ne_of_gt hlt)

/-- C14 at `nfreq = 5`, `t_min = 1/4` (a log grid with `NFREQ = 5`,
`LOG_MIN = 0.25`): six entries, `t_array[0] = 0`, `t_array[1] = 1/4`,
`t_array[2] = 1/2`, `t_array[3] = 3/4`, `t_array[4] = 1`, and the last entry
`t_array[5]` is above `1`, not equal to `1`. -/
theorem initialize_logarithmic_map_odd_witness :
    ∃ t : List ℝ, initialize_logarithmic_map Real.exp Real.log 5 (1 / 4) = .ok t ∧
      t.length = 6 ∧ entry t 0 = 0 ∧ entry t 1 = 1 / 4 ∧ entry t 2 = 1 / 2 ∧
      entry t 3 = 3 / 4 ∧ entry t 4 = 1 ∧ 1 < entry t 5 ∧ entry t 5 ≠ 1 := by
  obtain ⟨t, ht, hlen, hmid, hrule, -, h0, h4, -, h5, -⟩ :=
    initialize_logarithmic_map_odd 5 (1 / 4) (by norm_num) (by norm_num) (by norm_num)
      (by norm_num)
  have h1 := (hrule 0 (by norm_num)).2
  have h3 := (hrule 0 (by norm_num)).1
  have e1 : 5 / 2 - 0 - 1 = 1 := by norm_num
  have e3 : 5 / 2 + 0 + 1 = 3 := by norm_num
  have e2 : 5 / 2 = 2 := by norm_num
  rw [e1] at h1
  rw [e3] at h3
  rw [e2] at hmid
  simp only [Nat.cast_zero, zero_mul, Real.exp_zero, mul_one] at h1 h3
  exact ⟨t, ht, hlen, h0, by rw [h1]; norm_num, hmid, by rw [h3]; norm_num, h4, h5,
    ne_of_gt h5⟩

end LogarithmicReal
end Maxent

/-! ## TabFunction: loading the table -/

namespace Maxent
namespace TabFunction
section Loading
variable {K : Type}

theorem skip_iff_startsWithHash (line : List Char) :
    (0 < line.length ∧ line.head? = some '#') ↔ startsWithHash line = true := by
  unfold startsWithHash
  constructor
  · intro h; simpa using h.2
  · intro h
    have h2 : line.head? = some '#' := by simpa using h
    refine ⟨?_, h2⟩
    cases line with
    | nil => simp at h2
    | cons c rest => simp

theorem loadLoop_cons (extract : List Char → K × K → K × K) (line : List Char)
    (rest : List (List Char)) (vars : K × K) (f : TabFunction K) :
    loadLoop extract (line :: rest) vars f
      = if startsWithHash line = true then loadLoop extract rest vars f
        else loadLoop extract rest (extract line vars)
          { Omega := f.Omega ++ [(extract line vars).1],
            Def := f.Def ++ [(extract line vars).2] } := by
  by_cases h : startsWithHash line = true
  · rw [if_pos h]
    conv_lhs => unfold loadLoop
    rw [if_pos ((skip_iff_startsWithHash line).mpr h)]
  · rw [if_neg h]
    conv_lhs => unfold loadLoop
    rw [if_neg (fun hc => h ((skip_iff_startsWithHash line).mp hc))]

/-- The loop skips exactly the lines that start with `#`: it gives the same
table on the list of the other lines. -/
theorem loadLoop_filter (extract : List Char → K × K → K × K) :
    ∀ (lines : List (List Char)) (vars : K × K) (f : TabFunction K),
      loadLoop extract lines vars f
        = loadLoop extract (lines.filter (fun l => !startsWithHash l)) vars f := by
  intro lines
  induction lines with
  | nil => intro vars f; rfl
  | cons line rest ih =>
    intro vars f
    by_cases h : startsWithHash line = true
    · rw [List.filter_cons_of_neg (by simp [h]), loadLoop_cons, if_pos h]
      exact ih vars f
    · rw [List.filter_cons_of_pos (by simp [h]), loadLoop_cons, if_neg h, loadLoop_cons,
        if_neg h]
      exact ih _ _

/-- Every line that does not start with `#` adds one sample. -/
theorem loadLoop_length (extract : List Char → K × K → K × K) :
    ∀ (lines : List (List Char)) (vars : K × K) (f : TabFunction K),
      (loadLoop extract lines vars f).Omega.length
          = f.Omega.length + (lines.filter (fun l => !startsWithHash l)).length ∧
      (loadLoop extract lines vars f).Def.length
          = f.Def.length + (lines.filter (fun l => !startsWithHash l)).length := by
  intro lines
  induction lines with
  | nil => intro vars f; simp [loadLoop]
  | cons line rest ih =>
    intro vars f
    by_cases h : startsWithHash line = true
    · rw [List.filter_cons_of_neg (by simp [h]), loadLoop_cons, if_pos h]
      exact ih vars f
    · rw [List.filter_cons_of_pos (by simp [h]), loadLoop_cons, if_neg h]
      obtain ⟨h1, h2⟩ := ih (extract line vars)
        { Omega := f.Omega ++ [(extract line vars).1], Def := f.Def ++ [(extract line vars).2] }
      simp only [List.length_append, List.length_singleton] at h1 h2
      constructor
      · rw [h1, List.length_cons]; omega
      · rw [h2, List.length_cons]; omega

/-- When the extraction does not depend on the values of the line before,
the samples are those of the lines that do not start with `#`, in order. -/
theorem loadLoop_samples (extract : List Char → K × K → K × K) (parse : List Char → K × K)
    (hp : ∀ l v, extract l v = parse l) :
    ∀ (lines : List (List Char)) (vars : K × K) (f : TabFunction K),
      (loadLoop extract lines vars f).Omega
          = f.Omega ++ (lines.filter (fun l => !startsWithHash l)).map (fun l => (parse l).1) ∧
      (loadLoop extract lines vars f).Def
          = f.Def ++ (lines.filter (fun l => !startsWithHash l)).map (fun l => (parse l).2) := by
  intro lines
  induction lines with
  | nil => intro vars f; simp [loadLoop]
  | cons line rest ih =>
    intro vars f
    by_cases h : startsWithHash line = true
    · rw [List.filter_cons_of_neg (by simp [h]), loadLoop_cons, if_pos h]
      exact ih vars f
    · rw [List.filter_cons_of_pos (by simp [h]), loadLoop_cons, if_neg h]
      obtain ⟨h1, h2⟩ := ih (extract line vars)
        { Omega := f.Omega ++ [(extract line vars).1], Def := f.Def ++ [(extract line vars).2] }
      rw [hp] at h1 h2
      constructor
      · rw [hp, h1]; simp only [List.map_cons, List.append_assoc, List.singleton_append]
      · rw [hp, h2]; simp only [List.map_cons, List.append_assoc, List.singleton_append]

/-- C16 as stated fails on the line made of a space and `#`: its first
non-space character is `#`, but the line is not skipped and a sample is
appended. -/
theorem load_keeps_indented_comment :
    firstNonSpaceIsHash [' ', '#'] = true ∧
    (load (K := ℚ) (fun _ v => v) (0, 0) [[' ', '#']]).Omega.length = 1 ∧
    (load (K := ℚ) (fun _ v => v) (0, 0) [[' ', '#']]).Def.length = 1 := by
  refine ⟨by decide, ?_, ?_⟩
  · simp [load, loadLoop]
  · simp [load, loadLoop]

/-- C16, amended: a line contributes no sample if and only if its first
character is `#`: the table read from the lines is the table read from the
lines that do not start with `#`, each of which adds one sample; when the
extraction of a line does not depend on the lines before, the samples are
those of these lines, in file order. -/
theorem load_skips_hash_lines (extract : List Char → K × K → K × K) (init : K × K)
    (lines : List (List Char)) :
    load extract init lines = load extract init (lines.filter (fun l => !startsWithHash l)) ∧
    (load extract init lines).Omega.length
      = (lines.filter (fun l => !startsWithHash l)).length ∧
    (load extract init lines).Def.length
      = (lines.filter (fun l => !startsWithHash l)).length ∧
    ∀ parse : List Char → K × K, (∀ l v, extract l v = parse l) →
      (load extract init lines).Omega
        = (lines.filter (fun l => !startsWithHash l)).map (fun l => (parse l).1) ∧
      (load extract init lines).Def
        = (lines.filter (fun l => !startsWithHash l)).map (fun l => (parse l).2) := by
  refine ⟨loadLoop_filter extract lines init _, ?_, ?_, fun parse hp => ?_⟩
  · simpa [load] using (loadLoop_length extract lines init { Omega := [], Def := [] }).1
  · simpa [load] using (loadLoop_length extract lines init { Omega := [], Def := [] }).2
  · simpa [load] using loadLoop_samples extract parse hp lines init { Omega := [], Def := [] }

/-- C16, amended, on the three lines `# c`, ` #` and `1 2`, with the length
of the line standing for the extracted abscissa: the first line is skipped
and the other two give the samples `2` and `3`, in this order. -/
theorem load_skips_hash_lines_witness :
    (load (K := ℚ) (fun l _ => ((l.length : ℚ), 0)) (0, 0)
      [['#', ' ', 'c'], [' ', '#'], ['1', ' ', '2']]).Omega = [2, 3] := by
  have h := (load_skips_hash_lines (K := ℚ) (fun l _ => ((l.length : ℚ), 0)) (0, 0)
    [['#', ' ', 'c'], [' ', '#'], ['1', ' ', '2']]).2.2.2
    (fun l => ((l.length : ℚ), 0)) (fun _ _ => rfl)
  rw [h.1]
  simp [startsWithHash]

end Loading
end TabFunction
end Maxent

/-! ## Divisors of the grid construction -/

namespace Maxent
section GridDivisors

theorem initialize_linear_map_ok {K : Type} [LinearOrderedField K] (nfreq : Nat)
    (hn : 1 ≤ nfreq) : ∃ t : List K, initialize_linear_map nfreq = .ok t := by
  have hne : (((nfreq : Int)) : K) ≠ 0 := by
    have : (nfreq : Int) ≠ 0 := by omega
    exact_mod_cast this
  exact ⟨_, fillLoop_eq (fun i => safeDiv (((i : Int)) : K) (((nfreq : Int)) : K))
    (fun i => (((i : Int)) : K) / (((nfreq : Int)) : K)) (nfreq + 1) 0
    (fun i _ _ => safeDiv_ok _ hne)⟩

theorem initialize_linear_map_zero {K : Type} [LinearOrderedField K] :
    (initialize_linear_map 0 : Except Err (List K)) = .error .divisionByZero := by
  simp [initialize_linear_map, fillLoop, safeDiv, bind, Except.bind]

theorem initialize_lorentzian_grid_ok (nfreq : Nat) (cut : ℝ) (hn : 1 ≤ nfreq)
    (hc0 : 0 < cut) (hc1 : cut < 1 / 2) :
    ∃ t : List ℝ, initialize_lorentzian_grid Real.tan Real.pi nfreq cut = .ok t := by
  have hnpos : (0 : ℝ) < (nfreq : ℝ) := by exact_mod_cast hn
  have hne : (((nfreq : Int)) : ℝ) ≠ 0 := by
    rw [Int.cast_natCast]; exact ne_of_gt hnpos
  have hw : 0 < 1 - 2 * cut := by linarith
  have hT : Real.tan (Real.pi * (((0 : Nat) : ℝ) / (nfreq : ℝ) * (1 - 2 * cut) + cut - 1 / 2))
      < Real.tan (Real.pi * ((nfreq : ℝ) / (nfreq : ℝ) * (1 - 2 * cut) + cut - 1 / 2)) := by
    refine Real.tan_lt_tan_of_lt_of_lt_pi_div_two
      (lorentzian_arg_bounds nfreq cut hn hc0 hc1 0 (by omega)).1
      (lorentzian_arg_bounds nfreq cut hn hc0 hc1 nfreq le_rfl).2 ?_
    have hlt : ((0 : Nat) : ℝ) / (nfreq : ℝ) < (nfreq : ℝ) / (nfreq : ℝ) :=
      div_lt_div_of_pos_right (by simpa using hnpos) hnpos
    have := mul_lt_mul_of_pos_right hlt hw
    exact mul_lt_mul_of_pos_left (by linarith) Real.pi_pos
  have htemp := fillLoop_eq
    (fun i => do
      let q ← safeDiv (((i : Int)) : ℝ) (((nfreq : Int)) : ℝ)
      pure (Real.tan (Real.pi * (q * (1 - 2 * cut) + cut - 1 / 2))))
    (fun i : Nat => Real.tan (Real.pi * ((i : ℝ) / (nfreq : ℝ) * (1 - 2 * cut) + cut - 1 / 2)))
    (nfreq + 1) 0 (fun i _ _ => by
      show (do
        let q ← safeDiv (((i : Int)) : ℝ) (((nfreq : Int)) : ℝ)
        pure (Real.tan (Real.pi * (q * (1 - 2 * cut) + cut - 1 / 2)))) = _
      rw [safeDiv_ok _ hne]
      simp only [bind, Except.bind, pure, Except.pure, Int.cast_natCast])
  have hres := rescaleLoop_eq_of_ne
    (fun i : Nat => Real.tan (Real.pi * ((i : ℝ) / (nfreq : ℝ) * (1 - 2 * cut) + cut - 1 / 2)))
    nfreq (ne_of_gt (sub_pos.mpr hT))
  have heq : initialize_lorentzian_grid Real.tan Real.pi nfreq cut
      = rescaleLoop ((List.range' 0 (nfreq + 1)).map (fun i : Nat =>
          Real.tan (Real.pi * ((i : ℝ) / (nfreq : ℝ) * (1 - 2 * cut) + cut - 1 / 2))))
        (nfreq + 1) := by
    unfold initialize_lorentzian_grid
    rw [htemp]
    simp only [bind, Except.bind]
  rw [heq, hres]
  exact ⟨_, rfl⟩

theorem initialize_half_lorentzian_grid_ok (nfreq : Nat) (cut : ℝ) (hn : 1 ≤ nfreq)
    (hc0 : 0 < cut) (hc1 : cut < 1 / 2) (hpole : cut * (2 * (nfreq : ℝ) + 1) ≠ 1) :
    ∃ t : List ℝ, initialize_half_lorentzian_grid Real.tan Real.pi nfreq cut = .ok t := by
  rcases lt_or_gt_of_ne hpole with h | h
  · exact ⟨_, initialize_half_lorentzian_grid_eq Real.tan Real.pi nfreq cut
      (ne_of_lt (sub_neg.mpr (half_tan_past_pole nfreq cut hn hc0 h).1))⟩
  · exact ⟨_, initialize_half_lorentzian_grid_eq Real.tan Real.pi nfreq cut
      (ne_of_gt (sub_pos.mpr (half_tan_increasing nfreq cut hn hc0 hc1 h 0 nfreq (by omega)
        le_rfl)))⟩

theorem initialize_quadratic_map_zero_divisor {K : Type} [LinearOrderedField K] (nfreq : Nat)
    (spread : K) (hs : 1 ≤ spread) (hn : nfreq = 1 ∨ nfreq = 2) :
    initialize_quadratic_map nfreq spread = .error .divisionByZero := by
  have hg : ¬ spread < 1 := not_lt.mpr hs
  rcases hn with h | h
  · subst h
    simp [initialize_quadratic_map, quadraticLoop, safeDiv, bind, Except.bind, hg]
  · subst h
    simp [initialize_quadratic_map, quadraticLoop, safeDiv, bind, Except.bind, hg]

/-- C20 as stated fails: the log scheme at `nfreq = 2` divides by
`nfreq/2 - 1 = 0`, and the quadratic scheme divides by `nfreq - 1 = 0` at
`nfreq = 1` and by `3*(nfreq-2) = 0` at `nfreq = 2`. -/
theorem grid_zero_divisors :
    initialize_logarithmic_map Real.exp Real.log 2 (1 / 4) = .error .divisionByZero ∧
    initialize_quadratic_map 1 (4 : ℝ) = .error .divisionByZero ∧
    initialize_quadratic_map 2 (4 : ℝ) = .error .divisionByZero := by
  refine ⟨initialize_logarithmic_map_zero_divisor Real.exp Real.log 2 (1 / 4) (by norm_num)
    (by norm_num), initialize_quadratic_map_zero_divisor 1 4 (by norm_num) (Or.inl rfl),
    initialize_quadratic_map_zero_divisor 2 4 (by norm_num) (Or.inr rfl)⟩

/-- C20, amended: for `nfreq ≥ 1` no divisor of the grid construction is
zero (the grid is built) for the linear scheme, the Lorentzian scheme with
`0 < cut < 1/2`, the half-Lorentzian scheme with `0 < cut < 1/2` off the
pole `cut = 1/(2 nfreq + 1)` of the tangent, the log scheme with
`0 < t_min < 1/2` and `nfreq` other than `2` and `3`, and the quadratic
scheme with `spread ≥ 1` and `nfreq ≥ 3`; the log scheme at `nfreq = 2, 3`
and the quadratic scheme at `nfreq = 1, 2` divide by zero. -/
theorem grid_divisors_nonzero (nfreq : Nat) (hn : 1 ≤ nfreq) :
    (∃ t : List ℝ, initialize_linear_map nfreq = .ok t) ∧
    (∀ cut : ℝ, 0 < cut → cut < 1 / 2 →
      ∃ t : List ℝ, initialize_lorentzian_grid Real.tan Real.pi nfreq cut = .ok t) ∧
    (∀ cut : ℝ, 0 < cut → cut < 1 / 2 → cut * (2 * (nfreq : ℝ) + 1) ≠ 1 →
      ∃ t : List ℝ, initialize_half_lorentzian_grid Real.tan Real.pi nfreq cut = .ok t) ∧
    (∀ t_min : ℝ, 0 < t_min → t_min < 1 / 2 →
      (nfreq ≠ 2 → nfreq ≠ 3 →
        ∃ t : List ℝ, initialize_logarithmic_map Real.exp Real.log nfreq t_min = .ok t) ∧
      (nfreq = 2 ∨ nfreq = 3 →
        initialize_logarithmic_map Real.exp Real.log nfreq t_min = .error .divisionByZero)) ∧
    (∀ spread : ℝ, 1 ≤ spread →
      (3 ≤ nfreq → ∃ t : List ℝ, initialize_quadratic_map nfreq spread = .ok t) ∧
      (nfreq ≤ 2 → initialize_quadratic_map nfreq spread = .error .divisionByZero)) := by
  refine ⟨initialize_linear_map_ok nfreq hn,
    fun cut h0 h1 => initialize_lorentzian_grid_ok nfreq cut hn h0 h1,
    fun cut h0 h1 hp => initialize_half_lorentzian_grid_ok nfreq cut hn h0 h1 hp,
    fun t_min h0 h1 => ⟨fun h2 h3 => ?_, fun h => ?_⟩,
    fun spread hs => ⟨fun h3 => ⟨_, initialize_quadratic_map_eq nfreq spread h3 hs⟩,
      fun h2 => initialize_quadratic_map_zero_divisor nfreq spread hs (by omega)⟩⟩
  · obtain ⟨t, ht, -⟩ := initialize_logarithmic_map_spec Real.exp Real.log nfreq t_min
      (ne_of_gt h0) (by omega)
    exact ⟨t, ht⟩
  · exact initialize_logarithmic_map_zero_divisor Real.exp Real.log nfreq t_min (ne_of_gt h0)
      (by omega)

/-- C20, amended, at `nfreq = 4`: all five schemes are built (`cut = 1/4`,
`t_min = 1/4`, `spread = 4`). -/
theorem grid_divisors_nonzero_witness :
    (∃ t : List ℝ, initialize_linear_map 4 = .ok t) ∧
    (∃ t : List ℝ, initialize_lorentzian_grid Real.tan Real.pi 4 (1 / 4) = .ok t) ∧
    (∃ t : List ℝ, initialize_half_lorentzian_grid Real.tan Real.pi 4 (1 / 4) = .ok t) ∧
    (∃ t : List ℝ, initialize_logarithmic_map Real.exp Real.log 4 (1 / 4) = .ok t) ∧
    (∃ t : List ℝ, initialize_quadratic_map 4 (4 : ℝ) = .ok t) := by
  have h := grid_divisors_nonzero 4 (by norm_num)
  refine ⟨h.1, h.2.1 (1 / 4) (by norm_num) (by norm_num),
    h.2.2.1 (1 / 4) (by norm_num) (by norm_num) (by norm_num),
    (h.2.2.2.1 (1 / 4) (by norm_num) (by norm_num)).1 (by norm_num) (by norm_num),
    (h.2.2.2.2 4 (by norm_num)).1 (by norm_num)⟩

end GridDivisors
end Maxent
